import Mathlib

/-!
# HTTP response reader (`client/src/http.cpp`)

A shallow embedding of `HttpResponse::HttpResponse`, `HttpResponse::status`,
`HttpResponse::header` and `HttpResponse::read`, followed by the properties
established about them.

Conventions of the embedding

* A C `char` is a `Char`; a `std::string` is a `List Char`.
* `buffer` is a map from offsets to characters.  Offsets at or beyond
  `BUFF_SIZE` stand for the memory that follows the array.
* `BUFF_SIZE` is declared in a header that is not part of the sources and is a
  parameter everywhere.
* `unsigned` values are naturals reduced modulo `2 ^ 32`; `int` fields are
  integers (the fields `content_length`, `bytes_read` and `bytes_buffered` are
  declared in `http.h`, which is not part of the sources; the code treats them
  as `int`).
* Indices into a line (`sep_idx`, `value_begin_idx`, `value_end_idx`) are
  integers without wrap-around: a line is taken to be shorter than `2 ^ 31`.
* A C++ exception leaving the constructor is the `error` case of `Except`.
-/

namespace HttpSockets

/-! ## Library functions used by the source -/

/-- Exceptions of the C++ standard library that the constructor can raise. -/
inductive Exn where
  | invalid_argument
  | out_of_range
  deriving DecidableEq

/-- Conversion of a signed result to `unsigned` (32 bits). -/
def toUnsigned (x : Int) : Nat := (x % 4294967296).toNat

/-- Conversion of an `unsigned` value to `int` (32 bits, two's complement). -/
def toInt32 (x : Nat) : Int :=
  if x % 4294967296 < 2147483648 then ((x % 4294967296 : Nat) : Int)
  else ((x % 4294967296 : Nat) : Int) - 4294967296

/-- Conversion of a signed value to `size_t` (64 bits). -/
def toSizeT (x : Int) : Nat := (x % 18446744073709551616).toNat

/-- The function `tolower` of the C locale. -/
def tolower (c : Char) : Char :=
  if 65 ≤ c.toNat ∧ c.toNat ≤ 90 then Char.ofNat (c.toNat + 32) else c

/-- The function `isspace` of the C locale. -/
def isspace (c : Char) : Bool :=
  c = ' ' || c = '\t' || c = '\n' || c = '\x0b' || c = '\x0c' || c = '\r'

/-- The function `isdigit`. -/
def isdigit (c : Char) : Bool := decide (48 ≤ c.toNat ∧ c.toNat ≤ 57)

/-- The function `isxdigit`. -/
def isxdigit (c : Char) : Bool :=
  isdigit c || decide (97 ≤ (tolower c).toNat ∧ (tolower c).toNat ≤ 102)

/-- Letters, digits and the underscore: the characters of an n-char-sequence. -/
def isnchar (c : Char) : Bool :=
  isdigit c || decide (97 ≤ (tolower c).toNat ∧ (tolower c).toNat ≤ 122) || c = '_'

/-- The value of a string of decimal digits. -/
def digitsValue (ds : List Char) : Nat :=
  ds.foldl (fun a c => 10 * a + (c.toNat - 48)) 0

/-- The characters seen through `c_str()`: everything before the first NUL. -/
def c_str (s : List Char) : List Char := s.takeWhile (fun c => c ≠ '\x00')

/-- The call `std::stoi(value)`: `strtol` in base 10 (leading white space, an
optional sign, the longest run of digits; what follows is ignored), raising
`invalid_argument` when there is no digit and `out_of_range` when the number
does not fit an `int`. -/
def stoi (value : List Char) : Except Exn Int :=
  let s := (c_str value).dropWhile isspace
  let neg := s.head? = some '-'
  let s := if s.head? = some '-' ∨ s.head? = some '+' then s.tail else s
  let ds := s.takeWhile isdigit
  if ds = [] then Except.error Exn.invalid_argument
  else
    let v : Int := if neg then -(digitsValue ds : Int) else (digitsValue ds : Int)
    if v < -2147483648 ∨ 2147483647 < v then Except.error Exn.out_of_range
    else Except.ok v

/-- The call `s.find(c)` stored in an `int`: the first index of `c`, or `-1`
(`npos`) when `c` does not occur. -/
def find (s : List Char) (c : Char) : Int :=
  if s.indexOf c < s.length then (s.indexOf c : Int) else -1

/-- The call `s.rfind(c)` stored in an `int`: the last index of `c`, or `-1`
(`npos`) when `c` does not occur. -/
def rfind (s : List Char) (c : Char) : Int :=
  if s.reverse.indexOf c < s.length then
    ((s.length - 1 - s.reverse.indexOf c : Nat) : Int)
  else -1

/-- The call `s.substr(pos, count)` with `int` arguments converted to `size_t`:
a negative `count` is a huge length and selects everything up to the end; a
position outside `0 .. size` raises `out_of_range`. -/
def substr (s : List Char) (pos count : Int) : Except Exn (List Char) :=
  if pos < 0 ∨ (s.length : Int) < pos then Except.error Exn.out_of_range
  else if count < 0 then Except.ok (s.drop pos.toNat)
  else Except.ok ((s.drop pos.toNat).take count.toNat)

/-- Whether `s` starts with `pat` when upper-case letters are lowered
(`pat` is lower-case). -/
def startsCI (s pat : List Char) : Bool :=
  decide ((s.take pat.length).map tolower = pat)

/-- The exponent part of a floating-point input item: nothing, or the
exponent letter `e`, an optional sign and at least one digit.  An exponent
letter that no digit follows makes the item a proper prefix of a number, which
is a matching failure. -/
def scanExponent (e : Char) (s : List Char) : Option (List Char) :=
  match s with
  | [] => some []
  | c :: t =>
    if tolower c = e then
      let u := if t.head? = some '-' ∨ t.head? = some '+' then t.tail else t
      if (u.takeWhile isdigit) = [] then none else some (u.dropWhile isdigit)
    else some (c :: t)

/-- The mantissa and exponent of a floating-point input item whose digits
satisfy `dig` and whose exponent letter is `e`. -/
def scanMantissa (dig : Char → Bool) (e : Char) (s : List Char) : Option (List Char) :=
  let ip := s.takeWhile dig
  let s1 := s.dropWhile dig
  let hasPoint := s1.head? = some '.'
  let s2 := if hasPoint then s1.tail else s1
  let fp := if hasPoint then s2.takeWhile dig else []
  let s3 := if hasPoint then s2.dropWhile dig else s2
  if ip = [] ∧ fp = [] then none else scanExponent e s3

/-- The conversion `%*f` of `sscanf` (ISO C): skip white space, then take the
longest prefix of an optionally signed decimal or hexadecimal floating-point
number, `inf`, `infinity`, `nan` or `nan(...)`.  The result is the input left
after the item, or `none` on a matching failure. -/
def scanFloat (s : List Char) : Option (List Char) :=
  let s := s.dropWhile isspace
  let s := if s.head? = some '-' ∨ s.head? = some '+' then s.tail else s
  if startsCI s ['n', 'a', 'n'] then
    match s.drop 3 with
    | '(' :: u =>
      match u.dropWhile isnchar with
      | ')' :: w => some w
      | _ => none
    | t => some t
  else if startsCI s ['i', 'n', 'f'] then
    match s.drop 3 with
    | c :: t =>
      if tolower c = 'i' then
        (if startsCI (c :: t) ['i', 'n', 'i', 't', 'y'] then some ((c :: t).drop 5) else none)
      else some (c :: t)
    | [] => some []
  else if startsCI s ['0', 'x'] then scanMantissa isxdigit 'p' (s.drop 2)
  else scanMantissa isdigit 'e' s

/-- The conversion `%d` of `sscanf`: skip white space, then an optionally
signed run of decimal digits.  `none` is a matching failure.  A number that an
`int` cannot hold is undefined in ISO C; the value modelled is the one glibc
stores (the `long` result of `strtol`, truncated to 32 bits). -/
def scanInt (s : List Char) : Option Int :=
  let s := s.dropWhile isspace
  let neg := s.head? = some '-'
  let s := if s.head? = some '-' ∨ s.head? = some '+' then s.tail else s
  let ds := s.takeWhile isdigit
  if ds = [] then none
  else
    let v : Int := if neg then -(digitsValue ds : Int) else (digitsValue ds : Int)
    let l : Int := max (-9223372036854775808) (min 9223372036854775807 v)
    some (toInt32 (toUnsigned l))

/-- The call `sscanf(line.c_str(), "HTTP/%*f %d", &_status)`: the value
assigned to `_status`, or `none` when the input fails to match before the
assignment, in which case `_status` is left as it was. -/
def sscanf_status (line : List Char) : Option Int :=
  let s := c_str line
  if s.take 5 = ['H', 'T', 'T', 'P', '/'] then
    match scanFloat (s.drop 5) with
    | none => none
    | some rest => scanInt (rest.dropWhile isspace)
  else none

/-! ## The socket -/

/-- What one call of `::read` on the socket meets: bytes that have arrived, or
a failure of the transport. -/
inductive Event where
  | data (bytes : List Char)
  | error
  deriving DecidableEq

/-- The socket as the reader sees it: the events still to come, and (as a
record of what the code did) the offset and length arguments of the calls of
`::read` made so far, latest first. -/
structure Socket where
  pending : List Event
  calls : List (Int × Int)

/-- The outcome of one call of `::read`. -/
structure ReadResult where
  ret : Int
  bytes : List Char
  pending : List Event

/-- One call `::read(sock, p, count)` on the pending events: at the end of the
events it returns 0; on an error event it returns `-1`; on a data event it
returns at most `count` bytes of it and leaves the remainder pending. -/
def sockRead (pending : List Event) (count : Nat) : ReadResult :=
  match pending with
  | [] => { ret := 0, bytes := [], pending := [] }
  | Event.error :: rest => { ret := -1, bytes := [], pending := rest }
  | Event.data bs :: rest =>
    if bs.length ≤ count then
      { ret := (bs.length : Int), bytes := bs, pending := rest }
    else
      { ret := (count : Int), bytes := bs.take count,
        pending := Event.data (bs.drop count) :: rest }

/-- The buffer after `::read` has stored `bytes` at offset `off`. -/
def store (buffer : Nat → Char) (off : Nat) (bytes : List Char) : Nat → Char :=
  fun k => if off ≤ k ∧ k < off + bytes.length then bytes.getD (k - off) '\x00' else buffer k

/-- The `len` characters of the buffer from offset `i` on, as
`write(buffer + i, len)` hands them to a stream. -/
def bytesAt (buffer : Nat → Char) (i len : Nat) : List Char :=
  (List.range len).map (fun k => buffer (i + k))

/-! ## The constructor -/

/-- The enumeration `ReadStatus`. -/
inductive ReadStatus where
  | FIRST_LINE
  | HEADERS
  | BODY
  deriving DecidableEq

/-- The header map: keys are unique, a later assignment to a key replaces the
value. -/
abbrev Headers := List (List Char × List Char)

/-- The lookup `headers.find(name)`. -/
def Headers.find : Headers → List Char → Option (List Char)
  | [], _ => none
  | (k, v) :: t, name => if k = name then some v else Headers.find t name

/-- The assignment `headers[name] = value`. -/
def Headers.set : Headers → List Char → List Char → Headers
  | [], name, value => [(name, value)]
  | (k, v) :: t, name, value =>
    if k = name then (k, value) :: t else (k, v) :: Headers.set t name value

/-- What the line-processing part of the constructor reads and writes: the
state of the state machine, the contents of `read_stream`, and the fields
`_status` (`none` while it has not been assigned), `headers` and
`content_length`. -/
structure Parse where
  read_status : ReadStatus
  read_stream : List Char
  _status : Option Int
  headers : Headers
  content_length : Int

/-- The state at the start of the constructor. -/
def Parse.init : Parse :=
  { read_status := ReadStatus.FIRST_LINE, read_stream := [], _status := none,
    headers := [], content_length := 0 }

/-- The loop `while (line[value_begin_idx] == ' ') ++value_begin_idx;`.
Reading `line[size]` gives NUL, so the loop has stopped once `fuel` (the
distance to the end of the line) is used up. -/
def skipSpaces (line : List Char) : Nat → Nat → Nat
  | 0, k => k
  | fuel + 1, k => if line.getD k '\x00' = ' ' then skipSpaces line fuel (k + 1) else k

/-- The header branch of the constructor (source lines 82 to 115). -/
def headerLine (st : Parse) (line : List Char) : Except Exn Parse :=
  let sep_idx : Int := find line ':'
  let value_begin_idx : Nat :=
    skipSpaces line (line.length - (sep_idx + 1).toNat) (sep_idx + 1).toNat
  let value_end_idx : Int := rfind line '\r'
  match substr line 0 sep_idx with
  | Except.error e => Except.error e
  | Except.ok name =>
    match substr line (value_begin_idx : Int) (value_end_idx - (value_begin_idx : Int)) with
    | Except.error e => Except.error e
    | Except.ok value =>
      let name := name.map tolower
      let headers := st.headers.set name value
      if name = "content-length".toList then
        match stoi value with
        | Except.error e => Except.error e
        | Except.ok n =>
          Except.ok { st with headers := headers, content_length := n, read_stream := [] }
      else Except.ok { st with headers := headers, read_stream := [] }

/-- The processing of one complete line (source lines 68 to 125), entered
with `read_status` different from `BODY`; it ends by emptying `read_stream`. -/
def processLine (st : Parse) (line : List Char) : Except Exn Parse :=
  if st.read_status = ReadStatus.FIRST_LINE then
    Except.ok { st with
      _status := (match sscanf_status line with
        | some v => some v
        | none => st._status),
      read_status := ReadStatus.HEADERS, read_stream := [] }
  else if line.getD 0 '\x00' ≠ '\r' then headerLine st line
  else Except.ok { st with read_status := ReadStatus.BODY, read_stream := [] }

/-- The loop `while (buffer[j] != '\n' && j < n_bytes) ++j;`, run with
`fuel = n_bytes - j`, after which the condition is false. -/
def scanLoop (buffer : Nat → Char) (n_bytes : Nat) : Nat → Nat → Nat
  | 0, j => j
  | fuel + 1, j =>
    if buffer j ≠ '\n' ∧ j < n_bytes then scanLoop buffer n_bytes fuel (j + 1) else j

/-- The inner loop of the constructor (source lines 43 to 130) over the chunk
held in `buffer[0 .. n_bytes)`.  The result is the parse state and the final
`i`.  Every turn that does not leave the loop advances `j` past a line feed
below `n_bytes`, so `fuel = n_bytes + 1` turns are never used up. -/
def innerLoop (buffer : Nat → Char) (n_bytes : Nat) :
    Nat → Parse → Nat → Nat → Except Exn (Parse × Nat)
  | 0, st, i, _ => Except.ok (st, i)
  | fuel + 1, st, i, j =>
    if st.read_status = ReadStatus.BODY then Except.ok (st, i)
    else
      let j1 := scanLoop buffer n_bytes (n_bytes - j) j
      if j1 = n_bytes then
        Except.ok ({ st with read_stream := st.read_stream ++ bytesAt buffer i (j1 - i) }, i)
      else
        match processLine st (st.read_stream ++ bytesAt buffer i (j1 - i + 1)) with
        | Except.error e => Except.error e
        | Except.ok st1 => innerLoop buffer n_bytes fuel st1 (j1 + 1) (j1 + 1)

/-- The variables alive across the outer loop of the constructor. -/
structure Locals where
  st : Parse
  buffer : Nat → Char
  i : Nat
  n_bytes : Nat
  sock : Socket

/-- The outer loop of the constructor (source lines 32 to 131).  `fuel` bounds
the number of turns; started with `sockFuel` of the pending events it is never
used up. -/
def outerLoop (BUFF_SIZE : Nat) : Nat → Locals → Except Exn Locals
  | 0, l => Except.ok l
  | fuel + 1, l =>
    if l.st.read_status = ReadStatus.BODY then Except.ok l
    else
      let r := sockRead l.sock.pending BUFF_SIZE
      let sock : Socket :=
        { pending := r.pending, calls := (0, (BUFF_SIZE : Int)) :: l.sock.calls }
      let buffer := store l.buffer 0 r.bytes
      let n_bytes := toUnsigned r.ret
      if n_bytes = 0 then
        Except.ok { st := l.st, buffer := buffer, i := 0, n_bytes := n_bytes, sock := sock }
      else
        match innerLoop buffer n_bytes (n_bytes + 1) l.st 0 0 with
        | Except.error e => Except.error e
        | Except.ok (st1, i1) =>
          outerLoop BUFF_SIZE fuel
            { st := st1, buffer := buffer, i := i1, n_bytes := n_bytes, sock := sock }

/-- A number of turns the outer loop cannot use up: every turn that does not
leave the loop removes an event or at least one byte from the pending
events. -/
def sockFuel (pending : List Event) : Nat :=
  (pending.map (fun e => match e with
    | Event.data bs => bs.length + 1
    | Event.error => 1)).sum + 1

/-- The loop `for (int j = 0; j < bytes_buffered; ++j) buffer[j] = buffer[j + i];`
from `j` on, with `count` turns left. -/
def copyLoop (i : Nat) : Nat → Nat → (Nat → Char) → (Nat → Char)
  | 0, _, buffer => buffer
  | count + 1, j, buffer =>
    copyLoop i count (j + 1)
      (fun k => if k = j then buffer ((j + i) % 4294967296) else buffer k)

/-- The object: the fields of `HttpResponse` (`_path` is only stored and
returned, and is left out), with the socket behind the descriptor `sock`. -/
structure HttpResponse where
  _status : Option Int
  headers : Headers
  content_length : Int
  bytes_read : Int
  bytes_buffered : Int
  buffer : Nat → Char
  sock : Socket

/-- The end of the constructor (source lines 137 to 143): the count of
leftover bytes and their move to the front of the buffer. -/
def relocate (l : Locals) : HttpResponse :=
  let bytes_buffered : Int := toInt32 (toUnsigned ((l.n_bytes : Int) - (l.i : Int)))
  { _status := l.st._status, headers := l.st.headers,
    content_length := l.st.content_length, bytes_read := 0,
    bytes_buffered := bytes_buffered,
    buffer := copyLoop l.i bytes_buffered.toNat 0 l.buffer,
    sock := l.sock }

/-- The locals when the outer loop of the constructor ends, for a buffer
holding `buffer` and a socket that will deliver `pending`. -/
def parsePhase (BUFF_SIZE : Nat) (buffer : Nat → Char) (pending : List Event) :
    Except Exn Locals :=
  outerLoop BUFF_SIZE (sockFuel pending)
    { st := Parse.init, buffer := buffer, i := 0, n_bytes := 0,
      sock := { pending := pending, calls := [] } }

/-- The constructor `HttpResponse::HttpResponse(sock, path)`. -/
def HttpResponse.new (BUFF_SIZE : Nat) (buffer : Nat → Char) (pending : List Event) :
    Except Exn HttpResponse :=
  match parsePhase BUFF_SIZE buffer pending with
  | Except.error e => Except.error e
  | Except.ok l => Except.ok (relocate l)

/-! ## The accessors and the body reader -/

/-- The method `HttpResponse::status`. -/
def HttpResponse.status (r : HttpResponse) : Option Int := r._status

/-- The method `HttpResponse::header`. -/
def HttpResponse.header (r : HttpResponse) (name : List Char) : List Char :=
  match r.headers.find (name.map tolower) with
  | none => []
  | some v => v

/-- The outcome of one call of `HttpResponse::read`: the object afterwards,
the bytes written to the stream, and the value returned. -/
structure ReadOutcome where
  obj : HttpResponse
  written : List Char
  ret : Int

/-- The method `HttpResponse::read(stream)`.  The socket read stores at the
offset `bytes_buffered`, a position inside the buffer whenever
`0 <= bytes_buffered`; for a negative `bytes_buffered` the pointer
`buffer + bytes_buffered` lies before the array and the model stores at
offset 0. -/
def HttpResponse.read (BUFF_SIZE : Nat) (r : HttpResponse) : ReadOutcome :=
  if r.bytes_read ≥ r.content_length then { obj := r, written := [], ret := -1 }
  else
    let r1 : HttpResponse :=
      if r.bytes_read + r.bytes_buffered < r.content_length then
        let rd := sockRead r.sock.pending (toSizeT ((BUFF_SIZE : Int) - r.bytes_buffered))
        { r with
          buffer := store r.buffer r.bytes_buffered.toNat rd.bytes,
          bytes_buffered := r.bytes_buffered + rd.ret,
          sock := { pending := rd.pending,
                    calls := (r.bytes_buffered, (BUFF_SIZE : Int) - r.bytes_buffered)
                      :: r.sock.calls } }
      else r
    { obj := { r1 with bytes_read := r1.bytes_read + r1.bytes_buffered, bytes_buffered := 0 },
      written := bytesAt r1.buffer 0 r1.bytes_buffered.toNat,
      ret := r1.bytes_buffered }

/-- Repeated calls of `HttpResponse::read` until one returns `-1`, at most
`fuel` of them: the bytes written and the sum of the non-negative values
returned before the `-1`; `none` when `fuel` calls have not met a `-1`. -/
def drain (BUFF_SIZE : Nat) : Nat → HttpResponse → Option (List Char × Int)
  | 0, _ => none
  | fuel + 1, r =>
    let o := HttpResponse.read BUFF_SIZE r
    if o.ret = -1 then some ([], 0)
    else
      match drain BUFF_SIZE fuel o.obj with
      | none => none
      | some (w, s) => some (o.written ++ w, (if 0 ≤ o.ret then o.ret else 0) + s)

/-! ## Reference definitions used to state the properties -/

/-- The bytes that a list of pending events will deliver. -/
def bytesOf : List Event → List Char
  | [] => []
  | Event.data bs :: rest => bs ++ bytesOf rest
  | Event.error :: rest => bytesOf rest

/-- A socket whose successive reads meet the chunks `cs`. -/
def chunked (cs : List (List Char)) : List Event := cs.map Event.data

/-- Every pending event is a non-empty piece of data: each read returns at
least one byte until the stream is used up, and none fails. -/
def Flowing (pending : List Event) : Prop :=
  ∀ e ∈ pending, ∃ bs, e = Event.data bs ∧ bs ≠ []

/-- The state machine of the specification run over an unsplit byte stream:
bytes are gathered into the pending line up to a line feed, each complete line
is processed, and nothing is consumed once `BODY` is reached.  The result is
the parse state and the bytes not consumed. -/
def feed : Parse → List Char → Except Exn (Parse × List Char)
  | st, [] => Except.ok (st, [])
  | st, c :: cs =>
    if st.read_status = ReadStatus.BODY then Except.ok (st, c :: cs)
    else if c = '\n' then
      match processLine st (st.read_stream ++ [c]) with
      | Except.error e => Except.error e
      | Except.ok st1 => feed st1 cs
    else feed { st with read_stream := st.read_stream ++ [c] } cs

/-- A line: characters other than the line feed, then a line feed. -/
def IsLine (l : List Char) : Prop :=
  ∃ body : List Char, l = body ++ ['\n'] ∧ '\n' ∉ body

/-- The lines of a header block processed in order by the constructor. -/
def processLines : Parse → List (List Char) → Except Exn Parse
  | st, [] => Except.ok st
  | st, l :: ls =>
    match processLine st l with
    | Except.error e => Except.error e
    | Except.ok st1 => processLines st1 ls

/-- A valid response stream (wire format of the specification): a status
line, header lines none of which starts with a carriage return, the empty
line CR LF, and a body of exactly `content_length` bytes, where `st` is the
parse state that the status and header lines produce. -/
def ValidResponse (stream : List Char) (st : Parse) (body : List Char) : Prop :=
  ∃ (statusLine : List Char) (headerLines : List (List Char)),
    IsLine statusLine ∧
    (∀ l ∈ headerLines, IsLine l ∧ l.head? ≠ some '\r') ∧
    stream = statusLine ++ headerLines.flatten ++ ['\r', '\n'] ++ body ∧
    processLines Parse.init (statusLine :: headerLines) = Except.ok st ∧
    (body.length : Int) = st.content_length

/-- The key under which the constructor stores the Content-Length header. -/
def contentLengthKey : List Char := "content-length".toList

/-- The pairs of header map and `content_length` that the constructor can
build: it starts from the empty map and 0, stores a header under a lower-cased
name other than `content-length` without touching `content_length`, and stores
a `content-length` header together with the number `std::stoi` reads from its
value. -/
inductive Built : Headers → Int → Prop where
  | init : Built [] 0
  | other (h : Headers) (cl : Int) (name value : List Char) :
      Built h cl → name.map tolower ≠ contentLengthKey →
      Built (h.set (name.map tolower) value) cl
  | length (h : Headers) (cl n : Int) (value : List Char) :
      Built h cl → stoi value = Except.ok n → Built (h.set contentLengthKey value) n

/-- A decimal integer and the number it denotes: a non-empty string of
decimal digits, possibly after a minus sign. -/
def IsDecimal (v : List Char) (n : Int) : Prop :=
  ∃ ds : List Char, ds ≠ [] ∧ (∀ c ∈ ds, isdigit c = true) ∧
    ((v = ds ∧ n = (digitsValue ds : Int)) ∨ (v = '-' :: ds ∧ n = -(digitsValue ds : Int)))

/-- What the inner loop, started at `i = j`, has to do with the state machine
run over the bytes `buffer[i .. n_bytes)`. -/
def InnerAgrees (buffer : Nat → Char) (n_bytes fuel : Nat) (st : Parse) (i : Nat) : Prop :=
  (∀ e, feed st (bytesAt buffer i (n_bytes - i)) = Except.error e →
    innerLoop buffer n_bytes fuel st i i = Except.error e) ∧
  (∀ st1 rest, feed st (bytesAt buffer i (n_bytes - i)) = Except.ok (st1, rest) →
    ∃ i1, innerLoop buffer n_bytes fuel st i i = Except.ok (st1, i1) ∧
      i ≤ i1 ∧ i1 ≤ n_bytes ∧
      (st.read_status = ReadStatus.BODY → i1 = i) ∧
      (st1.read_status = ReadStatus.BODY →
        rest = bytesAt buffer i1 (n_bytes - i1) ∧
        (st.read_status ≠ ReadStatus.BODY → i < i1 ∧ buffer (i1 - 1) = '\n')) ∧
      (st1.read_status ≠ ReadStatus.BODY → rest = []))

/-- What the outer loop has to do with the state machine run over all the
bytes that the socket will deliver. -/
def OuterAgrees (BUFF_SIZE fuel : Nat) (l : Locals) : Prop :=
  (∀ e, feed l.st (bytesOf l.sock.pending) = Except.error e →
    outerLoop BUFF_SIZE fuel l = Except.error e) ∧
  (∀ st1 rest, feed l.st (bytesOf l.sock.pending) = Except.ok (st1, rest) →
    ∃ l1, outerLoop BUFF_SIZE fuel l = Except.ok l1 ∧ l1.st = st1 ∧
      (st1.read_status = ReadStatus.BODY →
        1 ≤ l1.i ∧ l1.i ≤ l1.n_bytes ∧ l1.n_bytes ≤ BUFF_SIZE ∧
        l1.buffer (l1.i - 1) = '\n' ∧
        rest = bytesAt l1.buffer l1.i (l1.n_bytes - l1.i) ++ bytesOf l1.sock.pending ∧
        Flowing l1.sock.pending))

/-- The line `name ':' spaces value CR LF`. -/
def headerLineOf (name spaces value : List Char) : List Char :=
  name ++ ':' :: (spaces ++ value ++ ['\r', '\n'])

/-- A decimal version number: digits, possibly followed by a point and more
digits. -/
def IsVersion (version : List Char) : Prop :=
  ∃ ip fp : List Char, ip ≠ [] ∧ (∀ d ∈ ip, isdigit d = true) ∧
    (∀ d ∈ fp, isdigit d = true) ∧ (version = ip ∨ version = ip ++ '.' :: fp)

/-- The line `HTTP/<version> <status> <reason>` LF. -/
def statusLineOf (version status reason : List Char) : List Char :=
  ['H', 'T', 'T', 'P', '/'] ++ version ++ ' ' :: (status ++ ' ' :: (reason ++ ['\n']))

/-- The parse state after a status line that carries the status `v`. -/
def afterStatus (v : Int) : Parse :=
  { Parse.init with _status := some v, read_status := ReadStatus.HEADERS }

/-- A small valid response: status line, one header, empty line, two body bytes. -/
def smallResponse : List Char := "HTTP/1.1 200 OK\nContent-Length: 2\r\n\r\nhi".toList

/-- The parse state that the lines of `smallResponse` produce. -/
def smallParse : Parse :=
  { read_status := ReadStatus.HEADERS, read_stream := [], _status := some 200,
    headers := [("content-length".toList, "2".toList)], content_length := 2 }

/-- The bytes of the worked example of the specification. -/
def exampleBytes : List Char :=
  "HTTP/1.1 200 OK\nContent-Type: text/plain\nContent-Length: 5\n\r\nHELLO".toList

/-- A parse state in `HEADERS`, after a status line with status 200. -/
def headersState : Parse :=
  { read_status := ReadStatus.HEADERS, read_stream := [], _status := some 200,
    headers := [], content_length := 0 }

/-- The object after `n` successive calls of `HttpResponse::read`. -/
def readCalls (BUFF_SIZE : Nat) : Nat → HttpResponse → HttpResponse
  | 0, r => r
  | n + 1, r => readCalls BUFF_SIZE n (HttpResponse.read BUFF_SIZE r).obj

/-- An object in the middle of a body: 2 bytes buffered, 5 announced, 3 more
to come from the socket. -/
def midBody : HttpResponse :=
  { _status := some 200, headers := [], content_length := 5, bytes_read := 0,
    bytes_buffered := 2, buffer := fun _ => 'a',
    sock := { pending := [Event.data ['x', 'y', 'z']], calls := [] } }

/-- Every recorded call of `::read` stays inside a buffer of `BUFF_SIZE`
bytes: its offset and its length are not negative and the offset plus the
length is at most `BUFF_SIZE`. -/
def CallsInBounds (BUFF_SIZE : Nat) (calls : List (Int × Int)) : Prop :=
  ∀ c ∈ calls, 0 ≤ c.1 ∧ 0 ≤ c.2 ∧ c.1 + c.2 ≤ (BUFF_SIZE : Int)

/-- No pending event is a failure of the transport: every socket read
returns a count between 0 and the number of bytes requested. -/
def NoError (pending : List Event) : Prop := ∀ e ∈ pending, e ≠ Event.error

/-- The safety invariant of the object: `0 <= bytes_buffered <= BUFF_SIZE`,
no read error to come, and every socket read made so far inside the buffer. -/
def Safe (BUFF_SIZE : Nat) (r : HttpResponse) : Prop :=
  0 ≤ r.bytes_buffered ∧ r.bytes_buffered ≤ (BUFF_SIZE : Int) ∧
  NoError r.sock.pending ∧ CallsInBounds BUFF_SIZE r.sock.calls

/-- A stream that holds a complete header block: a status line, header lines
none of which starts with a carriage return, the empty line CR LF, and then
the bytes `body`; `st` is the parse state that the status and header lines
produce. -/
def HeaderBlock (stream : List Char) (st : Parse) (body : List Char) : Prop :=
  ∃ (statusLine : List Char) (headerLines : List (List Char)),
    IsLine statusLine ∧
    (∀ l ∈ headerLines, IsLine l ∧ l.head? ≠ some '\r') ∧
    stream = statusLine ++ headerLines.flatten ++ ['\r', '\n'] ++ body ∧
    processLines Parse.init (statusLine :: headerLines) = Except.ok st

/-- The socket will not supply more than the announced body: the bytes
buffered and the bytes still to come fit in what is left of
`content_length`. -/
def WithinLength (r : HttpResponse) : Prop :=
  0 ≤ r.bytes_buffered ∧ NoError r.sock.pending ∧
  r.bytes_read + r.bytes_buffered + ((bytesOf r.sock.pending).length : Int) ≤ r.content_length

/-- A response that announces 2 body bytes and is followed by 5. -/
def longBody : List Char := "HTTP/1.1 200 OK\nContent-Length: 2\r\n\r\nhello".toList

/-- The header line of a field given as name, spaces after the colon, and
value. -/
def fieldLine (f : List Char × List Char × List Char) : List Char :=
  headerLineOf f.1 f.2.1 f.2.2

/-- A field that makes a proper header line: the name has no colon and no line
feed and does not start with a carriage return, only spaces follow the colon,
and the value has no line feed and does not start with a space. -/
def ProperField (f : List Char × List Char × List Char) : Prop :=
  ':' ∉ f.1 ∧ '\n' ∉ f.1 ∧ f.1.head? ≠ some '\r' ∧ (∀ c ∈ f.2.1, c = ' ') ∧
  '\n' ∉ f.2.2 ∧ f.2.2.head? ≠ some ' '

/-- The value of the last field, in stream order, whose lower-cased name is
`k`. -/
def lastValue (k : List Char) : List (List Char × List Char × List Char) → Option (List Char)
  | [] => none
  | f :: fs =>
    match lastValue k fs with
    | some v => some v
    | none => if f.1.map tolower = k then some f.2.2 else none

/-- The facts about the locals at the end of the outer loop when it ends in
`BODY`, tied to the bytes the socket has delivered: `before` are the bytes of
the earlier reads, which leave the state machine in a state `st0` other than
`BODY`; `chunk` is what the last socket read, made with `pending0` still to
come, returned, and the buffer holds it; the state machine
started in `st0` on `chunk` reaches `BODY` with exactly the bytes from `i` on
left, and the byte before `i` is a line feed. -/
def EndsAtTerminator (BUFF_SIZE : Nat) (delivered : List Char) (l : Locals) : Prop :=
  ∃ (before chunk : List Char) (prev : Nat → Char) (st0 : Parse) (pending0 : List Event),
    delivered = before ++ bytesOf pending0 ∧
    (sockRead pending0 BUFF_SIZE).bytes = chunk ∧
    (sockRead pending0 BUFF_SIZE).pending = l.sock.pending ∧
    delivered = before ++ chunk ++ bytesOf l.sock.pending ∧
    feed Parse.init before = Except.ok (st0, []) ∧
    st0.read_status ≠ ReadStatus.BODY ∧
    l.buffer = store prev 0 chunk ∧ l.n_bytes = chunk.length ∧
    chunk.length ≤ BUFF_SIZE ∧ 1 ≤ l.i ∧ l.i ≤ chunk.length ∧
    feed st0 chunk = Except.ok (l.st, chunk.drop l.i) ∧
    chunk.getD (l.i - 1) '\x00' = '\n'

/-! ## Buffer and scanning lemmas -/

theorem bytesAt_length (buffer : Nat → Char) (i len : Nat) :
    (bytesAt buffer i len).length = len := by
  simp [bytesAt]

theorem bytesAt_zero (buffer : Nat → Char) (i : Nat) : bytesAt buffer i 0 = [] := by
  simp [bytesAt]

theorem bytesAt_succ (buffer : Nat → Char) (i len : Nat) :
    bytesAt buffer i (len + 1) = buffer i :: bytesAt buffer (i + 1) len := by
  simp [bytesAt, List.range_succ_eq_map, Function.comp_def, Nat.add_assoc, Nat.add_comm 1]

theorem bytesAt_add (buffer : Nat → Char) (i a b : Nat) :
    bytesAt buffer i (a + b) = bytesAt buffer i a ++ bytesAt buffer (i + a) b := by
  induction a generalizing i with
  | zero => simp [bytesAt_zero]
  | succ n ih =>
    rw [show n + 1 + b = (n + b) + 1 by omega, bytesAt_succ, bytesAt_succ, ih]
    simp [Nat.add_assoc, Nat.add_comm 1 n]

theorem bytesAt_congr (b1 b2 : Nat → Char) (i len : Nat)
    (h : ∀ k, i ≤ k → k < i + len → b1 k = b2 k) : bytesAt b1 i len = bytesAt b2 i len := by
  unfold bytesAt
  apply List.map_congr_left
  intro k hk
  have := List.mem_range.mp hk
  exact h (i + k) (by omega) (by omega)

theorem bytesAt_store (buffer : Nat → Char) (off : Nat) (bytes : List Char) :
    bytesAt (store buffer off bytes) off bytes.length = bytes := by
  apply List.ext_getElem
  · simp [bytesAt]
  · intro k h1 h2
    simp only [bytesAt, List.length_map, List.length_range] at h1
    simp [bytesAt, store, h1, List.getD_eq_getElem]

theorem bytesAt_store_before (buffer : Nat → Char) (off : Nat) (bytes : List Char) :
    bytesAt (store buffer off bytes) 0 off = bytesAt buffer 0 off := by
  apply bytesAt_congr
  intro k _ hk
  have : ¬ (off ≤ k ∧ k < off + bytes.length) := by omega
  simp [store, this]

theorem scanLoop_spec (buffer : Nat → Char) (n_bytes : Nat) (fuel j : Nat)
    (hf : n_bytes - j ≤ fuel) (hj : j ≤ n_bytes) :
    j ≤ scanLoop buffer n_bytes fuel j ∧ scanLoop buffer n_bytes fuel j ≤ n_bytes ∧
    (∀ k, j ≤ k → k < scanLoop buffer n_bytes fuel j → buffer k ≠ '\n') ∧
    (scanLoop buffer n_bytes fuel j < n_bytes →
      buffer (scanLoop buffer n_bytes fuel j) = '\n') := by
  induction fuel generalizing j with
  | zero =>
    have : j = n_bytes := by omega
    subst this
    exact ⟨le_refl _, le_refl _, fun k h1 h2 => absurd h2 (by simp [scanLoop]; omega),
      fun h => absurd h (by simp [scanLoop])⟩
  | succ f ih =>
    unfold scanLoop
    by_cases hc : buffer j ≠ '\n' ∧ j < n_bytes
    · rw [if_pos hc]
      obtain ⟨h1, h2, h3, h4⟩ := ih (j + 1) (by omega) (by omega)
      refine ⟨by omega, h2, ?_, h4⟩
      intro k hk1 hk2
      by_cases hk : k = j
      · subst hk; exact hc.1
      · exact h3 k (by omega) hk2
    · rw [if_neg hc]
      refine ⟨le_refl _, hj, ?_, ?_⟩
      · intro k hk1 hk2; omega
      · intro hlt
        by_contra hne
        exact hc ⟨hne, hlt⟩

theorem bytesAt_no_lf (buffer : Nat → Char) (i len : Nat)
    (h : ∀ k, i ≤ k → k < i + len → buffer k ≠ '\n') : '\n' ∉ bytesAt buffer i len := by
  intro hmem
  simp only [bytesAt, List.mem_map, List.mem_range] at hmem
  obtain ⟨k, hk, he⟩ := hmem
  exact h (i + k) (by omega) (by omega) he

/-! ## The reference state machine -/

theorem processLine_read_stream (st : Parse) (s line : List Char) :
    processLine { st with read_stream := s } line = processLine st line := by
  simp only [processLine, headerLine]

theorem feed_body (st : Parse) (cs : List Char) (h : st.read_status = ReadStatus.BODY) :
    feed st cs = Except.ok (st, cs) := by
  cases cs with
  | nil => rfl
  | cons c t => simp [feed, h]

theorem feed_no_lf (st : Parse) (pre cs : List Char) (hb : st.read_status ≠ ReadStatus.BODY)
    (hp : '\n' ∉ pre) :
    feed st (pre ++ cs) = feed { st with read_stream := st.read_stream ++ pre } cs := by
  induction pre generalizing st with
  | nil => simp
  | cons c t ih =>
    have hc : c ≠ '\n' := fun h => hp (by simp [h])
    have ht : '\n' ∉ t := fun h => hp (by simp [h])
    have h1 : feed st (c :: (t ++ cs)) =
        feed { st with read_stream := st.read_stream ++ [c] } (t ++ cs) := by
      simp only [feed]
      rw [if_neg hb, if_neg hc]
    rw [List.cons_append, h1, ih { st with read_stream := st.read_stream ++ [c] } hb ht]
    simp [List.append_assoc]

theorem feed_line (st : Parse) (pre cs : List Char) (hb : st.read_status ≠ ReadStatus.BODY)
    (hp : '\n' ∉ pre) :
    feed st (pre ++ '\n' :: cs) =
      (match processLine st (st.read_stream ++ pre ++ ['\n']) with
        | Except.error e => Except.error e
        | Except.ok st1 => feed st1 cs) := by
  rw [feed_no_lf st pre _ hb hp]
  simp only [feed, hb, ↓reduceIte, processLine_read_stream]

/-! ## The inner loop follows the reference state machine -/

theorem innerLoop_feed (buffer : Nat → Char) (n_bytes : Nat) (fuel : Nat) (st : Parse)
    (i : Nat) (hi : i ≤ n_bytes) (hf : n_bytes - i + 1 ≤ fuel) :
    InnerAgrees buffer n_bytes fuel st i := by
  induction fuel generalizing st i with
  | zero => omega
  | succ f ih =>
    by_cases hb : st.read_status = ReadStatus.BODY
    · have h1 : innerLoop buffer n_bytes (f + 1) st i i = Except.ok (st, i) := by
        simp [innerLoop, hb]
      rw [InnerAgrees, feed_body st _ hb, h1]
      refine ⟨(fun e h => by cases h), ?_⟩
      intro st1 rest h
      cases h
      exact ⟨i, rfl, le_refl _, hi, fun _ => rfl, fun _ => ⟨rfl, fun h => absurd hb h⟩,
        fun h => absurd hb h⟩
    · obtain ⟨s1, s2, s3, s4⟩ := scanLoop_spec buffer n_bytes (n_bytes - i) i (le_refl _) hi
      generalize hj : scanLoop buffer n_bytes (n_bytes - i) i = j1 at s1 s2 s3 s4
      have hsplit : bytesAt buffer i (n_bytes - i) =
          bytesAt buffer i (j1 - i) ++ bytesAt buffer j1 (n_bytes - j1) := by
        have := bytesAt_add buffer i (j1 - i) (n_bytes - j1)
        rw [show j1 - i + (n_bytes - j1) = n_bytes - i by omega,
          show i + (j1 - i) = j1 by omega] at this
        exact this
      have hpre : '\n' ∉ bytesAt buffer i (j1 - i) :=
        bytesAt_no_lf buffer i (j1 - i) (fun k h1 h2 => s3 k h1 (by omega))
      by_cases hend : j1 = n_bytes
      · have h1 : innerLoop buffer n_bytes (f + 1) st i i =
            Except.ok ({ st with read_stream := st.read_stream ++ bytesAt buffer i (j1 - i) },
              i) := by
          simp [innerLoop, hb, hj, hend]
        have h2 : feed st (bytesAt buffer i (n_bytes - i)) =
            Except.ok ({ st with read_stream := st.read_stream ++ bytesAt buffer i (j1 - i) },
              []) := by
          rw [hsplit, feed_no_lf st _ _ hb hpre, hend, Nat.sub_self, bytesAt_zero]
          rfl
        rw [InnerAgrees, h1, h2]
        refine ⟨(fun e h => by cases h), ?_⟩
        intro st1 rest h
        cases h
        exact ⟨i, rfl, le_refl _, hi, fun _ => rfl, fun h => absurd h hb, fun _ => rfl⟩
      · have hlt : j1 < n_bytes := by omega
        have hlf : buffer j1 = '\n' := s4 hlt
        have htail : bytesAt buffer j1 (n_bytes - j1) =
            '\n' :: bytesAt buffer (j1 + 1) (n_bytes - (j1 + 1)) := by
          rw [show n_bytes - j1 = (n_bytes - (j1 + 1)) + 1 by omega, bytesAt_succ, hlf]
        have hline : bytesAt buffer i (j1 - i + 1) = bytesAt buffer i (j1 - i) ++ ['\n'] := by
          rw [bytesAt_add, show i + (j1 - i) = j1 by omega, bytesAt_succ, bytesAt_zero, hlf]
        have h2 : feed st (bytesAt buffer i (n_bytes - i)) =
            (match processLine st (st.read_stream ++ bytesAt buffer i (j1 - i) ++ ['\n']) with
              | Except.error e => Except.error e
              | Except.ok st1 => feed st1 (bytesAt buffer (j1 + 1) (n_bytes - (j1 + 1)))) := by
          rw [hsplit, htail, feed_line st _ _ hb hpre]
        have h1 : innerLoop buffer n_bytes (f + 1) st i i =
            (match processLine st (st.read_stream ++ bytesAt buffer i (j1 - i) ++ ['\n']) with
              | Except.error e => Except.error e
              | Except.ok st1 => innerLoop buffer n_bytes f st1 (j1 + 1) (j1 + 1)) := by
          simp only [innerLoop, if_neg hb, hj, if_neg hend, hline, List.append_assoc]
        rw [InnerAgrees, h1, h2]
        cases hpl : processLine st (st.read_stream ++ bytesAt buffer i (j1 - i) ++ ['\n']) with
        | error e =>
          dsimp only
          exact ⟨(fun e1 h => by cases h; rfl), (fun st1 rest h => by cases h)⟩
        | ok st2 =>
          obtain ⟨a1, a2⟩ := ih st2 (j1 + 1) (by omega) (by omega)
          refine ⟨a1, ?_⟩
          intro st1 rest h
          obtain ⟨i1, b1, b2, b3, b4, b5, b6⟩ := a2 st1 rest h
          refine ⟨i1, b1, by omega, b3, fun h => absurd h hb, ?_, b6⟩
          intro hbody
          refine ⟨(b5 hbody).1, fun _ => ?_⟩
          by_cases hb2 : st2.read_status = ReadStatus.BODY
          · have := b4 hb2
            subst this
            exact ⟨by omega, by simpa using hlf⟩
          · have := (b5 hbody).2 hb2
            exact ⟨by omega, this.2⟩

theorem feed_rest_nil (st : Parse) (cs : List Char) (st1 : Parse) (rest : List Char)
    (h : feed st cs = Except.ok (st1, rest)) (hb : st1.read_status ≠ ReadStatus.BODY) :
    rest = [] := by
  induction cs generalizing st with
  | nil =>
    simp only [feed, Except.ok.injEq, Prod.mk.injEq] at h
    exact h.2.symm
  | cons c t ih =>
    by_cases hs : st.read_status = ReadStatus.BODY
    · rw [feed_body st _ hs] at h
      simp only [Except.ok.injEq, Prod.mk.injEq] at h
      exact absurd (h.1 ▸ hs) hb
    · simp only [feed, if_neg hs] at h
      by_cases hc : c = '\n'
      · rw [if_pos hc] at h
        cases hpl : processLine st (st.read_stream ++ [c]) with
        | error e => rw [hpl] at h; cases h
        | ok st2 => rw [hpl] at h; exact ih st2 h
      · rw [if_neg hc] at h
        exact ih _ h

theorem feed_append_error (st : Parse) (a b : List Char) (e : Exn)
    (h : feed st a = Except.error e) : feed st (a ++ b) = Except.error e := by
  induction a generalizing st with
  | nil => simp [feed] at h
  | cons c t ih =>
    by_cases hs : st.read_status = ReadStatus.BODY
    · rw [feed_body st _ hs] at h
      cases h
    · simp only [feed, if_neg hs, List.cons_append] at h ⊢
      by_cases hc : c = '\n'
      · rw [if_pos hc] at h ⊢
        cases hpl : processLine st (st.read_stream ++ [c]) with
        | error e1 => rw [hpl] at h; exact h
        | ok st2 => rw [hpl] at h; exact ih st2 h
      · rw [if_neg hc] at h ⊢
        exact ih _ h

theorem feed_append_ok (st : Parse) (a b : List Char) (st1 : Parse) (r1 : List Char)
    (h : feed st a = Except.ok (st1, r1)) :
    feed st (a ++ b) =
      if st1.read_status = ReadStatus.BODY then Except.ok (st1, r1 ++ b) else feed st1 b := by
  induction a generalizing st with
  | nil =>
    simp only [feed, Except.ok.injEq, Prod.mk.injEq] at h
    obtain ⟨h1, h2⟩ := h
    subst h1 h2
    by_cases hs : st.read_status = ReadStatus.BODY
    · simp [hs, feed_body]
    · simp [hs]
  | cons c t ih =>
    by_cases hs : st.read_status = ReadStatus.BODY
    · rw [feed_body st _ hs] at h
      simp only [Except.ok.injEq, Prod.mk.injEq] at h
      obtain ⟨h1, h2⟩ := h
      subst h1 h2
      rw [feed_body st _ hs, if_pos hs]
    · simp only [feed, if_neg hs, List.cons_append] at h ⊢
      by_cases hc : c = '\n'
      · rw [if_pos hc] at h ⊢
        cases hpl : processLine st (st.read_stream ++ [c]) with
        | error e1 => rw [hpl] at h; cases h
        | ok st2 => rw [hpl] at h; exact ih st2 h
      · rw [if_neg hc] at h ⊢
        exact ih _ h

/-! ## The socket -/

theorem toUnsigned_natCast (n : Nat) (h : n < 4294967296) : toUnsigned (n : Int) = n := by
  unfold toUnsigned
  omega

theorem toInt32_small (n : Nat) (h : n < 2147483648) : toInt32 n = (n : Int) := by
  unfold toInt32
  split <;> omega

theorem sockFuel_pos (pending : List Event) : 0 < sockFuel pending := by
  unfold sockFuel
  omega

theorem sockRead_nil (count : Nat) :
    sockRead [] count = { ret := 0, bytes := [], pending := [] } := rfl

theorem sockRead_flowing (bs : List Char) (rest : List Event) (count : Nat)
    (hf : Flowing (Event.data bs :: rest)) (hc : 0 < count) :
    (sockRead (Event.data bs :: rest) count).ret =
        ((sockRead (Event.data bs :: rest) count).bytes.length : Int) ∧
    (sockRead (Event.data bs :: rest) count).bytes ≠ [] ∧
    (sockRead (Event.data bs :: rest) count).bytes.length ≤ count ∧
    bytesOf (Event.data bs :: rest) =
      (sockRead (Event.data bs :: rest) count).bytes ++
        bytesOf (sockRead (Event.data bs :: rest) count).pending ∧
    Flowing (sockRead (Event.data bs :: rest) count).pending ∧
    sockFuel (sockRead (Event.data bs :: rest) count).pending <
      sockFuel (Event.data bs :: rest) := by
  have hbs : bs ≠ [] := by
    obtain ⟨b, hb1, hb2⟩ := hf (Event.data bs) (by simp)
    cases hb1
    exact hb2
  have hlen : 0 < bs.length := List.length_pos.mpr hbs
  have hrest : Flowing rest := fun e he => hf e (by simp [he])
  by_cases hle : bs.length ≤ count
  · have hr : sockRead (Event.data bs :: rest) count =
        { ret := (bs.length : Int), bytes := bs, pending := rest } := by
      simp [sockRead, hle]
    rw [hr]
    refine ⟨rfl, hbs, hle, rfl, hrest, ?_⟩
    simp only [sockFuel, List.map_cons, List.sum_cons]
    omega
  · have hr : sockRead (Event.data bs :: rest) count =
        { ret := (count : Int), bytes := bs.take count,
          pending := Event.data (bs.drop count) :: rest } := by
      simp [sockRead, hle]
    rw [hr]
    have hd : bs.drop count ≠ [] := by
      intro h
      have := congrArg List.length h
      simp at this
      omega
    have ht : (bs.take count).length = count := by
      simp
      omega
    refine ⟨?_, ?_, ?_, ?_, ?_, ?_⟩
    · show (count : Int) = ((bs.take count).length : Int)
      rw [ht]
    · intro h
      have h2 : (bs.take count).length = 0 := by
        show (bs.take count).length = 0
        simp only [] at h
        rw [h]
        rfl
      omega
    · show (bs.take count).length ≤ count
      omega
    · show bs ++ bytesOf rest = bs.take count ++ (bs.drop count ++ bytesOf rest)
      rw [← List.append_assoc, List.take_append_drop]
    · intro e he
      simp only [List.mem_cons] at he
      rcases he with he | he
      · exact ⟨bs.drop count, he, hd⟩
      · exact hrest e he
    · show sockFuel (Event.data (bs.drop count) :: rest) < sockFuel (Event.data bs :: rest)
      simp only [sockFuel, List.map_cons, List.sum_cons, List.length_drop]
      omega

theorem bytesOf_nil_of_flowing (pending : List Event) (hf : Flowing pending)
    (h : bytesOf pending = []) : pending = [] := by
  cases pending with
  | nil => rfl
  | cons e rest =>
    obtain ⟨b, hb1, hb2⟩ := hf e (by simp)
    subst hb1
    simp only [bytesOf, List.append_eq_nil] at h
    exact absurd h.1 hb2

/-! ## The outer loop follows the reference state machine -/

theorem outerLoop_body (BUFF_SIZE fuel : Nat) (l : Locals)
    (h : l.st.read_status = ReadStatus.BODY) : outerLoop BUFF_SIZE fuel l = Except.ok l := by
  cases fuel with
  | zero => rfl
  | succ f => simp [outerLoop, h]

theorem outerLoop_feed (BUFF_SIZE : Nat) (hB0 : 0 < BUFF_SIZE) (hB : BUFF_SIZE < 2147483648)
    (fuel : Nat) (l : Locals) (hfuel : sockFuel l.sock.pending ≤ fuel)
    (hflow : Flowing l.sock.pending) (hb : l.st.read_status ≠ ReadStatus.BODY) :
    OuterAgrees BUFF_SIZE fuel l := by
  induction fuel generalizing l with
  | zero =>
    have := sockFuel_pos l.sock.pending
    omega
  | succ f ih =>
    obtain ⟨st, buffer, i, n_bytes, sock⟩ := l
    obtain ⟨pending, calls⟩ := sock
    simp only at hfuel hflow hb
    cases pending with
    | nil =>
      have h1 : outerLoop BUFF_SIZE (f + 1)
          { st := st, buffer := buffer, i := i, n_bytes := n_bytes,
            sock := { pending := ([] : List Event), calls := calls } } =
          Except.ok
            { st := st, buffer := store buffer 0 [], i := 0, n_bytes := 0,
              sock := { pending := [], calls := (0, (BUFF_SIZE : Int)) :: calls } } := by
        simp [outerLoop, hb, sockRead, toUnsigned]
      rw [OuterAgrees, h1]
      simp only [bytesOf, feed]
      refine ⟨(fun e h => by cases h), ?_⟩
      intro st1 rest h
      cases h
      exact ⟨_, rfl, rfl, fun h => absurd h hb⟩
    | cons ev rest =>
      obtain ⟨bs, hev, _⟩ := hflow ev (by simp)
      subst hev
      obtain ⟨r1, r2, r3, r4, r5, r6⟩ := sockRead_flowing bs rest BUFF_SIZE hflow hB0
      generalize hr : sockRead (Event.data bs :: rest) BUFF_SIZE = r at r1 r2 r3 r4 r5 r6
      obtain ⟨ret, d, pending1⟩ := r
      simp only at r1 r2 r3 r4 r5 r6
      subst r1
      have hn : toUnsigned (d.length : Int) = d.length := toUnsigned_natCast _ (by omega)
      have hd0 : d.length ≠ 0 := fun h => r2 (List.length_eq_zero.mp h)
      have hstep : outerLoop BUFF_SIZE (f + 1)
          { st := st, buffer := buffer, i := i, n_bytes := n_bytes,
            sock := { pending := Event.data bs :: rest, calls := calls } } =
          (match innerLoop (store buffer 0 d) d.length (d.length + 1) st 0 0 with
            | Except.error e => Except.error e
            | Except.ok (st1, i1) =>
              outerLoop BUFF_SIZE f
                { st := st1, buffer := store buffer 0 d, i := i1, n_bytes := d.length,
                  sock := { pending := pending1, calls := (0, (BUFF_SIZE : Int)) :: calls } })
          := by
        simp only [outerLoop, if_neg hb, hr, hn, if_neg hd0]
      obtain ⟨a1, a2⟩ := innerLoop_feed (store buffer 0 d) d.length (d.length + 1) st 0
        (Nat.zero_le _) (by omega)
      rw [Nat.sub_zero, bytesAt_store] at a1 a2
      rw [OuterAgrees, hstep]
      simp only
      rw [r4]
      cases hfd : feed st d with
      | error e =>
        rw [a1 e hfd, feed_append_error st d _ e hfd]
        exact ⟨(fun e1 h => by cases h; rfl), (fun st1 rest h => by cases h)⟩
      | ok pr =>
        obtain ⟨st2, rest2⟩ := pr
        obtain ⟨i2, b1, b2, b3, b4, b5, b6⟩ := a2 st2 rest2 hfd
        rw [b1, feed_append_ok st d _ st2 rest2 hfd]
        simp only
        by_cases hb2 : st2.read_status = ReadStatus.BODY
        · rw [if_pos hb2, outerLoop_body _ _ _ hb2]
          refine ⟨(fun e h => by cases h), ?_⟩
          intro st1 rest1 h
          cases h
          obtain ⟨c1, c2⟩ := b5 hb2
          obtain ⟨c3, c4⟩ := c2 hb
          refine ⟨_, rfl, rfl, fun _ => ⟨by simpa using c3, b3, r3, c4, ?_, r5⟩⟩
          simp only
          rw [c1]
        · rw [if_neg hb2]
          have hrest2 : rest2 = [] := b6 hb2
          exact ih
            { st := st2, buffer := store buffer 0 d, i := i2, n_bytes := d.length,
              sock := { pending := pending1, calls := (0, (BUFF_SIZE : Int)) :: calls } }
            (by simp only; omega) r5 hb2

/-! ## The bounds on the number of turns are never reached -/

theorem skipSpaces_stops (line : List Char) (fuel k : Nat) (hf : line.length - k ≤ fuel) :
    line.getD (skipSpaces line fuel k) '\x00' ≠ ' ' := by
  induction fuel generalizing k with
  | zero =>
    rw [skipSpaces, List.getD_eq_default _ _ (by omega)]
    decide
  | succ f ih =>
    unfold skipSpaces
    split
    · exact ih (k + 1) (by omega)
    · assumption

theorem innerLoop_fuel (buffer : Nat → Char) (n_bytes f1 f2 : Nat) (st : Parse) (i j : Nat)
    (hj : j ≤ n_bytes) (h1 : n_bytes - j + 1 ≤ f1) (h2 : n_bytes - j + 1 ≤ f2) :
    innerLoop buffer n_bytes f1 st i j = innerLoop buffer n_bytes f2 st i j := by
  induction f1 generalizing f2 st i j with
  | zero => omega
  | succ f ih =>
    cases f2 with
    | zero => omega
    | succ g =>
      obtain ⟨s1, s2, _, _⟩ := scanLoop_spec buffer n_bytes (n_bytes - j) j (le_refl _) hj
      unfold innerLoop
      simp only
      split
      · rfl
      · split
        · rfl
        · split
          · rfl
          · exact ih g _ _ _ (by omega) (by omega) (by omega)

theorem sockRead_progress (pending : List Event) (count : Nat)
    (h : toUnsigned (sockRead pending count).ret ≠ 0) :
    sockFuel (sockRead pending count).pending < sockFuel pending := by
  cases pending with
  | nil => exact absurd rfl h
  | cons ev rest =>
    cases ev with
    | error =>
      simp only [sockRead, sockFuel, List.map_cons, List.sum_cons]
      omega
    | data bs =>
      by_cases hle : bs.length ≤ count
      · simp only [sockRead, if_pos hle, sockFuel, List.map_cons, List.sum_cons]
        omega
      · simp only [sockRead, if_neg hle] at h ⊢
        have hc : count ≠ 0 := by
          intro h0
          apply h
          rw [h0]
          rfl
        simp only [sockFuel, List.map_cons, List.sum_cons, List.length_drop]
        omega

theorem outerLoop_fuel (BUFF_SIZE f1 f2 : Nat) (l : Locals)
    (h1 : sockFuel l.sock.pending ≤ f1) (h2 : sockFuel l.sock.pending ≤ f2) :
    outerLoop BUFF_SIZE f1 l = outerLoop BUFF_SIZE f2 l := by
  induction f1 generalizing f2 l with
  | zero =>
    have := sockFuel_pos l.sock.pending
    omega
  | succ f ih =>
    cases f2 with
    | zero =>
      have := sockFuel_pos l.sock.pending
      omega
    | succ g =>
      unfold outerLoop
      simp only
      split
      · rfl
      · split
        · rfl
        · rename_i hn
          have hp := sockRead_progress l.sock.pending BUFF_SIZE hn
          split
          · rfl
          · exact ih g _ (by simp only; omega) (by simp only; omega)

/-! ## The move of the leftover bytes -/

theorem copyLoop_spec (i count j : Nat) (buffer : Nat → Char)
    (h : j + count + i < 4294967296) (k : Nat) :
    copyLoop i count j buffer k =
      if j ≤ k ∧ k < j + count then buffer (k + i) else buffer k := by
  induction count generalizing j buffer with
  | zero =>
    have : ¬ (j ≤ k ∧ k < j + 0) := by omega
    rw [if_neg this, copyLoop]
  | succ c ih =>
    rw [copyLoop, ih (j + 1) _ (by omega)]
    have hmod : (j + i) % 4294967296 = j + i := Nat.mod_eq_of_lt (by omega)
    by_cases h1 : j + 1 ≤ k ∧ k < j + 1 + c
    · have h2 : j ≤ k ∧ k < j + (c + 1) := by omega
      have h3 : k + i ≠ j := by omega
      rw [if_pos h1, if_pos h2, if_neg h3]
    · rw [if_neg h1]
      by_cases h4 : k = j
      · subst h4
        have h2 : k ≤ k ∧ k < k + (c + 1) := by omega
        rw [if_pos rfl, if_pos h2, hmod]
      · have h2 : ¬ (j ≤ k ∧ k < j + (c + 1)) := by omega
        rw [if_neg h4, if_neg h2]

theorem relocate_spec (l : Locals) (h1 : l.i ≤ l.n_bytes) (h2 : l.n_bytes < 2147483648) :
    (relocate l).bytes_buffered = ((l.n_bytes - l.i : Nat) : Int) ∧
    (∀ j, j < l.n_bytes - l.i → (relocate l).buffer j = l.buffer (l.i + j)) ∧
    bytesAt (relocate l).buffer 0 (l.n_bytes - l.i) = bytesAt l.buffer l.i (l.n_bytes - l.i) := by
  have hu : toUnsigned ((l.n_bytes : Int) - (l.i : Int)) = l.n_bytes - l.i := by
    unfold toUnsigned
    omega
  have hbb : toInt32 (toUnsigned ((l.n_bytes : Int) - (l.i : Int))) =
      ((l.n_bytes - l.i : Nat) : Int) := by
    rw [hu, toInt32_small _ (by omega)]
  have hcopy : ∀ j, j < l.n_bytes - l.i → (relocate l).buffer j = l.buffer (l.i + j) := by
    intro j hj
    simp only [relocate, hbb, Int.toNat_ofNat]
    rw [copyLoop_spec _ _ _ _ (by omega)]
    have : 0 ≤ j ∧ j < 0 + (l.n_bytes - l.i) := by omega
    rw [if_pos this, Nat.add_comm]
  refine ⟨by simp only [relocate, hbb], hcopy, ?_⟩
  unfold bytesAt
  apply List.map_congr_left
  intro k hk
  have := List.mem_range.mp hk
  rw [Nat.zero_add]
  exact hcopy k this

/-! ## The constructor as a whole -/

theorem new_of_feed (BUFF_SIZE : Nat) (hB0 : 0 < BUFF_SIZE) (hB : BUFF_SIZE < 2147483648)
    (buffer : Nat → Char) (pending : List Event) (hflow : Flowing pending)
    (st1 : Parse) (rest : List Char)
    (hfeed : feed Parse.init (bytesOf pending) = Except.ok (st1, rest)) :
    ∃ r, HttpResponse.new BUFF_SIZE buffer pending = Except.ok r ∧
      r._status = st1._status ∧ r.headers = st1.headers ∧
      r.content_length = st1.content_length ∧ r.bytes_read = 0 ∧
      (st1.read_status = ReadStatus.BODY →
        0 ≤ r.bytes_buffered ∧ r.bytes_buffered < (BUFF_SIZE : Int) ∧
        bytesAt r.buffer 0 r.bytes_buffered.toNat ++ bytesOf r.sock.pending = rest ∧
        Flowing r.sock.pending) := by
  obtain ⟨_, a2⟩ := outerLoop_feed BUFF_SIZE hB0 hB (sockFuel pending)
    { st := Parse.init, buffer := buffer, i := 0, n_bytes := 0,
      sock := { pending := pending, calls := [] } }
    (le_refl _) hflow (by simp [Parse.init])
  obtain ⟨l1, b1, b2, b3⟩ := a2 st1 rest hfeed
  refine ⟨relocate l1, ?_, ?_, ?_, ?_, rfl, ?_⟩
  · simp only [HttpResponse.new, parsePhase, b1]
  · simp only [relocate, b2]
  · simp only [relocate, b2]
  · simp only [relocate, b2]
  · intro hbody
    obtain ⟨c1, c2, c3, c4, c5, c6⟩ := b3 hbody
    obtain ⟨d1, _, d3⟩ := relocate_spec l1 c2 (by omega)
    refine ⟨by rw [d1]; omega, by rw [d1]; omega, ?_, c6⟩
    rw [d1, Int.toNat_ofNat, d3, c5]
    rfl

/-! ## The body reader -/

theorem read_exhausted (BUFF_SIZE : Nat) (r : HttpResponse)
    (h : r.bytes_read ≥ r.content_length) :
    HttpResponse.read BUFF_SIZE r = { obj := r, written := [], ret := -1 } := by
  simp [HttpResponse.read, h]

theorem read_buffered (BUFF_SIZE : Nat) (r : HttpResponse)
    (h1 : r.bytes_read < r.content_length)
    (h2 : ¬ r.bytes_read + r.bytes_buffered < r.content_length) :
    HttpResponse.read BUFF_SIZE r =
      { obj := { r with bytes_read := r.bytes_read + r.bytes_buffered, bytes_buffered := 0 },
        written := bytesAt r.buffer 0 r.bytes_buffered.toNat,
        ret := r.bytes_buffered } := by
  have h3 : ¬ r.bytes_read ≥ r.content_length := by omega
  simp only [HttpResponse.read, if_neg h3, if_neg h2]

theorem read_socket (BUFF_SIZE : Nat) (r : HttpResponse)
    (h1 : r.bytes_read < r.content_length)
    (h2 : r.bytes_read + r.bytes_buffered < r.content_length) :
    HttpResponse.read BUFF_SIZE r =
      { obj :=
          { r with
            buffer := store r.buffer r.bytes_buffered.toNat
              (sockRead r.sock.pending (toSizeT ((BUFF_SIZE : Int) - r.bytes_buffered))).bytes,
            bytes_read := r.bytes_read + (r.bytes_buffered +
              (sockRead r.sock.pending (toSizeT ((BUFF_SIZE : Int) - r.bytes_buffered))).ret),
            bytes_buffered := 0,
            sock :=
              { pending :=
                  (sockRead r.sock.pending (toSizeT ((BUFF_SIZE : Int) - r.bytes_buffered))).pending,
                calls := (r.bytes_buffered, (BUFF_SIZE : Int) - r.bytes_buffered)
                  :: r.sock.calls } },
        written :=
          bytesAt
            (store r.buffer r.bytes_buffered.toNat
              (sockRead r.sock.pending (toSizeT ((BUFF_SIZE : Int) - r.bytes_buffered))).bytes)
            0
            (r.bytes_buffered +
              (sockRead r.sock.pending (toSizeT ((BUFF_SIZE : Int) - r.bytes_buffered))).ret).toNat,
        ret := r.bytes_buffered +
          (sockRead r.sock.pending (toSizeT ((BUFF_SIZE : Int) - r.bytes_buffered))).ret } := by
  have h3 : ¬ r.bytes_read ≥ r.content_length := by omega
  simp only [HttpResponse.read, if_neg h3, if_pos h2]

theorem drain_exhausted (BUFF_SIZE fuel : Nat) (r : HttpResponse)
    (h : r.bytes_read ≥ r.content_length) :
    drain BUFF_SIZE (fuel + 1) r = some ([], 0) := by
  simp [drain, read_exhausted BUFF_SIZE r h]

theorem drain_flowing (BUFF_SIZE fuel : Nat) (hB : BUFF_SIZE < 2147483648) (r : HttpResponse)
    (hflow : Flowing r.sock.pending) (h0 : 0 ≤ r.bytes_buffered)
    (h1 : r.bytes_buffered < (BUFF_SIZE : Int))
    (h2 : r.bytes_read + r.bytes_buffered + ((bytesOf r.sock.pending).length : Int)
      = r.content_length)
    (hfuel : sockFuel r.sock.pending + 1 ≤ fuel) :
    drain BUFF_SIZE fuel r =
      some (bytesAt r.buffer 0 r.bytes_buffered.toNat ++ bytesOf r.sock.pending,
        r.content_length - r.bytes_read) := by
  induction fuel generalizing r with
  | zero => omega
  | succ f ih =>
    by_cases hex : r.bytes_read ≥ r.content_length
    · rw [drain_exhausted BUFF_SIZE f r hex]
      have hb0 : r.bytes_buffered = 0 := by omega
      have hl0 : (bytesOf r.sock.pending).length = 0 := by omega
      rw [hb0, List.length_eq_zero.mp hl0]
      simp only [Int.toNat_zero, bytesAt_zero, List.append_nil, Option.some.injEq,
        Prod.mk.injEq, true_and]
      omega
    · have hlt : r.bytes_read < r.content_length := by omega
      by_cases hs : r.bytes_read + r.bytes_buffered < r.content_length
      · have hne : r.sock.pending ≠ [] := by
          intro h
          rw [h] at h2
          simp only [bytesOf, List.length_nil] at h2
          omega
        obtain ⟨ev, rest, hp⟩ := List.exists_cons_of_ne_nil hne
        have hflow1 := hflow
        rw [hp] at hflow1
        obtain ⟨bs, hev, _⟩ := hflow1 ev (by simp)
        subst hev
        have hc : 0 < (toSizeT ((BUFF_SIZE : Int) - r.bytes_buffered)) := by
          unfold toSizeT
          omega
        obtain ⟨r1, r2, r3, r4, r5, r6⟩ := sockRead_flowing bs rest _ hflow1 hc
        have hread := read_socket BUFF_SIZE r hlt hs
        rw [hp] at hread
        generalize hr : sockRead (Event.data bs :: rest)
          (toSizeT ((BUFF_SIZE : Int) - r.bytes_buffered)) = sr at r1 r2 r3 r4 r5 r6 hread
        obtain ⟨ret, d, pending1⟩ := sr
        simp only at r1 r2 r3 r4 r5 r6 hread
        subst r1
        have hd0 : 0 < d.length := List.length_pos.mpr r2
        have hlen : (bytesOf r.sock.pending).length = d.length + (bytesOf pending1).length := by
          rw [hp, r4, List.length_append]
        have hret : r.bytes_buffered + (d.length : Int) ≠ -1 := by omega
        have hbb : (r.bytes_buffered + (d.length : Int)).toNat
            = r.bytes_buffered.toNat + d.length := by omega
        have hw : bytesAt (store r.buffer r.bytes_buffered.toNat d) 0
            (r.bytes_buffered + (d.length : Int)).toNat
            = bytesAt r.buffer 0 r.bytes_buffered.toNat ++ d := by
          rw [hbb, bytesAt_add, Nat.zero_add, bytesAt_store, bytesAt_store_before]
        have hih := ih (HttpResponse.read BUFF_SIZE r).obj
          (by rw [hread]; exact r5) (by rw [hread])
          (by rw [hread]; simp only; omega)
          (by rw [hread]; simp only; omega)
          (by
            rw [hread]
            rw [hp] at hfuel
            simp only
            omega)
        rw [drain, if_neg (by rw [hread]; exact hret), hih, hread]
        simp only [Int.toNat_zero, bytesAt_zero, List.nil_append, hw, Option.some.injEq,
          Prod.mk.injEq]
        rw [hp, r4]
        refine ⟨by simp, by omega⟩
      · have hread := read_buffered BUFF_SIZE r hlt hs
        have hl0 : (bytesOf r.sock.pending).length = 0 := by omega
        have hret : r.bytes_buffered ≠ -1 := by omega
        have hf : 1 ≤ f := by
          have := sockFuel_pos r.sock.pending
          omega
        obtain ⟨f1, hf1⟩ : ∃ f1, f = f1 + 1 := ⟨f - 1, by omega⟩
        subst hf1
        rw [drain, if_neg (by rw [hread]; exact hret),
          drain_exhausted BUFF_SIZE f1 _ (by rw [hread]; simp only; omega), hread]
        simp only [List.append_nil, Option.some.injEq, Prod.mk.injEq]
        rw [List.length_eq_zero.mp hl0]
        refine ⟨by simp, by omega⟩

/-! ## Valid responses -/

theorem headerLine_fields (st st1 : Parse) (line : List Char)
    (h : headerLine st line = Except.ok st1) :
    st1.read_status = st.read_status ∧ st1.read_stream = [] ∧ st1._status = st._status := by
  unfold headerLine at h
  simp only at h
  split at h
  · cases h
  · split at h
    · cases h
    · split at h
      · split at h
        · cases h
        · cases h
          exact ⟨rfl, rfl, rfl⟩
      · cases h
        exact ⟨rfl, rfl, rfl⟩

theorem getD_zero_ne_iff (line : List Char) (c : Char) (hc : c ≠ '\x00') :
    line.getD 0 '\x00' ≠ c ↔ line.head? ≠ some c := by
  cases line with
  | nil => simp [Ne.symm hc]
  | cons a t => simp

theorem processLine_first (st st1 : Parse) (line : List Char)
    (hs : st.read_status = ReadStatus.FIRST_LINE) (h : processLine st line = Except.ok st1) :
    st1.read_status = ReadStatus.HEADERS ∧ st1.read_stream = [] := by
  simp only [processLine, if_pos hs, Except.ok.injEq] at h
  subst h
  exact ⟨rfl, rfl⟩

theorem processLine_header (st st1 : Parse) (line : List Char)
    (hs : st.read_status = ReadStatus.HEADERS) (hl : line.head? ≠ some '\r')
    (h : processLine st line = Except.ok st1) :
    st1.read_status = ReadStatus.HEADERS ∧ st1.read_stream = [] := by
  have h1 : ¬ st.read_status = ReadStatus.FIRST_LINE := by rw [hs]; decide
  have h2 : line.getD 0 '\x00' ≠ '\r' := (getD_zero_ne_iff line '\r' (by decide)).mpr hl
  simp only [processLine, if_neg h1, if_pos h2] at h
  obtain ⟨a, b, _⟩ := headerLine_fields st st1 line h
  exact ⟨by rw [a, hs], b⟩

theorem processLine_terminator (st : Parse) (line : List Char)
    (hs : st.read_status = ReadStatus.HEADERS) (hl : line.head? = some '\r') :
    processLine st line =
      Except.ok { st with read_status := ReadStatus.BODY, read_stream := [] } := by
  have h1 : ¬ st.read_status = ReadStatus.FIRST_LINE := by rw [hs]; decide
  have h2 : ¬ line.getD 0 '\x00' ≠ '\r' := by
    rw [getD_zero_ne_iff line '\r' (by decide)]
    simp [hl]
  simp only [processLine, if_neg h1, if_neg h2]

theorem feed_header_lines (headerLines : List (List Char)) (st st1 : Parse)
    (tail : List Char) (hs : st.read_status = ReadStatus.HEADERS) (hrs : st.read_stream = [])
    (hl : ∀ l ∈ headerLines, IsLine l ∧ l.head? ≠ some '\r')
    (hp : processLines st headerLines = Except.ok st1) :
    feed st (headerLines.flatten ++ tail) = feed st1 tail ∧
      st1.read_status = ReadStatus.HEADERS ∧ st1.read_stream = [] := by
  induction headerLines generalizing st with
  | nil =>
    simp only [processLines, Except.ok.injEq] at hp
    subst hp
    exact ⟨by simp, hs, hrs⟩
  | cons l ls ih =>
    obtain ⟨⟨pre, hpre, hno⟩, hhead⟩ := hl l (by simp)
    have hb : st.read_status ≠ ReadStatus.BODY := by rw [hs]; decide
    simp only [processLines] at hp
    have hf : feed st ((l :: ls).flatten ++ tail) =
        (match processLine st l with
          | Except.error e => Except.error e
          | Except.ok st2 => feed st2 (ls.flatten ++ tail)) := by
      have : (l :: ls).flatten ++ tail = pre ++ '\n' :: (ls.flatten ++ tail) := by
        simp [hpre]
      rw [this, feed_line st pre _ hb hno, hrs, List.nil_append, ← hpre]
    rw [hf]
    cases hpl : processLine st l with
    | error e => rw [hpl] at hp; cases hp
    | ok st2 =>
      rw [hpl] at hp
      obtain ⟨a, b⟩ := processLine_header st st2 l hs hhead hpl
      exact ih st2 a b (fun x hx => hl x (by simp [hx])) hp

theorem feed_valid (stream : List Char) (st : Parse) (body : List Char)
    (hv : ValidResponse stream st body) :
    feed Parse.init stream =
      Except.ok ({ st with read_status := ReadStatus.BODY, read_stream := [] }, body) := by
  obtain ⟨statusLine, headerLines, ⟨pre, hpre, hno⟩, hl, hstream, hp, _⟩ := hv
  simp only [processLines] at hp
  have hb : Parse.init.read_status ≠ ReadStatus.BODY := by simp [Parse.init]
  have h1 : stream = pre ++ '\n' :: (headerLines.flatten ++ ('\r' :: '\n' :: body)) := by
    rw [hstream, hpre]
    simp
  rw [h1, feed_line Parse.init pre _ hb hno]
  have h2 : Parse.init.read_stream ++ pre ++ ['\n'] = statusLine := by
    rw [hpre]
    simp [Parse.init]
  rw [h2]
  cases hpl : processLine Parse.init statusLine with
  | error e => rw [hpl] at hp; cases hp
  | ok st0 =>
    rw [hpl] at hp
    obtain ⟨a, b⟩ := processLine_first Parse.init st0 statusLine rfl hpl
    obtain ⟨c1, c2, c3⟩ := feed_header_lines headerLines st0 st _ a b hl hp
    simp only
    rw [c1]
    have hb2 : st.read_status ≠ ReadStatus.BODY := by rw [c2]; decide
    have h3 := feed_line st ['\r'] body hb2 (by decide)
    simp only [List.singleton_append] at h3
    rw [h3, c3, processLine_terminator st _ c2 (by simp)]
    simp only
    rw [feed_body _ _ rfl]

theorem bytesOf_chunked (cs : List (List Char)) : bytesOf (chunked cs) = cs.flatten := by
  induction cs with
  | nil => rfl
  | cons c t ih =>
    simp only [chunked, List.map_cons, bytesOf, List.flatten_cons] at ih ⊢
    rw [ih]

theorem flowing_chunked (cs : List (List Char)) (h : ∀ c ∈ cs, c ≠ []) :
    Flowing (chunked cs) := by
  intro e he
  simp only [chunked, List.mem_map] at he
  obtain ⟨c, hc, rfl⟩ := he
  exact ⟨c, rfl, h c hc⟩

/-- The constructor and the body reader on a valid response whose bytes the
socket delivers in non-empty pieces: the fields are those of the reference
parse and draining the body yields exactly the body bytes. -/
theorem valid_response_run (BUFF_SIZE : Nat) (hB0 : 0 < BUFF_SIZE)
    (hB : BUFF_SIZE < 2147483648) (buffer : Nat → Char) (stream : List Char) (st : Parse)
    (body : List Char) (hv : ValidResponse stream st body) (cs : List (List Char))
    (hcs : cs.flatten = stream) (hne : ∀ c ∈ cs, c ≠ []) :
    ∃ r, HttpResponse.new BUFF_SIZE buffer (chunked cs) = Except.ok r ∧
      r._status = st._status ∧ r.headers = st.headers ∧
      r.content_length = st.content_length ∧
      ∃ N, ∀ fuel, N ≤ fuel → drain BUFF_SIZE fuel r = some (body, st.content_length) := by
  have hfeed := feed_valid stream st body hv
  rw [← hcs, ← bytesOf_chunked] at hfeed
  obtain ⟨r, a1, a2, a3, a4, a5, a6⟩ := new_of_feed BUFF_SIZE hB0 hB buffer (chunked cs)
    (flowing_chunked cs hne) _ _ hfeed
  obtain ⟨b1, b2, b3, b4⟩ := a6 rfl
  have hlen : (body.length : Int) = st.content_length := by
    obtain ⟨_, _, _, _, _, _, h⟩ := hv
    exact h
  have hsum : r.bytes_read + r.bytes_buffered + ((bytesOf r.sock.pending).length : Int)
      = r.content_length := by
    have := congrArg List.length b3
    rw [List.length_append, bytesAt_length] at this
    rw [a5, a4, ← hlen]
    omega
  refine ⟨r, a1, a2, a3, a4, sockFuel r.sock.pending + 1, ?_⟩
  intro fuel hfuel
  rw [drain_flowing BUFF_SIZE fuel hB r b4 b1 b2 hsum hfuel, b3, a4, a5]
  simp

/-! ## The header map and `content_length` -/

theorem find_set_same (h : Headers) (k v : List Char) : (h.set k v).find k = some v := by
  induction h with
  | nil => simp [Headers.set, Headers.find]
  | cons p t ih =>
    obtain ⟨k1, v1⟩ := p
    by_cases hk : k1 = k
    · simp [Headers.set, Headers.find, hk]
    · simp [Headers.set, Headers.find, hk, ih]

theorem find_set_ne (h : Headers) (k v k1 : List Char) (hne : k1 ≠ k) :
    (h.set k v).find k1 = h.find k1 := by
  induction h with
  | nil => simp [Headers.set, Headers.find, Ne.symm hne]
  | cons p t ih =>
    obtain ⟨k2, v2⟩ := p
    by_cases hk : k2 = k
    · subst hk
      simp [Headers.set, Headers.find, Ne.symm hne]
    · by_cases hk1 : k2 = k1
      · subst hk1
        simp [Headers.set, Headers.find, hk]
      · simp [Headers.set, Headers.find, hk, hk1, ih]

theorem toNat_ofNat_small (n : Nat) (h : n < 55296) : (Char.ofNat n).toNat = n := by
  have hv : n.isValidChar := Or.inl h
  simp only [Char.ofNat, dif_pos hv, Char.toNat, Char.ofNatAux]
  show (UInt32.ofNat' n _).toNat = n
  simp [UInt32.ofNat', UInt32.toNat]

theorem tolower_idem (c : Char) : tolower (tolower c) = tolower c := by
  unfold tolower
  by_cases h : 65 ≤ c.toNat ∧ c.toNat ≤ 90
  · rw [if_pos h]
    have h1 : (Char.ofNat (c.toNat + 32)).toNat = c.toNat + 32 :=
      toNat_ofNat_small _ (by omega)
    have h2 : ¬ (65 ≤ (Char.ofNat (c.toNat + 32)).toNat ∧
        (Char.ofNat (c.toNat + 32)).toNat ≤ 90) := by
      rw [h1]
      omega
    rw [if_neg h2]
  · rw [if_neg h, if_neg h]

theorem map_tolower_idem (s : List Char) : (s.map tolower).map tolower = s.map tolower := by
  rw [List.map_map]
  apply List.map_congr_left
  intro c _
  exact tolower_idem c

theorem headerLine_effect (st st1 : Parse) (line : List Char)
    (hb : Built st.headers st.content_length) (h : headerLine st line = Except.ok st1) :
    Built st1.headers st1.content_length := by
  unfold headerLine at h
  simp only at h
  split at h
  · cases h
  · split at h
    · cases h
    · rename_i name _ value _
      split at h
      · rename_i hname
        split at h
        · cases h
        · rename_i n hn
          cases h
          simp only
          rw [hname]
          exact Built.length _ _ _ _ hb hn
      · rename_i hname
        cases h
        exact Built.other _ _ _ _ hb hname

theorem processLine_effect (st st1 : Parse) (line : List Char)
    (hb : Built st.headers st.content_length) (h : processLine st line = Except.ok st1) :
    Built st1.headers st1.content_length := by
  unfold processLine at h
  split at h
  · cases h
    exact hb
  · split at h
    · exact headerLine_effect st st1 line hb h
    · cases h
      exact hb

theorem innerLoop_built (buffer : Nat → Char) (n_bytes fuel : Nat) (st : Parse) (i j : Nat)
    (st1 : Parse) (i1 : Nat) (hb : Built st.headers st.content_length)
    (h : innerLoop buffer n_bytes fuel st i j = Except.ok (st1, i1)) :
    Built st1.headers st1.content_length := by
  induction fuel generalizing st i j with
  | zero =>
    simp only [innerLoop, Except.ok.injEq, Prod.mk.injEq] at h
    rw [← h.1]
    exact hb
  | succ f ih =>
    unfold innerLoop at h
    simp only at h
    split at h
    · simp only [Except.ok.injEq, Prod.mk.injEq] at h
      rw [← h.1]
      exact hb
    · split at h
      · simp only [Except.ok.injEq, Prod.mk.injEq] at h
        rw [← h.1]
        exact hb
      · split at h
        · cases h
        · rename_i st2 hpl
          exact ih st2 _ _ (processLine_effect st st2 _ hb hpl) h

theorem outerLoop_built (BUFF_SIZE fuel : Nat) (l l1 : Locals)
    (hb : Built l.st.headers l.st.content_length)
    (h : outerLoop BUFF_SIZE fuel l = Except.ok l1) :
    Built l1.st.headers l1.st.content_length := by
  induction fuel generalizing l with
  | zero =>
    simp only [outerLoop, Except.ok.injEq] at h
    rw [← h]
    exact hb
  | succ f ih =>
    unfold outerLoop at h
    simp only at h
    split at h
    · simp only [Except.ok.injEq] at h
      rw [← h]
      exact hb
    · split at h
      · simp only [Except.ok.injEq] at h
        rw [← h]
        exact hb
      · split at h
        · cases h
        · rename_i st2 i2 hin
          exact ih _ (innerLoop_built _ _ _ _ _ _ st2 i2 hb hin) h

theorem new_built (BUFF_SIZE : Nat) (buffer : Nat → Char) (pending : List Event)
    (r : HttpResponse) (h : HttpResponse.new BUFF_SIZE buffer pending = Except.ok r) :
    Built r.headers r.content_length ∧ r.bytes_read = 0 := by
  unfold HttpResponse.new at h
  split at h
  · cases h
  · rename_i l hl
    cases h
    exact ⟨outerLoop_built BUFF_SIZE _ _ l Built.init hl, rfl⟩

theorem built_lower_keys (h : Headers) (cl : Int) (hb : Built h cl) (k v : List Char)
    (hf : h.find k = some v) : k.map tolower = k := by
  induction hb with
  | init => simp [Headers.find] at hf
  | other h cl name value _ _ ih =>
    by_cases hk : k = name.map tolower
    · rw [hk, map_tolower_idem]
    · rw [find_set_ne _ _ _ _ hk] at hf
      exact ih hf
  | length h cl n value _ _ ih =>
    by_cases hk : k = contentLengthKey
    · rw [hk]
      decide
    · rw [find_set_ne _ _ _ _ hk] at hf
      exact ih hf

theorem built_content_length (h : Headers) (cl : Int) (hb : Built h cl) :
    (∀ v, h.find contentLengthKey = some v → stoi v = Except.ok cl) ∧
    (h.find contentLengthKey = none → cl = 0) := by
  induction hb with
  | init => exact ⟨fun v hv => by simp [Headers.find] at hv, fun _ => rfl⟩
  | other h cl name value _ hne ih =>
    rw [find_set_ne _ _ _ _ (Ne.symm hne)]
    exact ih
  | length h cl n value _ hn ih =>
    rw [find_set_same]
    refine ⟨fun v hv => ?_, fun hv => by cases hv⟩
    cases hv
    exact hn

/-! ## Decimal integers -/

theorem isdigit_facts (c : Char) (h : isdigit c = true) :
    c ≠ '\x00' ∧ isspace c = false ∧ c ≠ '-' ∧ c ≠ '+' := by
  simp only [isdigit, decide_eq_true_eq] at h
  refine ⟨?_, ?_, ?_, ?_⟩
  · intro hc; subst hc; revert h; decide
  · simp only [isspace, Bool.or_eq_false_iff, decide_eq_false_iff_not]
    refine ⟨⟨⟨⟨⟨?_, ?_⟩, ?_⟩, ?_⟩, ?_⟩, ?_⟩ <;> (intro hc; subst hc; revert h; decide)
  · intro hc; subst hc; revert h; decide
  · intro hc; subst hc; revert h; decide

theorem takeWhile_isdigit_all (ds : List Char) (hall : ∀ c ∈ ds, isdigit c = true) :
    ds.takeWhile isdigit = ds := List.takeWhile_eq_self_iff.mpr hall

theorem c_str_digits (ds : List Char) (hall : ∀ c ∈ ds, isdigit c = true) : c_str ds = ds := by
  unfold c_str
  apply List.takeWhile_eq_self_iff.mpr
  intro c hc
  simpa using (isdigit_facts c (hall c hc)).1

theorem stoi_digits (ds : List Char) (hne : ds ≠ []) (hall : ∀ c ∈ ds, isdigit c = true) :
    stoi ds = if 2147483647 < (digitsValue ds : Int) then Except.error Exn.out_of_range
      else Except.ok (digitsValue ds : Int) := by
  obtain ⟨d, t, rfl⟩ := List.exists_cons_of_ne_nil hne
  obtain ⟨f1, f2, f3, f4⟩ := isdigit_facts d (hall d (by simp))
  have hd : isdigit d = true := hall d (by simp)
  have ht : t.takeWhile isdigit = t :=
    takeWhile_isdigit_all t (fun c hc => hall c (by simp [hc]))
  unfold stoi
  rw [c_str_digits _ hall]
  simp only [List.dropWhile_cons, f2, Bool.false_eq_true, if_false, List.head?_cons,
    Option.some.injEq, f3, f4, or_self, List.takeWhile_cons, hd, if_true, ht]
  have : ¬ ((digitsValue (d :: t) : Int) < -2147483648) := by omega
  simp [this]

theorem stoi_neg_digits (ds : List Char) (hne : ds ≠ []) (hall : ∀ c ∈ ds, isdigit c = true) :
    stoi ('-' :: ds) = if -(digitsValue ds : Int) < -2147483648
      then Except.error Exn.out_of_range else Except.ok (-(digitsValue ds : Int)) := by
  obtain ⟨d, t, rfl⟩ := List.exists_cons_of_ne_nil hne
  have hd : isdigit d = true := hall d (by simp)
  have ht : t.takeWhile isdigit = t :=
    takeWhile_isdigit_all t (fun c hc => hall c (by simp [hc]))
  have hc : c_str ('-' :: d :: t) = '-' :: d :: t := by
    have := c_str_digits _ hall
    unfold c_str at this ⊢
    rw [List.takeWhile_cons, if_pos (by decide), this]
  have hs : isspace '-' = false := by decide
  unfold stoi
  rw [hc]
  simp only [List.dropWhile_cons, hs, Bool.false_eq_true, if_false, List.head?_cons,
    true_or, if_true, List.tail_cons, List.takeWhile_cons, hd, ht]
  have : ¬ (2147483647 < -(digitsValue (d :: t) : Int)) := by omega
  simp [this]

theorem stoi_decimal (v : List Char) (n m : Int) (hd : IsDecimal v n)
    (h : stoi v = Except.ok m) : m = n := by
  obtain ⟨ds, hne, hall, hv | hv⟩ := hd
  · rw [hv.1, stoi_digits ds hne hall] at h
    rw [hv.2]
    split at h
    · cases h
    · cases h; rfl
  · rw [hv.1, stoi_neg_digits ds hne hall] at h
    rw [hv.2]
    split at h
    · cases h
    · cases h; rfl

/-! ## The last chunk -/

theorem sockRead_data (pending : List Event) (count : Nat)
    (hd : ∀ e ∈ pending, e ≠ Event.error) :
    (sockRead pending count).ret = ((sockRead pending count).bytes.length : Int) ∧
    (sockRead pending count).bytes.length ≤ count ∧
    (∀ e ∈ (sockRead pending count).pending, e ≠ Event.error) ∧
    sockFuel (sockRead pending count).pending ≤ sockFuel pending := by
  cases pending with
  | nil => exact ⟨rfl, Nat.zero_le _, (fun e he => by cases he), le_refl _⟩
  | cons ev rest =>
    have hrest : ∀ e ∈ rest, e ≠ Event.error := fun e he => hd e (by simp [he])
    cases ev with
    | error => exact absurd rfl (hd Event.error (by simp))
    | data bs =>
      by_cases hle : bs.length ≤ count
      · have hr : sockRead (Event.data bs :: rest) count =
            { ret := (bs.length : Int), bytes := bs, pending := rest } := by
          simp [sockRead, hle]
        rw [hr]
        refine ⟨rfl, hle, hrest, ?_⟩
        simp only [sockFuel, List.map_cons, List.sum_cons]
        omega
      · have hr : sockRead (Event.data bs :: rest) count =
            { ret := (count : Int), bytes := bs.take count,
              pending := Event.data (bs.drop count) :: rest } := by
          simp [sockRead, hle]
        rw [hr]
        have ht : (bs.take count).length = count := by
          simp
          omega
        refine ⟨?_, ?_, ?_, ?_⟩
        · show (count : Int) = ((bs.take count).length : Int)
          rw [ht]
        · show (bs.take count).length ≤ count
          omega
        · intro e he
          simp only [List.mem_cons] at he
          rcases he with he | he
          · rw [he]
            exact fun h => by cases h
          · exact hrest e he
        · show sockFuel (Event.data (bs.drop count) :: rest) ≤ sockFuel (Event.data bs :: rest)
          simp only [sockFuel, List.map_cons, List.sum_cons, List.length_drop]
          omega

theorem innerLoop_exit (buffer : Nat → Char) (n_bytes : Nat) (st st1 : Parse) (i1 : Nat)
    (hb : st.read_status ≠ ReadStatus.BODY)
    (h : innerLoop buffer n_bytes (n_bytes + 1) st 0 0 = Except.ok (st1, i1))
    (hb1 : st1.read_status = ReadStatus.BODY) :
    1 ≤ i1 ∧ i1 ≤ n_bytes ∧ buffer (i1 - 1) = '\n' := by
  obtain ⟨a1, a2⟩ := innerLoop_feed buffer n_bytes (n_bytes + 1) st 0 (Nat.zero_le _)
    (by omega)
  cases hf : feed st (bytesAt buffer 0 (n_bytes - 0)) with
  | error e =>
    rw [a1 e hf] at h
    cases h
  | ok pr =>
    obtain ⟨st2, rest⟩ := pr
    obtain ⟨i2, b1, _, b3, _, b5, _⟩ := a2 st2 rest hf
    rw [b1] at h
    simp only [Except.ok.injEq, Prod.mk.injEq] at h
    obtain ⟨h1, h2⟩ := h
    subst h1 h2
    obtain ⟨c1, c2⟩ := (b5 hb1).2 hb
    exact ⟨by omega, b3, c2⟩

theorem store_zero_apply (prev : Nat → Char) (chunk : List Char) (k : Nat)
    (hk : k < chunk.length) : store prev 0 chunk k = chunk.getD k '\x00' := by
  have : 0 ≤ k ∧ k < 0 + chunk.length := by omega
  simp only [store, if_pos this, Nat.sub_zero]

/-! ## The header branch -/

theorem getD_space_lt (line : List Char) (k : Nat) (h : line.getD k '\x00' = ' ') :
    k < line.length := by
  by_contra hk
  rw [List.getD_eq_default _ _ (by omega)] at h
  revert h
  decide

theorem skipSpaces_le (line : List Char) (fuel k : Nat) (hk : k ≤ line.length) :
    skipSpaces line fuel k ≤ line.length := by
  induction fuel generalizing k with
  | zero => exact hk
  | succ f ih =>
    unfold skipSpaces
    split
    · rename_i hsp
      exact ih (k + 1) (getD_space_lt line k hsp)
    · exact hk

theorem find_bounds (line : List Char) (c : Char) :
    -1 ≤ find line c ∧ find line c < (line.length : Int) := by
  unfold find
  split <;> omega

theorem substr_ok (s : List Char) (pos count : Int) (h0 : 0 ≤ pos)
    (h1 : pos ≤ (s.length : Int)) : ∃ r, substr s pos count = Except.ok r := by
  unfold substr
  rw [if_neg (by omega)]
  split
  · exact ⟨_, rfl⟩
  · exact ⟨_, rfl⟩

theorem headerLine_shape (st : Parse) (line : List Char) :
    ∃ name value : List Char, headerLine st line =
      (if name = contentLengthKey then
        (match stoi value with
          | Except.error e => Except.error e
          | Except.ok n =>
            Except.ok { st with headers := st.headers.set name value, content_length := n,
                                read_stream := [] })
      else Except.ok { st with headers := st.headers.set name value, read_stream := [] }) := by
  obtain ⟨f1, f2⟩ := find_bounds line ':'
  obtain ⟨name, hname⟩ := substr_ok line 0 (find line ':') (le_refl _) (by omega)
  have hvb := skipSpaces_le line (line.length - (find line ':' + 1).toNat)
    (find line ':' + 1).toNat (by omega)
  obtain ⟨value, hvalue⟩ := substr_ok line
    ((skipSpaces line (line.length - (find line ':' + 1).toNat)
      (find line ':' + 1).toNat : Nat) : Int)
    (rfind line '\r' - ((skipSpaces line (line.length - (find line ':' + 1).toNat)
      (find line ':' + 1).toNat : Nat) : Int)) (by omega) (by omega)
  refine ⟨name.map tolower, value, ?_⟩
  simp only [headerLine, hname, hvalue, contentLengthKey]

theorem processLine_headers_state (st : Parse) (line : List Char)
    (hs : st.read_status = ReadStatus.HEADERS) (hl : line.head? ≠ some '\r') :
    processLine st line = headerLine st line := by
  have h1 : ¬ st.read_status = ReadStatus.FIRST_LINE := by rw [hs]; decide
  have h2 : line.getD 0 '\x00' ≠ '\r' := (getD_zero_ne_iff line '\r' (by decide)).mpr hl
  simp only [processLine, if_neg h1, if_pos h2]

theorem skipSpaces_spaces (spaces pre rest : List Char) (fuel : Nat)
    (hall : ∀ c ∈ spaces, c = ' ') (hrest : rest.head? ≠ some ' ')
    (hf : spaces.length ≤ fuel) :
    skipSpaces (pre ++ spaces ++ rest) fuel pre.length = pre.length + spaces.length := by
  induction spaces generalizing pre fuel with
  | nil =>
    cases fuel with
    | zero => rfl
    | succ f =>
      have hne : (pre ++ [] ++ rest).getD pre.length '\x00' ≠ ' ' := by
        rw [List.append_nil, List.getD_append_right _ _ _ _ (le_refl _), Nat.sub_self]
        cases rest with
        | nil => decide
        | cons a t =>
          intro h
          apply hrest
          simpa using h
      simp only [skipSpaces, if_neg hne, List.length_nil, Nat.add_zero]
  | cons s ss ih =>
    cases fuel with
    | zero => simp at hf
    | succ f =>
      have hs : s = ' ' := hall s (by simp)
      have hnorm : pre ++ s :: ss ++ rest = pre ++ s :: (ss ++ rest) := by simp
      have heq : (pre ++ s :: (ss ++ rest)).getD pre.length '\x00' = ' ' := by
        rw [List.getD_append_right _ _ _ _ (le_refl _), Nat.sub_self]
        simpa using hs
      have hih := ih (pre ++ [s]) f (fun c hc => hall c (by simp [hc]))
        (by simpa using hf)
      simp only [List.append_assoc, List.singleton_append, List.length_append,
        List.length_singleton] at hih
      rw [List.cons_append] at hih
      rw [hnorm, skipSpaces, if_pos heq, hih, List.length_cons]
      omega

theorem find_first (name rest : List Char) (c : Char) (h : c ∉ name) :
    find (name ++ c :: rest) c = (name.length : Int) := by
  have hi : (name ++ c :: rest).indexOf c = name.length := by
    rw [List.indexOf_append_of_not_mem h, List.indexOf_cons_self, Nat.add_zero]
  unfold find
  rw [hi, if_pos (by simp)]

theorem rfind_trailing_cr (body : List Char) :
    rfind (body ++ ['\r', '\n']) '\r' = (body.length : Int) := by
  have hi : (body ++ ['\r', '\n']).reverse.indexOf '\r' = 1 := by
    rw [List.reverse_append]
    rfl
  unfold rfind
  rw [hi, if_pos (by simp)]
  simp

theorem headerLine_of_form (st : Parse) (name spaces value : List Char)
    (hname : ':' ∉ name) (hsp : ∀ c ∈ spaces, c = ' ') (hv : value.head? ≠ some ' ') :
    headerLine st (headerLineOf name spaces value) =
      (if name.map tolower = contentLengthKey then
        (match stoi value with
          | Except.error e => Except.error e
          | Except.ok n =>
            Except.ok { st with headers := st.headers.set (name.map tolower) value,
                                content_length := n, read_stream := [] })
      else Except.ok { st with headers := st.headers.set (name.map tolower) value,
                               read_stream := [] }) := by
  have hfind : find (headerLineOf name spaces value) ':' = (name.length : Int) :=
    find_first name _ ':' hname
  have hlen : (headerLineOf name spaces value).length =
      name.length + 1 + spaces.length + value.length + 2 := by
    simp [headerLineOf]
    omega
  have hrest : (value ++ ['\r', '\n']).head? ≠ some ' ' := by
    cases value with
    | nil => decide
    | cons a t => simpa using hv
  have hskip : skipSpaces (headerLineOf name spaces value)
      ((headerLineOf name spaces value).length - (name.length + 1)) (name.length + 1)
      = name.length + 1 + spaces.length := by
    have h := skipSpaces_spaces spaces (name ++ [':']) (value ++ ['\r', '\n'])
      ((headerLineOf name spaces value).length - (name.length + 1)) hsp hrest
      (by rw [hlen]; omega)
    simp only [List.length_append, List.length_singleton] at h
    rw [← h]
    simp [headerLineOf]
  have hrfind : rfind (headerLineOf name spaces value) '\r' =
      ((name.length + 1 + spaces.length + value.length : Nat) : Int) := by
    have h := rfind_trailing_cr (name ++ ':' :: (spaces ++ value))
    have e : name ++ ':' :: (spaces ++ value) ++ ['\r', '\n'] =
        headerLineOf name spaces value := by simp [headerLineOf]
    rw [e] at h
    rw [h]
    simp
    omega
  have hsub1 : substr (headerLineOf name spaces value) 0 (name.length : Int) =
      Except.ok name := by
    unfold substr
    rw [if_neg (by omega), if_neg (by omega)]
    simp [headerLineOf]
  have hsub2 : substr (headerLineOf name spaces value)
      ((name.length + 1 + spaces.length : Nat) : Int)
      (((name.length + 1 + spaces.length + value.length : Nat) : Int) -
        ((name.length + 1 + spaces.length : Nat) : Int)) = Except.ok value := by
    unfold substr
    rw [if_neg (by rw [hlen]; omega), if_neg (by omega)]
    have e1 : (((name.length + 1 + spaces.length + value.length : Nat) : Int) -
        ((name.length + 1 + spaces.length : Nat) : Int)).toNat = value.length := by omega
    have e2 : headerLineOf name spaces value =
        (name ++ [':'] ++ spaces) ++ (value ++ ['\r', '\n']) := by simp [headerLineOf]
    rw [e1, Int.toNat_ofNat, e2, List.drop_left' (by simp; omega), List.take_left' rfl]
  have htn : ((name.length : Int) + 1).toNat = name.length + 1 := by omega
  simp only [headerLine, hfind, htn, hskip, hrfind, hsub1, hsub2, contentLengthKey]

/-! ## The status line -/

theorem isdigit_not_special (c : Char) (h : isdigit c = true) :
    tolower c = c ∧ c ≠ 'n' ∧ c ≠ 'i' ∧ c ≠ 'x' ∧ c ≠ '.' ∧ c ≠ ' ' := by
  simp only [isdigit, decide_eq_true_eq] at h
  refine ⟨?_, ?_, ?_, ?_, ?_, ?_⟩
  · unfold tolower
    rw [if_neg (by omega)]
  all_goals (intro hc; subst hc; revert h; decide)

theorem takeWhile_digits_then (ds t : List Char) (c : Char)
    (hall : ∀ d ∈ ds, isdigit d = true) (hc : isdigit c = false) :
    (ds ++ c :: t).takeWhile isdigit = ds ∧ (ds ++ c :: t).dropWhile isdigit = c :: t := by
  rw [List.takeWhile_append_of_pos hall, List.dropWhile_append_of_pos hall,
    List.takeWhile_cons, List.dropWhile_cons]
  simp [hc]

theorem scanMantissa_plain (ip X : List Char) (hip : ip ≠ [])
    (hall : ∀ d ∈ ip, isdigit d = true) :
    scanMantissa isdigit 'e' (ip ++ ' ' :: X) = some (' ' :: X) := by
  obtain ⟨h1, h2⟩ := takeWhile_digits_then ip X ' ' hall (by decide)
  have he : tolower ' ' ≠ 'e' := by decide
  simp [scanMantissa, h1, h2, hip, scanExponent, he]

theorem scanMantissa_point (ip fp X : List Char) (hip : ip ≠ [])
    (hall : ∀ d ∈ ip, isdigit d = true) (hfp : ∀ d ∈ fp, isdigit d = true) :
    scanMantissa isdigit 'e' (ip ++ '.' :: (fp ++ ' ' :: X)) = some (' ' :: X) := by
  obtain ⟨h1, h2⟩ := takeWhile_digits_then ip (fp ++ ' ' :: X) '.' hall (by decide)
  obtain ⟨h3, h4⟩ := takeWhile_digits_then fp X ' ' hfp (by decide)
  have he : tolower ' ' ≠ 'e' := by decide
  simp [scanMantissa, h1, h2, h3, h4, hip, scanExponent, he]

theorem scanFloat_digit_start (d c : Char) (t : List Char) (hd : isdigit d = true)
    (hc : tolower c ≠ 'x') :
    scanFloat (d :: c :: t) = scanMantissa isdigit 'e' (d :: c :: t) := by
  obtain ⟨_, f2, f3, f4⟩ := isdigit_facts d hd
  obtain ⟨g1, g2, g3, _, _, _⟩ := isdigit_not_special d hd
  have hnan : startsCI (d :: c :: t) ['n', 'a', 'n'] = false := by
    simp [startsCI, g1, g2]
  have hinf : startsCI (d :: c :: t) ['i', 'n', 'f'] = false := by
    simp [startsCI, g1, g3]
  have hhex : startsCI (d :: c :: t) ['0', 'x'] = false := by
    simp [startsCI, hc]
  simp [scanFloat, f2, f3, f4, hnan, hinf, hhex]

theorem scanFloat_version (version X : List Char) (hv : IsVersion version) :
    scanFloat (version ++ ' ' :: X) = some (' ' :: X) := by
  obtain ⟨ip, fp, hip, hall, hfp, hform⟩ := hv
  obtain ⟨d, t, rfl⟩ := List.exists_cons_of_ne_nil hip
  have hd : isdigit d = true := hall d (by simp)
  have hx1 : tolower ' ' ≠ 'x' := by decide
  have hx2 : tolower '.' ≠ 'x' := by decide
  rcases hform with hform | hform
  · rw [hform, ← scanMantissa_plain (d :: t) X hip hall]
    cases t with
    | nil => exact scanFloat_digit_start d ' ' X hd hx1
    | cons d2 t2 =>
      obtain ⟨g1, _, _, g4, _, _⟩ := isdigit_not_special d2 (hall d2 (by simp))
      exact scanFloat_digit_start d d2 _ hd (by rw [g1]; exact g4)
  · have e : version ++ ' ' :: X = (d :: t) ++ '.' :: (fp ++ ' ' :: X) := by
      rw [hform]
      simp
    rw [e, ← scanMantissa_point (d :: t) fp X hip hall hfp]
    cases t with
    | nil => exact scanFloat_digit_start d '.' _ hd hx2
    | cons d2 t2 =>
      obtain ⟨g1, _, _, g4, _, _⟩ := isdigit_not_special d2 (hall d2 (by simp))
      exact scanFloat_digit_start d d2 _ hd (by rw [g1]; exact g4)

theorem scanInt_digits (ds T : List Char) (hne : ds ≠ [])
    (hall : ∀ d ∈ ds, isdigit d = true) (hr : digitsValue ds ≤ 2147483647) :
    scanInt (ds ++ ' ' :: T) = some (digitsValue ds : Int) := by
  obtain ⟨h1, _⟩ := takeWhile_digits_then ds T ' ' hall (by decide)
  obtain ⟨d, t, rfl⟩ := List.exists_cons_of_ne_nil hne
  obtain ⟨_, f2, f3, f4⟩ := isdigit_facts d (hall d (by simp))
  have hclamp : max (-9223372036854775808 : Int)
      (min 9223372036854775807 (digitsValue (d :: t) : Int)) = (digitsValue (d :: t) : Int) := by
    omega
  have hconv : toInt32 (toUnsigned (digitsValue (d :: t) : Int)) =
      (digitsValue (d :: t) : Int) := by
    rw [toUnsigned_natCast _ (by omega), toInt32_small _ (by omega)]
  have h1b : (d :: (t ++ ' ' :: T)).takeWhile isdigit = d :: t := by simpa using h1
  unfold scanInt
  simp only [List.cons_append, List.dropWhile_cons, f2, Bool.false_eq_true, if_false,
    List.head?_cons, Option.some.injEq, f3, f4, or_self, h1b]
  simp only [reduceCtorEq, if_false, hclamp, hconv]

theorem version_no_nul (version : List Char) (hv : IsVersion version) :
    ∀ c ∈ version, c ≠ '\x00' ∧ c ≠ '\n' := by
  obtain ⟨ip, fp, _, hall, hfp, hform⟩ := hv
  have hdig : ∀ c : Char, isdigit c = true → c ≠ '\x00' ∧ c ≠ '\n' := by
    intro c hc
    simp only [isdigit, decide_eq_true_eq] at hc
    constructor <;> (intro h; subst h; revert hc; decide)
  intro c hc
  rcases hform with hform | hform
  · rw [hform] at hc
    exact hdig c (hall c hc)
  · rw [hform] at hc
    simp only [List.mem_append, List.mem_cons] at hc
    rcases hc with hc | hc | hc
    · exact hdig c (hall c hc)
    · rw [hc]
      exact ⟨by decide, by decide⟩
    · exact hdig c (hfp c hc)

theorem sscanf_status_of_line (version status reason : List Char) (hv : IsVersion version)
    (hne : status ≠ []) (hall : ∀ d ∈ status, isdigit d = true)
    (hr : digitsValue status ≤ 2147483647) :
    sscanf_status (statusLineOf version status reason) = some (digitsValue status : Int) := by
  have hP : ∀ c ∈ ['H', 'T', 'T', 'P', '/'] ++ version ++ [' '] ++ status ++ [' '],
      (fun c => decide (c ≠ '\x00')) c = true := by
    intro c hc
    simp only [List.mem_append, List.mem_cons, List.mem_singleton, List.not_mem_nil,
      or_false] at hc
    simp only [decide_eq_true_eq]
    rcases hc with (((hc | hc) | hc) | hc) | hc
    · rcases hc with hc | hc | hc | hc | hc <;> (rw [hc]; decide)
    · exact (version_no_nul version hv c hc).1
    · rw [hc]; decide
    · exact (isdigit_facts c (hall c hc)).1
    · rw [hc]; decide
  have hc : c_str (statusLineOf version status reason) =
      ['H', 'T', 'T', 'P', '/'] ++ (version ++ ' ' :: (status ++ ' ' :: c_str (reason ++ ['\n'])))
      := by
    have e : statusLineOf version status reason =
        (['H', 'T', 'T', 'P', '/'] ++ version ++ [' '] ++ status ++ [' ']) ++
          (reason ++ ['\n']) := by
      simp [statusLineOf]
    rw [e]
    unfold c_str
    rw [List.takeWhile_append_of_pos hP]
    simp
  obtain ⟨d, t, hdt⟩ := List.exists_cons_of_ne_nil hne
  have hsp : isspace d = false := (isdigit_facts d (hall d (by simp [hdt]))).2.1
  have hdrop : (' ' :: (status ++ ' ' :: c_str (reason ++ ['\n']))).dropWhile isspace =
      status ++ ' ' :: c_str (reason ++ ['\n']) := by
    rw [List.dropWhile_cons, if_pos (by decide), hdt, List.cons_append, List.dropWhile_cons,
      if_neg (by simp [hsp])]
  unfold sscanf_status
  simp only [hc, List.take_left' (show (['H', 'T', 'T', 'P', '/'] : List Char).length = 5 from rfl),
    List.drop_left' (show (['H', 'T', 'T', 'P', '/'] : List Char).length = 5 from rfl),
    if_true, scanFloat_version version _ hv, hdrop, scanInt_digits status _ hne hall hr]

theorem processLine_status (st st1 : Parse) (line : List Char)
    (hs : st.read_status ≠ ReadStatus.FIRST_LINE) (h : processLine st line = Except.ok st1) :
    st1._status = st._status ∧ st1.read_status ≠ ReadStatus.FIRST_LINE := by
  unfold processLine at h
  rw [if_neg hs] at h
  split at h
  · obtain ⟨a, _, c⟩ := headerLine_fields st st1 line h
    exact ⟨c, by rw [a]; exact hs⟩
  · cases h
    exact ⟨rfl, by simp⟩

theorem feed_status (st : Parse) (cs : List Char) (st1 : Parse) (rest : List Char)
    (hs : st.read_status ≠ ReadStatus.FIRST_LINE) (h : feed st cs = Except.ok (st1, rest)) :
    st1._status = st._status := by
  induction cs generalizing st with
  | nil =>
    simp only [feed, Except.ok.injEq, Prod.mk.injEq] at h
    rw [← h.1]
  | cons c t ih =>
    by_cases hb : st.read_status = ReadStatus.BODY
    · rw [feed_body st _ hb] at h
      simp only [Except.ok.injEq, Prod.mk.injEq] at h
      rw [← h.1]
    · simp only [feed, if_neg hb] at h
      by_cases hc : c = '\n'
      · rw [if_pos hc] at h
        cases hpl : processLine st (st.read_stream ++ [c]) with
        | error e => rw [hpl] at h; cases h
        | ok st2 =>
          rw [hpl] at h
          obtain ⟨a, b⟩ := processLine_status st st2 _ hs hpl
          rw [ih st2 b h, a]
      · rw [if_neg hc] at h
        exact ih { st with read_stream := st.read_stream ++ [c] } hs h

theorem new_error_of_feed (BUFF_SIZE : Nat) (hB0 : 0 < BUFF_SIZE) (hB : BUFF_SIZE < 2147483648)
    (buffer : Nat → Char) (pending : List Event) (hflow : Flowing pending) (e : Exn)
    (hfeed : feed Parse.init (bytesOf pending) = Except.error e) :
    HttpResponse.new BUFF_SIZE buffer pending = Except.error e := by
  obtain ⟨a1, _⟩ := outerLoop_feed BUFF_SIZE hB0 hB (sockFuel pending)
    { st := Parse.init, buffer := buffer, i := 0, n_bytes := 0,
      sock := { pending := pending, calls := [] } }
    (le_refl _) hflow (by simp [Parse.init])
  simp only [HttpResponse.new, parsePhase, a1 e hfeed]

theorem statusLineOf_line (version status reason : List Char) (hv : IsVersion version)
    (hall : ∀ d ∈ status, isdigit d = true) (hreason : '\n' ∉ reason) :
    statusLineOf version status reason =
      (['H', 'T', 'T', 'P', '/'] ++ version ++ ' ' :: (status ++ ' ' :: reason)) ++ ['\n'] ∧
    '\n' ∉ ['H', 'T', 'T', 'P', '/'] ++ version ++ ' ' :: (status ++ ' ' :: reason) := by
  refine ⟨by simp [statusLineOf], ?_⟩
  intro hmem
  simp only [List.mem_append, List.mem_cons, List.not_mem_nil, or_false] at hmem
  rcases hmem with (hc | hc) | hc | hc | hc | hc
  · revert hc
    decide
  · exact (version_no_nul version hv _ hc).2 rfl
  · revert hc
    decide
  · have := hall _ hc
    revert this
    decide
  · revert hc
    decide
  · exact hreason hc

/-! ## Safety of the buffer -/

theorem innerLoop_i_le (buffer : Nat → Char) (n_bytes : Nat) (st st1 : Parse) (i1 : Nat)
    (h : innerLoop buffer n_bytes (n_bytes + 1) st 0 0 = Except.ok (st1, i1)) :
    i1 ≤ n_bytes := by
  obtain ⟨a1, a2⟩ := innerLoop_feed buffer n_bytes (n_bytes + 1) st 0 (Nat.zero_le _)
    (by omega)
  cases hf : feed st (bytesAt buffer 0 (n_bytes - 0)) with
  | error e =>
    rw [a1 e hf] at h
    cases h
  | ok pr =>
    obtain ⟨st2, rest⟩ := pr
    obtain ⟨i2, b1, _, b3, _⟩ := a2 st2 rest hf
    rw [b1] at h
    simp only [Except.ok.injEq, Prod.mk.injEq] at h
    rw [← h.2]
    exact b3

theorem outerLoop_bounds (BUFF_SIZE : Nat) (hB : BUFF_SIZE < 2147483648) (fuel : Nat)
    (l l1 : Locals) (hd : NoError l.sock.pending) (hi : l.i ≤ l.n_bytes)
    (hn : l.n_bytes ≤ BUFF_SIZE) (hc : CallsInBounds BUFF_SIZE l.sock.calls)
    (h : outerLoop BUFF_SIZE fuel l = Except.ok l1) :
    l1.i ≤ l1.n_bytes ∧ l1.n_bytes ≤ BUFF_SIZE ∧ NoError l1.sock.pending ∧
      CallsInBounds BUFF_SIZE l1.sock.calls := by
  induction fuel generalizing l with
  | zero =>
    simp only [outerLoop, Except.ok.injEq] at h
    rw [← h]
    exact ⟨hi, hn, hd, hc⟩
  | succ f ih =>
    obtain ⟨r1, r2, r3, _⟩ := sockRead_data l.sock.pending BUFF_SIZE hd
    have hc1 : CallsInBounds BUFF_SIZE ((0, (BUFF_SIZE : Int)) :: l.sock.calls) := by
      intro c hcm
      simp only [List.mem_cons] at hcm
      rcases hcm with hcm | hcm
      · rw [hcm]
        simp
      · exact hc c hcm
    unfold outerLoop at h
    simp only at h
    split at h
    · simp only [Except.ok.injEq] at h
      rw [← h]
      exact ⟨hi, hn, hd, hc⟩
    · generalize hr : sockRead l.sock.pending BUFF_SIZE = r at h r1 r2 r3
      obtain ⟨ret, d, pending1⟩ := r
      simp only at h r1 r2 r3
      subst r1
      rw [toUnsigned_natCast _ (by omega)] at h
      split at h
      · simp only [Except.ok.injEq] at h
        rw [← h]
        exact ⟨Nat.zero_le _, r2, r3, hc1⟩
      · split at h
        · cases h
        · rename_i st2 i2 hin
          refine ih _ ?_ ?_ ?_ ?_ h
          · exact r3
          · exact innerLoop_i_le _ _ _ _ _ hin
          · exact r2
          · exact hc1

theorem new_safe (BUFF_SIZE : Nat) (hB : BUFF_SIZE < 2147483648) (buffer : Nat → Char)
    (pending : List Event) (hd : NoError pending) (r : HttpResponse)
    (h : HttpResponse.new BUFF_SIZE buffer pending = Except.ok r) : Safe BUFF_SIZE r := by
  unfold HttpResponse.new at h
  split at h
  · cases h
  · rename_i l hl
    cases h
    obtain ⟨a1, a2, a3, a4⟩ := outerLoop_bounds BUFF_SIZE hB _ _ l hd (le_refl _)
      (Nat.zero_le _) (fun c hc => by cases hc) hl
    obtain ⟨b1, _, _⟩ := relocate_spec l a1 (by omega)
    exact ⟨by rw [b1]; omega, by rw [b1]; omega, a3, a4⟩

theorem read_safe (BUFF_SIZE : Nat) (hB : BUFF_SIZE < 2147483648) (r : HttpResponse)
    (hs : Safe BUFF_SIZE r) :
    Safe BUFF_SIZE (HttpResponse.read BUFF_SIZE r).obj ∧
    (r.bytes_read < r.content_length →
      0 ≤ (HttpResponse.read BUFF_SIZE r).ret ∧
      (HttpResponse.read BUFF_SIZE r).ret ≤ (BUFF_SIZE : Int) ∧
      ((HttpResponse.read BUFF_SIZE r).written.length : Int) =
        (HttpResponse.read BUFF_SIZE r).ret ∧
      (HttpResponse.read BUFF_SIZE r).obj.bytes_read =
        r.bytes_read + (HttpResponse.read BUFF_SIZE r).ret) ∧
    (HttpResponse.read BUFF_SIZE r).obj.content_length = r.content_length := by
  obtain ⟨s1, s2, s3, s4⟩ := hs
  by_cases hex : r.bytes_read ≥ r.content_length
  · rw [read_exhausted BUFF_SIZE r hex]
    exact ⟨⟨s1, s2, s3, s4⟩, fun h => by omega, rfl⟩
  · have hlt : r.bytes_read < r.content_length := by omega
    by_cases hsum : r.bytes_read + r.bytes_buffered < r.content_length
    · have hsz : toSizeT ((BUFF_SIZE : Int) - r.bytes_buffered) =
          ((BUFF_SIZE : Int) - r.bytes_buffered).toNat := by
        unfold toSizeT
        omega
      obtain ⟨r1, r2, r3, _⟩ := sockRead_data r.sock.pending
        (toSizeT ((BUFF_SIZE : Int) - r.bytes_buffered)) s3
      rw [read_socket BUFF_SIZE r hlt hsum]
      generalize hr : sockRead r.sock.pending (toSizeT ((BUFF_SIZE : Int) - r.bytes_buffered))
        = rd at r1 r2 r3
      obtain ⟨ret, d, pending1⟩ := rd
      simp only at r1 r2 r3
      subst r1
      rw [hsz] at r2
      refine ⟨⟨le_refl _, ?_, r3, ?_⟩, fun _ => ⟨?_, ?_, ?_, rfl⟩, rfl⟩
      · show (0 : Int) ≤ (BUFF_SIZE : Int)
        omega
      · intro c hcm
        have hcm1 : c = (r.bytes_buffered, (BUFF_SIZE : Int) - r.bytes_buffered) ∨
            c ∈ r.sock.calls := List.mem_cons.mp hcm
        rcases hcm1 with hcm1 | hcm1
        · rw [hcm1]
          simp only
          omega
        · exact s4 c hcm1
      · show 0 ≤ r.bytes_buffered + (d.length : Int)
        omega
      · show r.bytes_buffered + (d.length : Int) ≤ (BUFF_SIZE : Int)
        omega
      · show ((bytesAt (store r.buffer r.bytes_buffered.toNat d) 0
            (r.bytes_buffered + (d.length : Int)).toNat).length : Int) =
            r.bytes_buffered + (d.length : Int)
        rw [bytesAt_length]
        omega
    · rw [read_buffered BUFF_SIZE r hlt hsum]
      refine ⟨⟨le_refl _, ?_, s3, s4⟩, fun _ => ⟨s1, s2, ?_, rfl⟩, rfl⟩
      · show (0 : Int) ≤ (BUFF_SIZE : Int)
        omega
      · show ((bytesAt r.buffer 0 r.bytes_buffered.toNat).length : Int) = r.bytes_buffered
        rw [bytesAt_length]
        omega

theorem readCalls_succ (BUFF_SIZE n : Nat) (r : HttpResponse) :
    readCalls BUFF_SIZE (n + 1) r =
      (HttpResponse.read BUFF_SIZE (readCalls BUFF_SIZE n r)).obj := by
  induction n generalizing r with
  | zero => rfl
  | succ k ih =>
    rw [readCalls, ih]
    rfl

theorem readCalls_safe (BUFF_SIZE : Nat) (hB : BUFF_SIZE < 2147483648) (r : HttpResponse)
    (hs : Safe BUFF_SIZE r) (n : Nat) :
    Safe BUFF_SIZE (readCalls BUFF_SIZE n r) ∧
      (readCalls BUFF_SIZE n r).content_length = r.content_length := by
  induction n with
  | zero => exact ⟨hs, rfl⟩
  | succ k ih =>
    rw [readCalls_succ]
    obtain ⟨a, _, c⟩ := read_safe BUFF_SIZE hB _ ih.1
    exact ⟨a, by rw [c, ih.2]⟩

theorem noError_of_flowing (pending : List Event) (h : Flowing pending) : NoError pending := by
  intro e he
  obtain ⟨bs, hb, _⟩ := h e he
  rw [hb]
  exact fun h => by cases h

theorem sockRead_bytesOf (pending : List Event) (count : Nat) :
    bytesOf pending =
      (sockRead pending count).bytes ++ bytesOf (sockRead pending count).pending := by
  cases pending with
  | nil => rfl
  | cons ev rest =>
    cases ev with
    | error => rfl
    | data bs =>
      by_cases hle : bs.length ≤ count
      · simp only [sockRead, if_pos hle, bytesOf]
      · simp only [sockRead, if_neg hle, bytesOf]
        rw [← List.append_assoc, List.take_append_drop]

theorem feed_header_block (stream : List Char) (st : Parse) (body : List Char)
    (hv : HeaderBlock stream st body) :
    feed Parse.init stream =
      Except.ok ({ st with read_status := ReadStatus.BODY, read_stream := [] }, body) := by
  obtain ⟨statusLine, headerLines, ⟨pre, hpre, hno⟩, hl, hstream, hp⟩ := hv
  simp only [processLines] at hp
  have hb : Parse.init.read_status ≠ ReadStatus.BODY := by simp [Parse.init]
  have h1 : stream = pre ++ '\n' :: (headerLines.flatten ++ ('\r' :: '\n' :: body)) := by
    rw [hstream, hpre]
    simp
  rw [h1, feed_line Parse.init pre _ hb hno]
  have h2 : Parse.init.read_stream ++ pre ++ ['\n'] = statusLine := by
    rw [hpre]
    simp [Parse.init]
  rw [h2]
  cases hpl : processLine Parse.init statusLine with
  | error e => rw [hpl] at hp; cases hp
  | ok st0 =>
    rw [hpl] at hp
    obtain ⟨a, b⟩ := processLine_first Parse.init st0 statusLine rfl hpl
    obtain ⟨c1, c2, c3⟩ := feed_header_lines headerLines st0 st _ a b hl hp
    simp only
    rw [c1]
    have hb2 : st.read_status ≠ ReadStatus.BODY := by rw [c2]; decide
    have h3 := feed_line st ['\r'] body hb2 (by decide)
    simp only [List.singleton_append] at h3
    rw [h3, c3, processLine_terminator st _ c2 (by simp)]
    simp only
    rw [feed_body _ _ rfl]

theorem read_within (BUFF_SIZE : Nat) (r : HttpResponse) (hw : WithinLength r) :
    WithinLength (HttpResponse.read BUFF_SIZE r).obj ∧
      (HttpResponse.read BUFF_SIZE r).obj.content_length = r.content_length := by
  obtain ⟨w1, w2, w3⟩ := hw
  by_cases hex : r.bytes_read ≥ r.content_length
  · rw [read_exhausted BUFF_SIZE r hex]
    exact ⟨⟨w1, w2, w3⟩, rfl⟩
  · have hlt : r.bytes_read < r.content_length := by omega
    by_cases hsum : r.bytes_read + r.bytes_buffered < r.content_length
    · obtain ⟨r1, _, r3, _⟩ := sockRead_data r.sock.pending
        (toSizeT ((BUFF_SIZE : Int) - r.bytes_buffered)) w2
      have hsplit := sockRead_bytesOf r.sock.pending
        (toSizeT ((BUFF_SIZE : Int) - r.bytes_buffered))
      rw [read_socket BUFF_SIZE r hlt hsum]
      generalize hr : sockRead r.sock.pending (toSizeT ((BUFF_SIZE : Int) - r.bytes_buffered))
        = rd at r1 r3 hsplit
      obtain ⟨ret, d, pending1⟩ := rd
      simp only at r1 r3 hsplit
      subst r1
      have hlen : (bytesOf r.sock.pending).length = d.length + (bytesOf pending1).length := by
        rw [hsplit, List.length_append]
      refine ⟨⟨le_refl _, r3, ?_⟩, rfl⟩
      show r.bytes_read + (r.bytes_buffered + (d.length : Int)) + 0 +
        ((bytesOf pending1).length : Int) ≤ r.content_length
      omega
    · rw [read_buffered BUFF_SIZE r hlt hsum]
      refine ⟨⟨le_refl _, w2, ?_⟩, rfl⟩
      show r.bytes_read + r.bytes_buffered + 0 + ((bytesOf r.sock.pending).length : Int)
        ≤ r.content_length
      omega

theorem readCalls_within (BUFF_SIZE : Nat) (r : HttpResponse) (hw : WithinLength r) (n : Nat) :
    WithinLength (readCalls BUFF_SIZE n r) ∧
      (readCalls BUFF_SIZE n r).content_length = r.content_length := by
  induction n with
  | zero => exact ⟨hw, rfl⟩
  | succ k ih =>
    rw [readCalls_succ]
    obtain ⟨a, c⟩ := read_within BUFF_SIZE _ ih.1
    exact ⟨a, by rw [c, ih.2]⟩

theorem readCalls_overshoot (BUFF_SIZE : Nat) (hB : BUFF_SIZE < 2147483648)
    (r : HttpResponse) (hs : Safe BUFF_SIZE r) (h0 : 0 ≤ r.bytes_read)
    (h1 : r.bytes_read < r.content_length + (BUFF_SIZE : Int)) (n : Nat) :
    0 ≤ (readCalls BUFF_SIZE n r).bytes_read ∧
      (readCalls BUFF_SIZE n r).bytes_read < r.content_length + (BUFF_SIZE : Int) := by
  induction n with
  | zero => exact ⟨h0, h1⟩
  | succ k ih =>
    obtain ⟨s, hc⟩ := readCalls_safe BUFF_SIZE hB r hs k
    obtain ⟨_, b, _⟩ := read_safe BUFF_SIZE hB _ s
    rw [readCalls_succ]
    by_cases hex : (readCalls BUFF_SIZE k r).bytes_read ≥ (readCalls BUFF_SIZE k r).content_length
    · rw [read_exhausted BUFF_SIZE _ hex]
      exact ih
    · obtain ⟨b1, b2, _, b4⟩ := b (by omega)
      rw [b4]
      omega

/-! ## Early end of the stream and read errors -/

theorem outerLoop_unfinished (BUFF_SIZE fuel : Nat) (l l1 : Locals)
    (hfuel : sockFuel l.sock.pending ≤ fuel) (hb : l.st.read_status ≠ ReadStatus.BODY)
    (h : outerLoop BUFF_SIZE fuel l = Except.ok l1)
    (hb1 : l1.st.read_status ≠ ReadStatus.BODY) : l1.i = 0 ∧ l1.n_bytes = 0 := by
  induction fuel generalizing l with
  | zero =>
    have := sockFuel_pos l.sock.pending
    omega
  | succ f ih =>
    unfold outerLoop at h
    simp only [if_neg hb] at h
    split at h
    · rename_i hn
      simp only [Except.ok.injEq] at h
      rw [← h]
      exact ⟨rfl, hn⟩
    · rename_i hn
      have hp := sockRead_progress l.sock.pending BUFF_SIZE hn
      split at h
      · cases h
      · rename_i st2 i2 hin
        by_cases hb2 : st2.read_status = ReadStatus.BODY
        · rw [outerLoop_body _ _ _ hb2] at h
          simp only [Except.ok.injEq] at h
          rw [← h] at hb1
          exact absurd hb2 hb1
        · refine ih _ ?_ hb2 h
          simp only
          omega

theorem store_nil (buffer : Nat → Char) (off : Nat) : store buffer off [] = buffer := by
  funext k
  have : ¬ (off ≤ k ∧ k < off + ([] : List Char).length) := by
    simp
  simp only [store, if_neg this]

/-! ## What `std::stoi` accepts -/

theorem set_keys (h : Headers) (k v : List Char) :
    (h.set k v).map Prod.fst =
      if k ∈ h.map Prod.fst then h.map Prod.fst else h.map Prod.fst ++ [k] := by
  induction h with
  | nil => simp [Headers.set]
  | cons p t ih =>
    obtain ⟨k1, v1⟩ := p
    by_cases hk : k1 = k
    · simp [Headers.set, hk]
    · have hk2 : ¬ k = k1 := fun h => hk h.symm
      simp only [Headers.set, if_neg hk, List.map_cons, ih, List.mem_cons, hk2, false_or]
      split <;> simp

theorem set_keys_nodup (h : Headers) (k v : List Char) (hn : (h.map Prod.fst).Nodup) :
    ((h.set k v).map Prod.fst).Nodup := by
  rw [set_keys]
  split
  · exact hn
  · rename_i hk
    rw [List.nodup_append]
    exact ⟨hn, List.nodup_singleton k, by simpa using hk⟩

theorem built_keys_nodup (h : Headers) (cl : Int) (hb : Built h cl) :
    (h.map Prod.fst).Nodup := by
  induction hb with
  | init => exact List.nodup_nil
  | other h cl name value _ _ ih => exact set_keys_nodup _ _ _ ih
  | length h cl n value _ _ ih => exact set_keys_nodup _ _ _ ih

theorem fieldLine_proper (f : List Char × List Char × List Char) (hf : ProperField f) :
    IsLine (fieldLine f) ∧ (fieldLine f).head? ≠ some '\r' := by
  obtain ⟨h1, h2, h3, h4, h5, h6⟩ := hf
  refine ⟨⟨f.1 ++ ':' :: (f.2.1 ++ f.2.2 ++ ['\r']), by simp [fieldLine, headerLineOf], ?_⟩, ?_⟩
  · intro hmem
    simp only [List.mem_append, List.mem_cons, List.mem_singleton, List.not_mem_nil,
      or_false] at hmem
    rcases hmem with hm | hm | (hm | hm) | hm
    · exact h2 hm
    · revert hm
      decide
    · have := h4 _ hm
      revert this
      decide
    · exact h5 hm
    · revert hm
      decide
  · cases hn : f.1 with
    | nil => simp [fieldLine, headerLineOf, hn]
    | cons a t =>
      rw [hn] at h3
      simpa [fieldLine, headerLineOf, hn] using h3

theorem processLine_field (st st1 : Parse) (f : List Char × List Char × List Char)
    (hs : st.read_status = ReadStatus.HEADERS) (hf : ProperField f)
    (h : processLine st (fieldLine f) = Except.ok st1) :
    st1.read_status = ReadStatus.HEADERS ∧
    st1.headers = st.headers.set (f.1.map tolower) f.2.2 ∧
    (f.1.map tolower = contentLengthKey → stoi f.2.2 = Except.ok st1.content_length) ∧
    (f.1.map tolower ≠ contentLengthKey → st1.content_length = st.content_length) := by
  have hhead := (fieldLine_proper f hf).2
  obtain ⟨h1, _, _, h4, _, h6⟩ := hf
  have hpl : processLine st (fieldLine f) = headerLine st (headerLineOf f.1 f.2.1 f.2.2) :=
    processLine_headers_state st _ hs hhead
  rw [hpl, headerLine_of_form st f.1 f.2.1 f.2.2 h1 h4 h6] at h
  by_cases hkey : f.1.map tolower = contentLengthKey
  · rw [if_pos hkey] at h
    cases hst : stoi f.2.2 with
    | error e => rw [hst] at h; cases h
    | ok n =>
      rw [hst] at h
      simp only [Except.ok.injEq] at h
      subst h
      exact ⟨hs, rfl, fun _ => rfl, fun hk => absurd hkey hk⟩
  · rw [if_neg hkey] at h
    simp only [Except.ok.injEq] at h
    subst h
    exact ⟨hs, rfl, fun hk => absurd hk hkey, fun _ => rfl⟩

theorem processLines_fields (fields : List (List Char × List Char × List Char))
    (st st1 : Parse) (hs : st.read_status = ReadStatus.HEADERS)
    (hf : ∀ f ∈ fields, ProperField f)
    (h : processLines st (fields.map fieldLine) = Except.ok st1) :
    (∀ k, st1.headers.find k =
      (match lastValue k fields with
        | some v => some v
        | none => st.headers.find k)) ∧
    (∀ v, lastValue contentLengthKey fields = some v →
      stoi v = Except.ok st1.content_length) ∧
    (lastValue contentLengthKey fields = none → st1.content_length = st.content_length) := by
  induction fields generalizing st with
  | nil =>
    simp only [List.map_nil, processLines, Except.ok.injEq] at h
    subst h
    exact ⟨fun k => rfl, (fun v hv => by cases hv), fun _ => rfl⟩
  | cons f fs ih =>
    simp only [List.map_cons, processLines] at h
    cases hpl : processLine st (fieldLine f) with
    | error e => rw [hpl] at h; cases h
    | ok st2 =>
      rw [hpl] at h
      obtain ⟨b1, b2, b3, b4⟩ := processLine_field st st2 f hs (hf f (by simp)) hpl
      obtain ⟨a1, a2, a3⟩ := ih st2 b1 (fun x hx => hf x (by simp [hx])) h
      refine ⟨fun k => ?_, fun v hv => ?_, fun hv => ?_⟩
      · rw [a1 k, b2]
        simp only [lastValue]
        cases hl : lastValue k fs with
        | some w => rfl
        | none =>
          simp only
          by_cases hk : f.1.map tolower = k
          · rw [if_pos hk, ← hk, find_set_same]
          · rw [if_neg hk, find_set_ne _ _ _ _ (fun h => hk h.symm)]
      · simp only [lastValue] at hv
        cases hl : lastValue contentLengthKey fs with
        | some w =>
          rw [hl] at hv
          simp only [Option.some.injEq] at hv
          rw [← hv]
          exact a2 w hl
        | none =>
          rw [hl] at hv
          simp only at hv
          by_cases hkey : f.1.map tolower = contentLengthKey
          · rw [if_pos hkey] at hv
            simp only [Option.some.injEq] at hv
            rw [← hv, a3 hl]
            exact b3 hkey
          · rw [if_neg hkey] at hv
            cases hv
      · simp only [lastValue] at hv
        cases hl : lastValue contentLengthKey fs with
        | some w =>
          rw [hl] at hv
          cases hv
        | none =>
          rw [hl] at hv
          simp only at hv
          by_cases hkey : f.1.map tolower = contentLengthKey
          · rw [if_pos hkey] at hv
            cases hv
          · rw [a3 hl]
            exact b4 hkey

theorem feed_header_lines_error (headerLines : List (List Char)) (st : Parse)
    (tail : List Char) (e : Exn) (hs : st.read_status = ReadStatus.HEADERS)
    (hrs : st.read_stream = [])
    (hl : ∀ l ∈ headerLines, IsLine l ∧ l.head? ≠ some '\r')
    (hp : processLines st headerLines = Except.error e) :
    feed st (headerLines.flatten ++ tail) = Except.error e := by
  induction headerLines generalizing st with
  | nil => simp [processLines] at hp
  | cons l ls ih =>
    obtain ⟨⟨pre, hpre, hno⟩, hhead⟩ := hl l (by simp)
    have hb : st.read_status ≠ ReadStatus.BODY := by rw [hs]; decide
    simp only [processLines] at hp
    have hf : feed st ((l :: ls).flatten ++ tail) =
        (match processLine st l with
          | Except.error e => Except.error e
          | Except.ok st2 => feed st2 (ls.flatten ++ tail)) := by
      have : (l :: ls).flatten ++ tail = pre ++ '\n' :: (ls.flatten ++ tail) := by
        simp [hpre]
      rw [this, feed_line st pre _ hb hno, hrs, List.nil_append, ← hpre]
    rw [hf]
    cases hpl : processLine st l with
    | error e1 =>
      rw [hpl] at hp
      cases hp
      rfl
    | ok st2 =>
      rw [hpl] at hp
      obtain ⟨a, b⟩ := processLine_header st st2 l hs hhead hpl
      exact ih st2 a b (fun x hx => hl x (by simp [hx])) hp

theorem feed_block_error (statusLine : List Char) (headerLines : List (List Char))
    (tail : List Char) (e : Exn) (hstatus : IsLine statusLine)
    (hl : ∀ l ∈ headerLines, IsLine l ∧ l.head? ≠ some '\r')
    (hp : processLines Parse.init (statusLine :: headerLines) = Except.error e) :
    feed Parse.init (statusLine ++ headerLines.flatten ++ tail) = Except.error e := by
  obtain ⟨pre, hpre, hno⟩ := hstatus
  simp only [processLines] at hp
  have hb : Parse.init.read_status ≠ ReadStatus.BODY := by simp [Parse.init]
  have h1 : statusLine ++ headerLines.flatten ++ tail =
      pre ++ '\n' :: (headerLines.flatten ++ tail) := by
    rw [hpre]
    simp
  rw [h1, feed_line Parse.init pre _ hb hno]
  have h2 : Parse.init.read_stream ++ pre ++ ['\n'] = statusLine := by
    rw [hpre]
    simp [Parse.init]
  rw [h2]
  cases hpl : processLine Parse.init statusLine with
  | error e1 =>
    rw [hpl] at hp
    cases hp
    rfl
  | ok st0 =>
    rw [hpl] at hp
    obtain ⟨a, b⟩ := processLine_first Parse.init st0 statusLine rfl hpl
    exact feed_header_lines_error headerLines st0 tail e a b hl hp

/-! ## What the header value keeps -/

theorem skipSpaces_le_stop (line : List Char) (fuel k m : Nat) (hk : k ≤ m)
    (hm : line.getD m '\x00' ≠ ' ') : skipSpaces line fuel k ≤ m := by
  induction fuel generalizing k with
  | zero => exact hk
  | succ f ih =>
    unfold skipSpaces
    split
    · rename_i hsp
      have : k ≠ m := fun h => hm (h ▸ hsp)
      exact ih (k + 1) (by omega)
    · exact hk

theorem find_before_crlf (body : List Char) :
    find (body ++ ['\r', '\n']) ':' + 1 ≤ (body.length : Int) := by
  unfold find
  split
  · rename_i hlt
    have hget := List.getElem_indexOf hlt
    by_cases h1 : (body ++ ['\r', '\n']).indexOf ':' < body.length
    · omega
    · have hlen : (body ++ ['\r', '\n']).length = body.length + 2 := by simp
      rw [List.getElem_append_right (by omega)] at hget
      have hidx : (body ++ ['\r', '\n']).indexOf ':' - body.length = 0 ∨
          (body ++ ['\r', '\n']).indexOf ':' - body.length = 1 := by omega
      rcases hidx with hidx | hidx
      · simp [hidx] at hget
      · simp [hidx] at hget
  · omega

theorem headerLine_crlf (st : Parse) (body : List Char) (hno : '\n' ∉ body) :
    ∃ name value : List Char,
      headerLine st (body ++ ['\r', '\n']) =
        (if name = contentLengthKey then
          (match stoi value with
            | Except.error e => Except.error e
            | Except.ok n =>
              Except.ok { st with headers := st.headers.set name value, content_length := n,
                                  read_stream := [] })
        else Except.ok { st with headers := st.headers.set name value, read_stream := [] }) ∧
      value.head? ≠ some ' ' ∧ '\n' ∉ value := by
  obtain ⟨f1, f2⟩ := find_bounds (body ++ ['\r', '\n']) ':'
  have f3 := find_before_crlf body
  obtain ⟨name, hname⟩ := substr_ok (body ++ ['\r', '\n']) 0 (find (body ++ ['\r', '\n']) ':')
    (le_refl _) (by omega)
  have hlen : (body ++ ['\r', '\n']).length = body.length + 2 := by simp
  have hcr : (body ++ ['\r', '\n']).getD body.length '\x00' ≠ ' ' := by
    rw [List.getD_append_right _ _ _ _ (le_refl _), Nat.sub_self]
    decide
  have hvb := skipSpaces_le_stop (body ++ ['\r', '\n'])
    ((body ++ ['\r', '\n']).length - (find (body ++ ['\r', '\n']) ':' + 1).toNat)
    (find (body ++ ['\r', '\n']) ':' + 1).toNat body.length (by omega) hcr
  have hstop := skipSpaces_stops (body ++ ['\r', '\n'])
    ((body ++ ['\r', '\n']).length - (find (body ++ ['\r', '\n']) ':' + 1).toNat)
    (find (body ++ ['\r', '\n']) ':' + 1).toNat (le_refl _)
  generalize hvbdef : skipSpaces (body ++ ['\r', '\n'])
    ((body ++ ['\r', '\n']).length - (find (body ++ ['\r', '\n']) ':' + 1).toNat)
    (find (body ++ ['\r', '\n']) ':' + 1).toNat = vb at hvb hstop
  have hvalue : substr (body ++ ['\r', '\n']) (vb : Int)
      (rfind (body ++ ['\r', '\n']) '\r' - (vb : Int)) = Except.ok (body.drop vb) := by
    rw [rfind_trailing_cr]
    unfold substr
    rw [if_neg (by omega), if_neg (by omega)]
    have e1 : ((body.length : Int) - (vb : Int)).toNat = body.length - vb := by omega
    rw [e1, Int.toNat_ofNat, List.drop_append_of_le_length hvb,
      List.take_append_of_le_length (by simp), List.take_of_length_le (by simp)]
  refine ⟨name.map tolower, body.drop vb, ?_, ?_, ?_⟩
  · simp only [headerLine, hname, hvbdef, hvalue, contentLengthKey]
  · rw [List.head?_drop]
    intro h
    apply hstop
    have hlt : vb < body.length := by
      by_contra hge
      rw [List.getElem?_eq_none (by omega)] at h
      cases h
    rw [List.getD_append _ _ _ _ hlt, List.getD_eq_getElem _ _ hlt]
    rw [List.getElem?_eq_getElem hlt] at h
    exact Option.some.inj h
  · exact fun h => hno (List.mem_of_mem_drop h)

/-! ## Reading stops at the end of the headers -/

theorem feed_consumed (st : Parse) (cs : List Char) (st1 : Parse) (rest : List Char)
    (h : feed st cs = Except.ok (st1, rest)) (hb : st.read_status ≠ ReadStatus.BODY) :
    ∃ used : List Char, cs = used ++ rest ∧ feed st used = Except.ok (st1, []) := by
  induction cs generalizing st with
  | nil =>
    simp only [feed, Except.ok.injEq, Prod.mk.injEq] at h
    exact ⟨[], by rw [← h.2]; rfl, by rw [← h.1]; rfl⟩
  | cons c t ih =>
    simp only [feed, if_neg hb] at h
    by_cases hc : c = '\n'
    · rw [if_pos hc] at h
      cases hpl : processLine st (st.read_stream ++ [c]) with
      | error e => rw [hpl] at h; cases h
      | ok st2 =>
        rw [hpl] at h
        simp only at h
        by_cases hb2 : st2.read_status = ReadStatus.BODY
        · rw [feed_body st2 _ hb2] at h
          simp only [Except.ok.injEq, Prod.mk.injEq] at h
          refine ⟨[c], by rw [← h.2]; rfl, ?_⟩
          simp only [feed, if_neg hb, if_pos hc, hpl]
          rw [h.1]
        · obtain ⟨used, u1, u2⟩ := ih st2 h hb2
          refine ⟨c :: used, by rw [u1]; rfl, ?_⟩
          simp only [feed, if_neg hb, if_pos hc, hpl]
          exact u2
    · rw [if_neg hc] at h
      obtain ⟨used, u1, u2⟩ := ih { st with read_stream := st.read_stream ++ [c] } h hb
      refine ⟨c :: used, by rw [u1]; rfl, ?_⟩
      simp only [feed, if_neg hb, if_neg hc]
      exact u2

theorem outerLoop_chunks (BUFF_SIZE : Nat) (hB : BUFF_SIZE < 2147483648)
    (pre : List (List Char)) (c : List Char) (post : List Event) (l : Locals) (fuel : Nat)
    (hp : l.sock.pending = chunked pre ++ Event.data c :: post)
    (hpre : ∀ x ∈ pre, x ≠ [] ∧ x.length ≤ BUFF_SIZE)
    (hc : c ≠ [] ∧ c.length ≤ BUFF_SIZE) (hfuel : sockFuel l.sock.pending ≤ fuel)
    (st0 : Parse) (r0 : List Char) (h1 : feed l.st pre.flatten = Except.ok (st0, r0))
    (hnb : st0.read_status ≠ ReadStatus.BODY) (st1 : Parse) (rest : List Char)
    (h2 : feed st0 c = Except.ok (st1, rest)) (hb : st1.read_status = ReadStatus.BODY) :
    ∃ l1, outerLoop BUFF_SIZE fuel l = Except.ok l1 ∧ l1.st = st1 ∧ l1.sock.pending = post ∧
      l1.sock.calls = List.replicate (pre.length + 1) (0, (BUFF_SIZE : Int)) ++ l.sock.calls ∧
      rest = bytesAt l1.buffer l1.i (l1.n_bytes - l1.i) := by
  have hlb : l.st.read_status ≠ ReadStatus.BODY := by
    intro hbody
    rw [feed_body l.st _ hbody] at h1
    simp only [Except.ok.injEq, Prod.mk.injEq] at h1
    exact hnb (h1.1 ▸ hbody)
  induction pre generalizing l fuel with
  | nil =>
    simp only [List.flatten_nil, feed, Except.ok.injEq, Prod.mk.injEq] at h1
    obtain ⟨h1a, _⟩ := h1
    subst h1a
    simp only [chunked, List.map_nil, List.nil_append] at hp
    obtain ⟨f, rfl⟩ : ∃ f, fuel = f + 1 := by
      have := sockFuel_pos l.sock.pending
      exact ⟨fuel - 1, by omega⟩
    have hr : sockRead l.sock.pending BUFF_SIZE =
        { ret := (c.length : Int), bytes := c, pending := post } := by
      rw [hp]
      simp [sockRead, hc.2]
    have hn : toUnsigned (c.length : Int) = c.length := toUnsigned_natCast _ (by omega)
    have hc0 : c.length ≠ 0 := fun h => hc.1 (List.length_eq_zero.mp h)
    obtain ⟨_, a2⟩ := innerLoop_feed (store l.buffer 0 c) c.length (c.length + 1) l.st 0
      (Nat.zero_le _) (by omega)
    rw [Nat.sub_zero, bytesAt_store] at a2
    obtain ⟨i1, b1, _, _, _, b5, _⟩ := a2 st1 rest h2
    refine ⟨{ st := st1, buffer := store l.buffer 0 c, i := i1, n_bytes := c.length,
              sock := { pending := post, calls := (0, (BUFF_SIZE : Int)) :: l.sock.calls } },
      ?_, rfl, rfl, rfl, (b5 hb).1⟩
    simp only [outerLoop, if_neg hlb, hr, hn, if_neg hc0, b1]
    exact outerLoop_body _ _ _ hb
  | cons p ps ih =>
    obtain ⟨hp1, hp2⟩ := hpre p (by simp)
    simp only [chunked, List.map_cons, List.cons_append] at hp
    obtain ⟨f, rfl⟩ : ∃ f, fuel = f + 1 := by
      have := sockFuel_pos l.sock.pending
      exact ⟨fuel - 1, by omega⟩
    have hr : sockRead l.sock.pending BUFF_SIZE =
        { ret := (p.length : Int), bytes := p,
          pending := chunked ps ++ Event.data c :: post } := by
      rw [hp]
      simp [sockRead, hp2, chunked]
    have hn : toUnsigned (p.length : Int) = p.length := toUnsigned_natCast _ (by omega)
    have hp0 : p.length ≠ 0 := fun h => hp1 (List.length_eq_zero.mp h)
    obtain ⟨a1, a2⟩ := innerLoop_feed (store l.buffer 0 p) p.length (p.length + 1) l.st 0
      (Nat.zero_le _) (by omega)
    rw [Nat.sub_zero, bytesAt_store] at a1 a2
    rw [List.flatten_cons] at h1
    cases hfp : feed l.st p with
    | error e =>
      rw [feed_append_error l.st p _ e hfp] at h1
      cases h1
    | ok pr =>
      obtain ⟨stp, rp⟩ := pr
      rw [feed_append_ok l.st p _ stp rp hfp] at h1
      by_cases hbp : stp.read_status = ReadStatus.BODY
      · rw [if_pos hbp] at h1
        simp only [Except.ok.injEq, Prod.mk.injEq] at h1
        exact absurd (h1.1 ▸ hbp) hnb
      · rw [if_neg hbp] at h1
        obtain ⟨ip, b1, _⟩ := a2 stp rp hfp
        have hfuel2 : sockFuel (chunked ps ++ Event.data c :: post) ≤ f := by
          rw [hp] at hfuel
          simp only [sockFuel, chunked, List.map_cons, List.sum_cons] at hfuel ⊢
          omega
        obtain ⟨l1, c1, c2, c3, c4, c5⟩ := ih
          { st := stp, buffer := store l.buffer 0 p, i := ip, n_bytes := p.length,
            sock := { pending := chunked ps ++ Event.data c :: post,
                      calls := (0, (BUFF_SIZE : Int)) :: l.sock.calls } }
          f rfl (fun x hx => hpre x (by simp [hx])) hfuel2 h1 hbp
        refine ⟨l1, ?_, c2, c3, ?_, c5⟩
        · simp only [outerLoop, if_neg hlb, hr, hn, if_neg hp0, b1]
          exact c1
        · rw [c4]
          simp only [List.length_cons, List.replicate_succ' (ps.length + 1),
            List.append_assoc, List.singleton_append]

/-! ## The terminator's line feed -/

theorem bytesAt_store_drop (prev : Nat → Char) (d : List Char) (i : Nat) (hi : i ≤ d.length) :
    bytesAt (store prev 0 d) i (d.length - i) = d.drop i := by
  have h1 := bytesAt_store prev 0 d
  have h2 := bytesAt_add (store prev 0 d) 0 i (d.length - i)
  rw [show i + (d.length - i) = d.length by omega, h1, Nat.zero_add] at h2
  have h3 := congrArg (List.drop i) h2
  rw [List.drop_left' (bytesAt_length _ _ _)] at h3
  exact h3.symm

theorem feed_not_body_before (st0 st1 : Parse) (chunk : List Char) (k m : Nat)
    (h : feed st0 chunk = Except.ok (st1, chunk.drop (k + 1))) (hk : k < chunk.length)
    (hm : m ≤ k) (s : Parse) (r : List Char)
    (hs : feed st0 (chunk.take m) = Except.ok (s, r)) : s.read_status ≠ ReadStatus.BODY := by
  intro hbody
  have h2 := feed_append_ok st0 (chunk.take m) (chunk.drop m) s r hs
  rw [List.take_append_drop, if_pos hbody, h] at h2
  simp only [Except.ok.injEq, Prod.mk.injEq] at h2
  have h3 := congrArg List.length h2.2
  simp only [List.length_drop, List.length_append] at h3
  omega

theorem outerLoop_terminator (BUFF_SIZE : Nat) (hB : BUFF_SIZE < 2147483648) (fuel : Nat)
    (l l1 : Locals) (hist : List Char) (hd : NoError l.sock.pending)
    (hb : l.st.read_status ≠ ReadStatus.BODY)
    (hh : feed Parse.init hist = Except.ok (l.st, []))
    (h : outerLoop BUFF_SIZE fuel l = Except.ok l1)
    (hb1 : l1.st.read_status = ReadStatus.BODY) :
    EndsAtTerminator BUFF_SIZE (hist ++ bytesOf l.sock.pending) l1 := by
  induction fuel generalizing l hist with
  | zero =>
    simp only [outerLoop, Except.ok.injEq] at h
    rw [← h] at hb1
    exact absurd hb1 hb
  | succ f ih =>
    obtain ⟨r1, r2, r3, _⟩ := sockRead_data l.sock.pending BUFF_SIZE hd
    have hsplit := sockRead_bytesOf l.sock.pending BUFF_SIZE
    unfold outerLoop at h
    simp only [if_neg hb] at h
    generalize hr : sockRead l.sock.pending BUFF_SIZE = r at h r1 r2 r3 hsplit
    obtain ⟨ret, d, pending1⟩ := r
    simp only at h r1 r2 r3 hsplit
    subst r1
    rw [toUnsigned_natCast _ (by omega)] at h
    split at h
    · simp only [Except.ok.injEq] at h
      rw [← h] at hb1
      exact absurd hb1 hb
    · split at h
      · cases h
      · rename_i st2 i2 hin
        obtain ⟨a1, a2⟩ := innerLoop_feed (store l.buffer 0 d) d.length (d.length + 1) l.st 0
          (Nat.zero_le _) (by omega)
        rw [Nat.sub_zero, bytesAt_store] at a1 a2
        cases hfd : feed l.st d with
        | error e =>
          rw [a1 e hfd] at hin
          cases hin
        | ok pr =>
          obtain ⟨st3, rest3⟩ := pr
          obtain ⟨i3, b1, _, b3, _, b5, b6⟩ := a2 st3 rest3 hfd
          rw [b1] at hin
          simp only [Except.ok.injEq, Prod.mk.injEq] at hin
          obtain ⟨e1, e2⟩ := hin
          subst e1 e2
          by_cases hb2 : st3.read_status = ReadStatus.BODY
          · rw [outerLoop_body _ _ _ hb2] at h
            simp only [Except.ok.injEq] at h
            obtain ⟨c1, c2⟩ := b5 hb2
            obtain ⟨c3, c4⟩ := c2 hb
            rw [← h]
            refine ⟨hist, d, l.buffer, l.st, l.sock.pending, rfl, by rw [hr], by rw [hr], ?_,
              hh, hb, rfl, rfl, r2, c3, b3, ?_, ?_⟩
            · rw [hsplit, List.append_assoc]
            · show feed l.st d = Except.ok (st3, d.drop i3)
              rw [hfd, c1, bytesAt_store_drop l.buffer d i3 b3]
            · show d.getD (i3 - 1) '\x00' = '\n'
              rw [← store_zero_apply l.buffer d (i3 - 1) (by omega)]
              exact c4
          · have hrest : rest3 = [] := b6 hb2
            have hh2 : feed Parse.init (hist ++ d) = Except.ok (st3, []) := by
              rw [feed_append_ok Parse.init hist d l.st [] hh, if_neg hb, hfd, hrest]
            have := ih
              { st := st3, buffer := store l.buffer 0 d, i := i3, n_bytes := d.length,
                sock := { pending := pending1, calls := (0, (BUFF_SIZE : Int)) :: l.sock.calls } }
              (hist ++ d) r3 hb2 hh2 h
            rw [hsplit, ← List.append_assoc]
            exact this

/-! ## Worked inputs -/

theorem smallResponse_valid : ValidResponse smallResponse smallParse "hi".toList := by
  refine ⟨"HTTP/1.1 200 OK\n".toList, ["Content-Length: 2\r\n".toList],
    ⟨"HTTP/1.1 200 OK".toList, by decide, by decide⟩, ?_, by decide, ?_, by decide⟩
  · intro l hl
    simp only [List.mem_singleton] at hl
    subst hl
    exact ⟨⟨"Content-Length: 2\r".toList, by decide, by decide⟩, by decide⟩
  · rfl

/-! ## Properties of the reader -/

/-- C1 (boundary independence): for a valid response stream and any two ways
of splitting it into non-empty chunks of at most `BUFF_SIZE` bytes, the
constructor succeeds on both and yields the same status code, the same header
map and the same `content_length`, and repeated calls of `read` up to the
first `-1` write the same bytes (for every number of calls allowed from some
bound on). -/
theorem boundary_independence (BUFF_SIZE : Nat) (hB : BUFF_SIZE < 2147483648)
    (buf1 buf2 : Nat → Char) (stream : List Char) (st : Parse) (body : List Char)
    (hv : ValidResponse stream st body) (cs1 cs2 : List (List Char))
    (h1 : cs1.flatten = stream) (h2 : cs2.flatten = stream)
    (hc1 : ∀ c ∈ cs1, c ≠ [] ∧ c.length ≤ BUFF_SIZE)
    (hc2 : ∀ c ∈ cs2, c ≠ [] ∧ c.length ≤ BUFF_SIZE) :
    ∃ r1 r2, HttpResponse.new BUFF_SIZE buf1 (chunked cs1) = Except.ok r1 ∧
      HttpResponse.new BUFF_SIZE buf2 (chunked cs2) = Except.ok r2 ∧
      r1.status = r2.status ∧ r1.headers = r2.headers ∧
      r1.content_length = r2.content_length ∧
      ∃ N out, ∀ fuel, N ≤ fuel →
        drain BUFF_SIZE fuel r1 = some out ∧ drain BUFF_SIZE fuel r2 = some out := by
  have hB0 : 0 < BUFF_SIZE := by
    cases cs1 with
    | nil =>
      obtain ⟨sl, _, ⟨pre, hpre, _⟩, _, hs, _, _⟩ := hv
      rw [← h1, hpre] at hs
      simp at hs
    | cons c t =>
      obtain ⟨a, b⟩ := hc1 c (by simp)
      have := List.length_pos.mpr a
      omega
  obtain ⟨r1, a1, a2, a3, a4, N1, a5⟩ := valid_response_run BUFF_SIZE hB0 hB buf1 stream st
    body hv cs1 h1 (fun c hc => (hc1 c hc).1)
  obtain ⟨r2, b1, b2, b3, b4, N2, b5⟩ := valid_response_run BUFF_SIZE hB0 hB buf2 stream st
    body hv cs2 h2 (fun c hc => (hc2 c hc).1)
  refine ⟨r1, r2, a1, b1, ?_, by rw [a3, b3], by rw [a4, b4], max N1 N2,
    (body, st.content_length), ?_⟩
  · simp only [HttpResponse.status, a2, b2]
  · intro fuel hfuel
    exact ⟨a5 fuel (le_trans (le_max_left _ _) hfuel),
      b5 fuel (le_trans (le_max_right _ _) hfuel)⟩

/-- Witness for C1: one read of the whole of `smallResponse` against one read
per byte, with a buffer of 64 bytes. -/
theorem boundary_independence_witness :
    ∃ r1 r2,
      HttpResponse.new 64 (fun _ => 'x') (chunked [smallResponse]) = Except.ok r1 ∧
      HttpResponse.new 64 (fun _ => 'y') (chunked (smallResponse.map (fun c => [c])))
        = Except.ok r2 ∧
      r1.status = r2.status ∧ r1.headers = r2.headers ∧
      r1.content_length = r2.content_length ∧
      ∃ N out, ∀ fuel, N ≤ fuel →
        drain 64 fuel r1 = some out ∧ drain 64 fuel r2 = some out :=
  boundary_independence 64 (by decide) (fun _ => 'x') (fun _ => 'y') smallResponse smallParse
    "hi".toList smallResponse_valid [smallResponse] (smallResponse.map (fun c => [c]))
    (by decide) (by decide) (by decide) (by decide)

/-- C2 (the body is delivered exactly): for a valid response whose bytes the
socket hands over in non-empty pieces, the constructor succeeds,
`content_length` is the length of the body, and repeated calls of `read` up to
the first `-1` return non-negative values whose sum is `content_length` and
write exactly the body bytes, in order. -/
theorem body_delivered_exactly (BUFF_SIZE : Nat) (hB0 : 0 < BUFF_SIZE)
    (hB : BUFF_SIZE < 2147483648) (buffer : Nat → Char) (stream : List Char) (st : Parse)
    (body : List Char) (hv : ValidResponse stream st body) (cs : List (List Char))
    (hcs : cs.flatten = stream) (hne : ∀ c ∈ cs, c ≠ []) :
    ∃ r, HttpResponse.new BUFF_SIZE buffer (chunked cs) = Except.ok r ∧
      r.content_length = (body.length : Int) ∧
      ∃ N, ∀ fuel, N ≤ fuel → drain BUFF_SIZE fuel r = some (body, r.content_length) := by
  obtain ⟨r, a1, _, _, a4, N, a5⟩ := valid_response_run BUFF_SIZE hB0 hB buffer stream st
    body hv cs hcs hne
  have hlen : (body.length : Int) = st.content_length := by
    obtain ⟨_, _, _, _, _, _, h⟩ := hv
    exact h
  refine ⟨r, a1, by rw [a4, hlen], N, ?_⟩
  intro fuel hfuel
  rw [a5 fuel hfuel, a4]

/-- Witness for C2: `smallResponse` delivered in pieces of 20, 7 and 11 bytes
to a buffer of 16 bytes. -/
theorem body_delivered_exactly_witness :
    ∃ r, HttpResponse.new 16 (fun _ => 'x')
        (chunked [smallResponse.take 20, (smallResponse.drop 20).take 7,
          smallResponse.drop 27]) = Except.ok r ∧
      r.content_length = (("hi".toList).length : Int) ∧
      ∃ N, ∀ fuel, N ≤ fuel → drain 16 fuel r = some ("hi".toList, r.content_length) :=
  body_delivered_exactly 16 (by decide) (by decide) (fun _ => 'x') smallResponse smallParse
    "hi".toList smallResponse_valid
    [smallResponse.take 20, (smallResponse.drop 20).take 7, smallResponse.drop 27]
    (by decide) (by decide)

/-- C3 (worked example, as the code runs it): when one read delivers
`exampleBytes`, the status is 200, `content_length` is 5 and the first call of
`read` writes `HELLO` and returns 5, but `header("content-type")` is the 11
characters `text/plain` followed by a line feed: the header line has no
carriage return, so `rfind` gives `npos` and the value runs to the end of the
line. -/
theorem worked_example_header_keeps_line_feed :
    (match HttpResponse.new 1024 (fun _ => '\x00') [Event.data exampleBytes] with
      | Except.ok r =>
        some (r.status, r.header "content-type".toList, r.content_length,
          (HttpResponse.read 1024 r).written, (HttpResponse.read 1024 r).ret)
      | Except.error _ => none)
    = some (some 200, "text/plain\n".toList, 5, "HELLO".toList, 5) := by
  rfl

/-- C4 (case-insensitive header lookup): after construction every key `N` of
the header map is lower-case, so every query `Q` that equals `N` once both are
lower-cased gets the value stored for `N`; a query whose lower-cased form is
not a key gets the empty string. -/
theorem header_lookup_case_insensitive (BUFF_SIZE : Nat) (buffer : Nat → Char)
    (pending : List Event) (r : HttpResponse)
    (h : HttpResponse.new BUFF_SIZE buffer pending = Except.ok r) :
    (∀ N v Q : List Char, r.headers.find N = some v → Q.map tolower = N.map tolower →
      r.header Q = v) ∧
    (∀ Q, r.headers.find (Q.map tolower) = none → r.header Q = []) := by
  obtain ⟨hb, _⟩ := new_built BUFF_SIZE buffer pending r h
  refine ⟨?_, ?_⟩
  · intro N v Q hN hQ
    have hlow := built_lower_keys r.headers r.content_length hb N v hN
    simp only [HttpResponse.header, hQ, hlow, hN]
  · intro Q hQ
    simp only [HttpResponse.header, hQ]

/-- Witness for C4: `smallResponse` read in one piece; the header stored under
`content-length` is found with a query in another case, and an absent name
gives the empty string. -/
theorem header_lookup_case_insensitive_witness :
    ∃ r, HttpResponse.new 64 (fun _ => 'x') (chunked [smallResponse]) = Except.ok r ∧
      r.header "CONTENT-Length".toList = "2".toList ∧ r.header "Server".toList = [] :=
  ⟨_, rfl,
    (header_lookup_case_insensitive 64 (fun _ => 'x') (chunked [smallResponse]) _ rfl).1
      contentLengthKey "2".toList "CONTENT-Length".toList (by decide) (by decide),
    (header_lookup_case_insensitive 64 (fun _ => 'x') (chunked [smallResponse]) _ rfl).2
      "Server".toList (by decide)⟩

/-- C5 (content length): after construction, when the header map holds a
value for Content-Length (looked up with a name in any case) and that value is
a decimal integer, `content_length` is the integer it denotes; when the map
holds no Content-Length header, `content_length` is 0. -/
theorem content_length_from_header (BUFF_SIZE : Nat) (buffer : Nat → Char)
    (pending : List Event) (r : HttpResponse)
    (h : HttpResponse.new BUFF_SIZE buffer pending = Except.ok r) :
    (∀ (Q v : List Char) (n : Int), Q.map tolower = contentLengthKey →
      r.headers.find (Q.map tolower) = some v → IsDecimal v n → r.content_length = n) ∧
    (r.headers.find contentLengthKey = none → r.content_length = 0) := by
  obtain ⟨hb, _⟩ := new_built BUFF_SIZE buffer pending r h
  obtain ⟨c1, c2⟩ := built_content_length r.headers r.content_length hb
  refine ⟨?_, c2⟩
  intro Q v n hQ hv hd
  rw [hQ] at hv
  exact stoi_decimal v n r.content_length hd (c1 v hv)

/-- Witness for C5: `smallResponse`, whose Content-Length header has the
value 2, and a response without that header. -/
theorem content_length_from_header_witness :
    (∃ r, HttpResponse.new 64 (fun _ => 'x') (chunked [smallResponse]) = Except.ok r ∧
      r.content_length = 2) ∧
    (∃ r, HttpResponse.new 64 (fun _ => 'x')
        (chunked ["HTTP/1.0 404 Not Found\nServer: x\r\n\r\nabc".toList]) = Except.ok r ∧
      r.content_length = 0) :=
  ⟨⟨_, rfl,
    (content_length_from_header 64 (fun _ => 'x') (chunked [smallResponse]) _ rfl).1
      "Content-Length".toList "2".toList 2 (by decide) (by decide)
      ⟨"2".toList, by decide, by decide, Or.inl ⟨rfl, by decide⟩⟩⟩,
   ⟨_, rfl,
    (content_length_from_header 64 (fun _ => 'x')
      (chunked ["HTTP/1.0 404 Not Found\nServer: x\r\n\r\nabc".toList]) _ rfl).2
      (by decide)⟩⟩

/-- C6 (exhaustion): in every state with `bytes_read >= content_length`, `read`
returns `-1`, writes nothing and leaves the object as it was, the record of
socket reads included, so repeating the call gives the same result; and an
object constructed from a response without a Content-Length header is in such
a state, whatever was buffered during construction. -/
theorem read_at_exhaustion (BUFF_SIZE : Nat) :
    (∀ r : HttpResponse, r.bytes_read ≥ r.content_length →
      HttpResponse.read BUFF_SIZE r = { obj := r, written := [], ret := -1 }) ∧
    (∀ (buffer : Nat → Char) (pending : List Event) (r : HttpResponse),
      HttpResponse.new BUFF_SIZE buffer pending = Except.ok r →
      r.headers.find contentLengthKey = none →
      HttpResponse.read BUFF_SIZE r = { obj := r, written := [], ret := -1 }) := by
  refine ⟨fun r h => read_exhausted BUFF_SIZE r h, ?_⟩
  intro buffer pending r h hnone
  obtain ⟨hb, hbr⟩ := new_built BUFF_SIZE buffer pending r h
  have hcl := (built_content_length r.headers r.content_length hb).2 hnone
  exact read_exhausted BUFF_SIZE r (by rw [hbr, hcl])

/-- Witness for C6: a response without Content-Length whose three body bytes
arrive with the headers; the first call of `read` returns `-1`, writes
nothing, and three bytes stay buffered. -/
theorem read_at_exhaustion_witness :
    ∃ r, HttpResponse.new 64 (fun _ => 'x')
        (chunked ["HTTP/1.0 404 Not Found\nServer: x\r\n\r\nabc".toList]) = Except.ok r ∧
      r.bytes_buffered = 3 ∧
      HttpResponse.read 64 r = { obj := r, written := [], ret := -1 } :=
  ⟨_, rfl, by decide,
    (read_at_exhaustion 64).2 (fun _ => 'x')
      (chunked ["HTTP/1.0 404 Not Found\nServer: x\r\n\r\nabc".toList]) _ rfl (by decide)⟩

/-- C7, counterexample: the line CR `X` `:` space `v` CR LF has the form
`name ':' spaces value CR LF` with the name CR `X` (no colon in the name, no
carriage return in the value, the value does not start with a space) and is
not the empty line CR LF, yet processing it in `HEADERS` stores nothing: the
header map stays empty and the state becomes `BODY`. -/
theorem header_line_rule_fails_on_leading_cr :
    ':' ∉ ['\r', 'X'] ∧ '\r' ∉ ['v'] ∧ ['v'].head? ≠ some ' ' ∧
    headerLineOf ['\r', 'X'] [' '] ['v'] ≠ ['\r', '\n'] ∧
    processLine headersState (headerLineOf ['\r', 'X'] [' '] ['v']) =
      Except.ok { read_status := ReadStatus.BODY, read_stream := [], _status := some 200,
                  headers := [], content_length := 0 } :=
  ⟨by decide, by decide, by decide, by decide, rfl⟩

/-- C7 (header line rule, amended): a line `name ':' spaces value CR LF`
processed in `HEADERS` state whose name has no colon and does not start with a
carriage return, and whose value has no carriage return and does not start
with a space, stores the value under the lower-cased name; when that name is
`content-length` the value also goes through `std::stoi`, which sets
`content_length` or raises. -/
theorem header_line_rule (st : Parse) (name spaces value : List Char)
    (hs : st.read_status = ReadStatus.HEADERS) (hcr : name.head? ≠ some '\r')
    (hname : ':' ∉ name) (hsp : ∀ c ∈ spaces, c = ' ') (_hv1 : '\r' ∉ value)
    (hv2 : value.head? ≠ some ' ') :
    processLine st (headerLineOf name spaces value) =
      (if name.map tolower = contentLengthKey then
        (match stoi value with
          | Except.error e => Except.error e
          | Except.ok n =>
            Except.ok { st with headers := st.headers.set (name.map tolower) value,
                                content_length := n, read_stream := [] })
      else Except.ok { st with headers := st.headers.set (name.map tolower) value,
                               read_stream := [] }) ∧
    (st.headers.set (name.map tolower) value).find (name.map tolower) = some value := by
  have hhead : (headerLineOf name spaces value).head? ≠ some '\r' := by
    cases name with
    | nil => simp [headerLineOf]
    | cons a t => simpa [headerLineOf] using hcr
  rw [processLine_headers_state st _ hs hhead]
  exact ⟨headerLine_of_form st name spaces value hname hsp hv2, find_set_same _ _ _⟩

/-- Witness for C7: the line `Content-Type: text/plain` CR LF. -/
theorem header_line_rule_witness :
    processLine headersState
        (headerLineOf "Content-Type".toList [' '] "text/plain".toList) =
      (if "Content-Type".toList.map tolower = contentLengthKey then
        (match stoi "text/plain".toList with
          | Except.error e => Except.error e
          | Except.ok n =>
            Except.ok { headersState with
              headers := headersState.headers.set ("Content-Type".toList.map tolower)
                "text/plain".toList,
              content_length := n, read_stream := [] })
      else Except.ok { headersState with
              headers := headersState.headers.set ("Content-Type".toList.map tolower)
                "text/plain".toList,
              read_stream := [] }) ∧
    (headersState.headers.set ("Content-Type".toList.map tolower) "text/plain".toList).find
      ("Content-Type".toList.map tolower) = some "text/plain".toList :=
  header_line_rule headersState "Content-Type".toList [' '] "text/plain".toList rfl
    (by decide) (by decide) (by decide) (by decide) (by decide)

/-- C8, counterexample: the line CR `X` LF is not the two bytes CR LF, yet
processing it in `HEADERS` state moves the state machine to `BODY` and stores
nothing. -/
theorem end_of_headers_on_leading_cr :
    ['\r', 'X', '\n'] ≠ ['\r', '\n'] ∧
    processLine headersState ['\r', 'X', '\n'] =
      Except.ok { read_status := ReadStatus.BODY, read_stream := [], _status := some 200,
                  headers := [], content_length := 0 } :=
  ⟨by decide, rfl⟩

/-- C8 (end-of-headers detection, amended): a line processed in `HEADERS`
state moves the state machine to `BODY` exactly when its first byte is a
carriage return, and then nothing else changes; every other line, a bare line
feed included, goes through the header branch: some name and value are stored
in the header map, and when the name is `content-length` the value also goes
through `std::stoi`, which sets `content_length` or raises. -/
theorem end_of_headers_detection (st : Parse) (line : List Char)
    (hs : st.read_status = ReadStatus.HEADERS) :
    ((∃ st1, processLine st line = Except.ok st1 ∧ st1.read_status = ReadStatus.BODY) ↔
      line.head? = some '\r') ∧
    (line.head? = some '\r' →
      processLine st line =
        Except.ok { st with read_status := ReadStatus.BODY, read_stream := [] }) ∧
    (line.head? ≠ some '\r' →
      ∃ name value : List Char, processLine st line =
        (if name = contentLengthKey then
          (match stoi value with
            | Except.error e => Except.error e
            | Except.ok n =>
              Except.ok { st with headers := st.headers.set name value, content_length := n,
                                  read_stream := [] })
        else Except.ok { st with headers := st.headers.set name value, read_stream := [] })) := by
  refine ⟨⟨?_, ?_⟩, fun hl => processLine_terminator st line hs hl, ?_⟩
  · rintro ⟨st1, h1, h2⟩
    by_contra hl
    have := (processLine_header st st1 line hs hl h1).1
    rw [h2] at this
    cases this
  · intro hl
    exact ⟨_, processLine_terminator st line hs hl, rfl⟩
  · intro hl
    rw [processLine_headers_state st line hs hl]
    exact headerLine_shape st line

/-- Witness for C8: the bare line feed is not a terminator. -/
theorem end_of_headers_detection_witness :
    ((∃ st1, processLine headersState ['\n'] = Except.ok st1 ∧
        st1.read_status = ReadStatus.BODY) ↔ ['\n'].head? = some '\r') ∧
    (['\n'].head? = some '\r' →
      processLine headersState ['\n'] =
        Except.ok { headersState with read_status := ReadStatus.BODY, read_stream := [] }) ∧
    (['\n'].head? ≠ some '\r' →
      ∃ name value : List Char, processLine headersState ['\n'] =
        (if name = contentLengthKey then
          (match stoi value with
            | Except.error e => Except.error e
            | Except.ok n =>
              Except.ok { headersState with
                headers := headersState.headers.set name value, content_length := n,
                read_stream := [] })
        else Except.ok { headersState with
                headers := headersState.headers.set name value, read_stream := [] })) :=
  end_of_headers_detection headersState ['\n'] rfl

/-- C9, counterexample: the status `2147483648` is a decimal integer, and
after the first line `HTTP/1.1 2147483648 X` the constructed object has
`status()` equal to `-2147483648`, not to the integer value of the status:
`%d` stores into an `int`. -/
theorem status_beyond_int :
    (∀ d ∈ "2147483648".toList, isdigit d = true) ∧
    (digitsValue "2147483648".toList : Int) = 2147483648 ∧
    (match HttpResponse.new 64 (fun _ => 'x')
        (chunked ["HTTP/1.1 2147483648 X\n\r\n".toList]) with
      | Except.ok r => some r.status
      | Except.error _ => none) = some (some (-2147483648)) :=
  ⟨by decide, by decide, rfl⟩

/-- C9 (status line rule, amended with the range of `int`): when the bytes
delivered by the socket (in non-empty pieces, without read errors) begin with
a line `HTTP/<version> <status> <reason>` LF whose version is a decimal number
and whose status is a decimal integer of value at most 2147483647, the
constructed object has `status()` equal to that integer, whatever the version
and the reason; the only other outcome is an exception raised while the bytes
after the status line are processed. -/
theorem status_line_rule (BUFF_SIZE : Nat) (hB0 : 0 < BUFF_SIZE) (hB : BUFF_SIZE < 2147483648)
    (buffer : Nat → Char) (pending : List Event) (hflow : Flowing pending)
    (version status reason rest : List Char) (hv : IsVersion version) (hne : status ≠ [])
    (hall : ∀ d ∈ status, isdigit d = true) (hr : digitsValue status ≤ 2147483647)
    (hreason : '\n' ∉ reason)
    (hbytes : bytesOf pending = statusLineOf version status reason ++ rest) :
    match HttpResponse.new BUFF_SIZE buffer pending with
    | Except.ok r => r.status = some (digitsValue status : Int)
    | Except.error e => feed (afterStatus (digitsValue status : Int)) rest = Except.error e := by
  obtain ⟨hline, hno⟩ := statusLineOf_line version status reason hv hall hreason
  have hpl : processLine Parse.init (statusLineOf version status reason) =
      Except.ok (afterStatus (digitsValue status : Int)) := by
    simp only [processLine, Parse.init, if_true,
      sscanf_status_of_line version status reason hv hne hall hr, afterStatus]
  have hfeed : feed Parse.init (bytesOf pending) =
      feed (afterStatus (digitsValue status : Int)) rest := by
    rw [hbytes, hline, List.append_assoc, List.singleton_append,
      feed_line Parse.init _ rest (by simp [Parse.init]) hno]
    have e : Parse.init.read_stream ++
        (['H', 'T', 'T', 'P', '/'] ++ version ++ ' ' :: (status ++ ' ' :: reason)) ++ ['\n']
        = statusLineOf version status reason := by
      rw [hline]
      simp [Parse.init]
    rw [e, hpl]
  cases hf : feed (afterStatus (digitsValue status : Int)) rest with
  | error e =>
    rw [hf] at hfeed
    rw [new_error_of_feed BUFF_SIZE hB0 hB buffer pending hflow e hfeed]
  | ok pr =>
    obtain ⟨st1, rest1⟩ := pr
    rw [hf] at hfeed
    obtain ⟨r, a1, a2, _⟩ := new_of_feed BUFF_SIZE hB0 hB buffer pending hflow st1 rest1 hfeed
    rw [a1]
    simp only [HttpResponse.status, a2]
    rw [feed_status _ rest st1 rest1 (by simp [afterStatus]) hf]
    rfl

/-- Witness for C9: the status line `HTTP/1.0 404 Not Found` split over two
reads; construction returns an object whose `status()` is 404. -/
theorem status_line_rule_witness :
    (digitsValue "404".toList : Int) = 404 ∧
    (∃ r, HttpResponse.new 16 (fun _ => 'x')
        (chunked ["HTTP/1.0 40".toList, "4 Not Found\nServer: x\r\n\r\n".toList])
        = Except.ok r ∧ r.status = some 404) ∧
    match HttpResponse.new 16 (fun _ => 'x')
      (chunked ["HTTP/1.0 40".toList, "4 Not Found\nServer: x\r\n\r\n".toList]) with
    | Except.ok r => r.status = some (digitsValue "404".toList : Int)
    | Except.error e =>
      feed (afterStatus (digitsValue "404".toList : Int)) "Server: x\r\n\r\n".toList
        = Except.error e :=
  ⟨by decide, ⟨_, rfl, rfl⟩,
    status_line_rule 16 (by decide) (by decide) (fun _ => 'x')
      (chunked ["HTTP/1.0 40".toList, "4 Not Found\nServer: x\r\n\r\n".toList])
      (by
        intro e he
        simp only [chunked, List.map_cons, List.map_nil, List.mem_cons, List.mem_singleton,
          List.not_mem_nil, or_false] at he
        rcases he with he | he
        · exact ⟨_, he, by decide⟩
        · exact ⟨_, he, by decide⟩)
      "1.0".toList "404".toList "Not Found".toList "Server: x\r\n\r\n".toList
      ⟨"1".toList, "0".toList, by decide, by decide, by decide, Or.inr (by decide)⟩
      (by decide) (by decide) (by decide) (by decide) (by decide)⟩

/-- C10 (leftover body preservation): when the parse ends in `BODY` on a
socket without read errors, the bytes delivered are those of the earlier reads
(`before`), the last chunk (`chunk`, of `n` bytes: what the last socket read
returned, held by the buffer) and the bytes still unread.  The earlier reads leave the state machine in a state
`st0` other than `BODY`, and run on `chunk` from `st0` it reaches `BODY` at
index `k` and nowhere before: `k` holds the line feed of the header
terminator and `i = k + 1`.  Then `bytes_buffered` is `n - (k + 1)`, and after
the move every `buffer[j]` with `j < bytes_buffered` is the byte that was at
index `k + 1 + j` of the chunk. -/
theorem leftover_body_preserved (BUFF_SIZE : Nat) (hB : BUFF_SIZE < 2147483648)
    (buffer : Nat → Char) (pending : List Event) (hd : ∀ e ∈ pending, e ≠ Event.error)
    (l : Locals) (h : parsePhase BUFF_SIZE buffer pending = Except.ok l)
    (hbody : l.st.read_status = ReadStatus.BODY) :
    HttpResponse.new BUFF_SIZE buffer pending = Except.ok (relocate l) ∧
    ∃ (before chunk : List Char) (prev : Nat → Char) (st0 : Parse) (pending0 : List Event)
        (k : Nat),
      bytesOf pending = before ++ bytesOf pending0 ∧
      (sockRead pending0 BUFF_SIZE).bytes = chunk ∧
      (sockRead pending0 BUFF_SIZE).pending = l.sock.pending ∧
      bytesOf pending = before ++ chunk ++ bytesOf l.sock.pending ∧
      feed Parse.init before = Except.ok (st0, []) ∧
      st0.read_status ≠ ReadStatus.BODY ∧
      l.buffer = store prev 0 chunk ∧ l.n_bytes = chunk.length ∧ chunk.length ≤ BUFF_SIZE ∧
      k + 1 = l.i ∧ k < chunk.length ∧ chunk.getD k '\x00' = '\n' ∧
      feed st0 chunk = Except.ok (l.st, chunk.drop (k + 1)) ∧
      (∀ m, m ≤ k → ∀ (s : Parse) (r : List Char),
        feed st0 (chunk.take m) = Except.ok (s, r) → s.read_status ≠ ReadStatus.BODY) ∧
      (relocate l).bytes_buffered = (chunk.length : Int) - ((k : Int) + 1) ∧
      ∀ j : Nat, (j : Int) < (relocate l).bytes_buffered →
        (relocate l).buffer j = chunk.getD (k + 1 + j) '\x00' := by
  obtain ⟨before, chunk, prev, st0, pending0, p1, p2, p3, a0, a1, a2, a3, a4, a5, a6, a7, a8,
      a9⟩ :=
    outerLoop_terminator BUFF_SIZE hB (sockFuel pending)
      { st := Parse.init, buffer := buffer, i := 0, n_bytes := 0,
        sock := { pending := pending, calls := [] } }
      l [] hd (by simp [Parse.init]) rfl h hbody
  obtain ⟨b1, b2, _⟩ := relocate_spec l (by omega) (by omega)
  have hk : l.i - 1 + 1 = l.i := by omega
  refine ⟨by simp only [HttpResponse.new, h], before, chunk, prev, st0, pending0, l.i - 1, ?_,
    p2, p3, ?_, a1, a2, a3, a4, a5, hk, by omega, a9, by rw [hk]; exact a8, ?_,
    by rw [b1]; omega, ?_⟩
  · rw [← p1]
    rfl
  · rw [← a0]
    rfl
  · intro m hm s r hs
    exact feed_not_body_before st0 l.st chunk (l.i - 1) m (by rw [hk]; exact a8) (by omega) hm
      s r hs
  · intro j hj
    rw [b1] at hj
    rw [b2 j (by omega), a3, store_zero_apply prev chunk _ (by omega)]
    congr 1
    omega

/-- Witness for C10: `smallResponse` followed by two more lines, in two
chunks; the terminator's line feed is at index 26 of the second chunk, and the
8 bytes `hi`, LF, `ab`, LF, `c`, LF behind it are moved to the front, although
the chunk holds three more line feeds. -/
theorem leftover_body_preserved_witness :
    ∃ l, parsePhase 64 (fun _ => 'x')
        (chunked [smallResponse.take 10, smallResponse.drop 10 ++ "\nab\nc\n".toList])
        = Except.ok l ∧
      l.i = 27 ∧ (relocate l).bytes_buffered = 8 ∧
      bytesAt (relocate l).buffer 0 8 = "hi\nab\nc\n".toList ∧
      ∃ (before chunk : List Char) (prev : Nat → Char) (st0 : Parse) (pending0 : List Event)
          (k : Nat),
        bytesOf (chunked [smallResponse.take 10,
            smallResponse.drop 10 ++ "\nab\nc\n".toList]) = before ++ bytesOf pending0 ∧
        (sockRead pending0 64).bytes = chunk ∧
        (sockRead pending0 64).pending = l.sock.pending ∧
        bytesOf (chunked [smallResponse.take 10,
            smallResponse.drop 10 ++ "\nab\nc\n".toList]) =
          before ++ chunk ++ bytesOf l.sock.pending ∧
        feed Parse.init before = Except.ok (st0, []) ∧
        st0.read_status ≠ ReadStatus.BODY ∧
        l.buffer = store prev 0 chunk ∧ l.n_bytes = chunk.length ∧ chunk.length ≤ 64 ∧
        k + 1 = l.i ∧ k < chunk.length ∧ chunk.getD k '\x00' = '\n' ∧
        feed st0 chunk = Except.ok (l.st, chunk.drop (k + 1)) ∧
        (∀ m, m ≤ k → ∀ (s : Parse) (r : List Char),
          feed st0 (chunk.take m) = Except.ok (s, r) → s.read_status ≠ ReadStatus.BODY) ∧
        (relocate l).bytes_buffered = (chunk.length : Int) - ((k : Int) + 1) ∧
        ∀ j : Nat, (j : Int) < (relocate l).bytes_buffered →
          (relocate l).buffer j = chunk.getD (k + 1 + j) '\x00' :=
  ⟨_, rfl, by decide, by decide, by decide,
    (leftover_body_preserved 64 (by decide) (fun _ => 'x')
      (chunked [smallResponse.take 10, smallResponse.drop 10 ++ "\nab\nc\n".toList])
      (by decide) _ rfl (by decide)).2⟩

/-- C11 (streaming step): in a state with `bytes_read < content_length`, `read`
makes exactly one socket read, at offset `bytes_buffered` and for
`BUFF_SIZE - bytes_buffered` bytes, when
`bytes_read + bytes_buffered < content_length`, and none otherwise; with `b`
the old `bytes_buffered` and `n` the value that socket read returned (0 when
none was made), it writes the first `b + n` bytes of the buffer, returns
`b + n`, adds `b + n` to `bytes_read` and sets `bytes_buffered` to 0. -/
theorem streaming_step (BUFF_SIZE : Nat) (r : HttpResponse)
    (h : r.bytes_read < r.content_length) :
    (r.bytes_read + r.bytes_buffered < r.content_length →
      (HttpResponse.read BUFF_SIZE r).obj.sock.calls =
        (r.bytes_buffered, (BUFF_SIZE : Int) - r.bytes_buffered) :: r.sock.calls ∧
      (HttpResponse.read BUFF_SIZE r).obj.sock.pending =
        (sockRead r.sock.pending (toSizeT ((BUFF_SIZE : Int) - r.bytes_buffered))).pending ∧
      (HttpResponse.read BUFF_SIZE r).obj.buffer =
        store r.buffer r.bytes_buffered.toNat
          (sockRead r.sock.pending (toSizeT ((BUFF_SIZE : Int) - r.bytes_buffered))).bytes ∧
      (HttpResponse.read BUFF_SIZE r).written =
        bytesAt (HttpResponse.read BUFF_SIZE r).obj.buffer 0
          (r.bytes_buffered +
            (sockRead r.sock.pending (toSizeT ((BUFF_SIZE : Int) - r.bytes_buffered))).ret).toNat ∧
      (HttpResponse.read BUFF_SIZE r).ret = r.bytes_buffered +
        (sockRead r.sock.pending (toSizeT ((BUFF_SIZE : Int) - r.bytes_buffered))).ret ∧
      (HttpResponse.read BUFF_SIZE r).obj.bytes_read = r.bytes_read + (r.bytes_buffered +
        (sockRead r.sock.pending (toSizeT ((BUFF_SIZE : Int) - r.bytes_buffered))).ret) ∧
      (HttpResponse.read BUFF_SIZE r).obj.bytes_buffered = 0) ∧
    (¬ r.bytes_read + r.bytes_buffered < r.content_length →
      (HttpResponse.read BUFF_SIZE r).obj.sock = r.sock ∧
      (HttpResponse.read BUFF_SIZE r).obj.buffer = r.buffer ∧
      (HttpResponse.read BUFF_SIZE r).written = bytesAt r.buffer 0 r.bytes_buffered.toNat ∧
      (HttpResponse.read BUFF_SIZE r).ret = r.bytes_buffered ∧
      (HttpResponse.read BUFF_SIZE r).obj.bytes_read = r.bytes_read + r.bytes_buffered ∧
      (HttpResponse.read BUFF_SIZE r).obj.bytes_buffered = 0) := by
  refine ⟨fun h2 => ?_, fun h2 => ?_⟩
  · rw [read_socket BUFF_SIZE r h h2]
    exact ⟨rfl, rfl, rfl, rfl, rfl, rfl, rfl⟩
  · rw [read_buffered BUFF_SIZE r h h2]
    exact ⟨rfl, rfl, rfl, rfl, rfl, rfl⟩

/-- Witness for C11: `midBody` with a buffer of 8 bytes; the call reads the 3
pending bytes behind the 2 buffered ones and returns 5. -/
theorem streaming_step_witness :
    (HttpResponse.read 8 midBody).ret = 5 ∧
    (HttpResponse.read 8 midBody).written = ['a', 'a', 'x', 'y', 'z'] ∧
    (HttpResponse.read 8 midBody).obj.sock.calls = [(2, 6)] ∧
    (HttpResponse.read 8 midBody).obj.bytes_read = 5 ∧
    (HttpResponse.read 8 midBody).obj.bytes_buffered = 0 :=
  have h := (streaming_step 8 midBody (by decide)).1 (by decide)
  ⟨by rw [h.2.2.2.2.1]; decide, by decide, by rw [h.1]; decide, by rw [h.2.2.2.2.2.1]; decide,
    h.2.2.2.2.2.2⟩

/-- C12, counterexample: the socket delivers, in one read, a header block that
announces 2 body bytes followed by the 5 bytes `hello`; after one call of
`read` the object has `bytes_read = 5` and `content_length = 2`. -/
theorem bytes_read_exceeds_length :
    (match HttpResponse.new 64 (fun _ => 'x') (chunked [longBody]) with
      | Except.ok r => some (r.content_length, (readCalls 64 1 r).bytes_read)
      | Except.error _ => none) = some (2, 5) := by
  rfl

/-- C12 (invariant `bytes_read <= content_length`, amended): when the socket
delivers, in non-empty pieces, a complete header block followed by no more
bytes than the Content-Length it announces, construction succeeds and
`bytes_read <= content_length` holds after any number of calls of `read`. -/
theorem bytes_read_within_length (BUFF_SIZE : Nat) (hB0 : 0 < BUFF_SIZE)
    (hB : BUFF_SIZE < 2147483648) (buffer : Nat → Char) (pending : List Event)
    (hflow : Flowing pending) (st : Parse) (body : List Char)
    (hblock : HeaderBlock (bytesOf pending) st body)
    (hlen : (body.length : Int) ≤ st.content_length) :
    ∃ r, HttpResponse.new BUFF_SIZE buffer pending = Except.ok r ∧
      ∀ n, (readCalls BUFF_SIZE n r).bytes_read ≤ r.content_length := by
  have hfeed := feed_header_block _ st body hblock
  obtain ⟨r, a1, _, _, a4, a5, a6⟩ := new_of_feed BUFF_SIZE hB0 hB buffer pending hflow _ _ hfeed
  obtain ⟨b1, _, b3, b4⟩ := a6 rfl
  have hw : WithinLength r := by
    refine ⟨b1, noError_of_flowing _ b4, ?_⟩
    have := congrArg List.length b3
    rw [List.length_append, bytesAt_length] at this
    have h4 : r.content_length = st.content_length := a4
    omega
  refine ⟨r, a1, fun n => ?_⟩
  obtain ⟨⟨c1, _, c3⟩, c4⟩ := readCalls_within BUFF_SIZE r hw n
  omega

/-- Witness for C12: `smallResponse`, which announces 2 body bytes and carries
2, delivered in two pieces. -/
theorem bytes_read_within_length_witness :
    ∃ r, HttpResponse.new 64 (fun _ => 'x')
        (chunked [smallResponse.take 30, smallResponse.drop 30]) = Except.ok r ∧
      ∀ n, (readCalls 64 n r).bytes_read ≤ r.content_length :=
  bytes_read_within_length 64 (by decide) (by decide) (fun _ => 'x')
    (chunked [smallResponse.take 30, smallResponse.drop 30])
    (flowing_chunked _ (by decide)) smallParse "hi".toList
    ⟨"HTTP/1.1 200 OK\n".toList, ["Content-Length: 2\r\n".toList],
      ⟨"HTTP/1.1 200 OK".toList, by decide, by decide⟩,
      (fun l hl => by
        simp only [List.mem_singleton] at hl
        subst hl
        exact ⟨⟨"Content-Length: 2\r".toList, by decide, by decide⟩, by decide⟩),
      by decide, rfl⟩
    (by decide)

/-- C13, counterexample: the peer closes after the 11 bytes `HTTP/1.1 20`; the
second socket read of the constructor returns 0 in `FIRST_LINE` state and the
constructor returns normally, with the status unset, an empty header map and
nothing buffered. -/
theorem incomplete_response_returns_object :
    (match HttpResponse.new 64 (fun _ => 'x') [Event.data "HTTP/1.1 20".toList] with
      | Except.ok r => some (r.status, r.headers, r.content_length, r.bytes_buffered)
      | Except.error _ => none) = some (none, [], 0, 0) := by
  rfl

/-- C13 (incomplete response, amended): when the socket delivers its bytes in
non-empty pieces and closes before the header block is complete, so that a
socket read of the constructor returns 0 in `FIRST_LINE` or `HEADERS` state,
construction signals nothing: it returns an object whose status, header map
and `content_length` are those reached by the complete lines received, with
`bytes_buffered = 0` and `bytes_read = 0`; the status is unset when no line
feed was received at all. -/
theorem incomplete_response (BUFF_SIZE : Nat) (hB0 : 0 < BUFF_SIZE)
    (hB : BUFF_SIZE < 2147483648) (buffer : Nat → Char) (pending : List Event)
    (hflow : Flowing pending) (st1 : Parse) (rest : List Char)
    (hfeed : feed Parse.init (bytesOf pending) = Except.ok (st1, rest))
    (hnb : st1.read_status ≠ ReadStatus.BODY) :
    ∃ r, HttpResponse.new BUFF_SIZE buffer pending = Except.ok r ∧
      r.status = st1._status ∧ r.headers = st1.headers ∧
      r.content_length = st1.content_length ∧ r.bytes_buffered = 0 ∧ r.bytes_read = 0 ∧
      ('\n' ∉ bytesOf pending → r.status = none) := by
  obtain ⟨r, a1, a2, a3, a4, a5, _⟩ := new_of_feed BUFF_SIZE hB0 hB buffer pending hflow st1
    rest hfeed
  refine ⟨r, a1, a2, a3, a4, ?_, a5, ?_⟩
  · unfold HttpResponse.new at a1
    split at a1
    · cases a1
    · rename_i l hl
      cases a1
      have hst : l.st = st1 := by
        obtain ⟨_, b2⟩ := outerLoop_feed BUFF_SIZE hB0 hB (sockFuel pending)
          { st := Parse.init, buffer := buffer, i := 0, n_bytes := 0,
            sock := { pending := pending, calls := [] } }
          (le_refl _) hflow (by simp [Parse.init])
        obtain ⟨l2, c1, c2, _⟩ := b2 st1 rest hfeed
        have : parsePhase BUFF_SIZE buffer pending = Except.ok l2 := c1
        rw [hl] at this
        cases this
        exact c2
      obtain ⟨d1, d2⟩ := outerLoop_unfinished BUFF_SIZE _ _ l (le_refl _)
        (by simp [Parse.init]) hl (by rw [hst]; exact hnb)
      simp only [relocate, d1, d2]
      rfl
  · intro hno
    have h1 := feed_no_lf Parse.init (bytesOf pending) [] (by simp [Parse.init]) hno
    rw [List.append_nil, hfeed] at h1
    simp only [feed, Except.ok.injEq, Prod.mk.injEq] at h1
    simp only [HttpResponse.status, a2, h1.1]
    rfl

/-- Witness for C13: the peer closes in the middle of the header block. -/
theorem incomplete_response_witness :
    ∃ r, HttpResponse.new 64 (fun _ => 'x')
        (chunked ["HTTP/1.1 200 OK\nServer: x\r\nConte".toList]) = Except.ok r ∧
      r.status = some 200 ∧ r.headers = [("server".toList, "x".toList)] ∧
      r.content_length = 0 ∧ r.bytes_buffered = 0 ∧ r.bytes_read = 0 ∧
      ('\n' ∉ bytesOf (chunked ["HTTP/1.1 200 OK\nServer: x\r\nConte".toList]) →
        r.status = none) :=
  incomplete_response 64 (by decide) (by decide) (fun _ => 'x')
    (chunked ["HTTP/1.1 200 OK\nServer: x\r\nConte".toList]) (flowing_chunked _ (by decide))
    { read_status := ReadStatus.HEADERS, read_stream := "Conte".toList, _status := some 200,
      headers := [("server".toList, "x".toList)], content_length := 0 }
    [] rfl (by decide)

/-- C15 (socket read error): a negative result of the socket read is not
reported, in the constructor or in `read`.  First input: the first socket read
fails while the buffer holds the 18 bytes `HTTP/1.1 200 OK` LF CR LF from
before; the constructor returns an object, with status 200 parsed from those
bytes and `bytes_buffered = -19`: the result `-1` kept in the unsigned
`n_bytes` is 4294967295, which the test `n_bytes <= 0` lets through as a
length.  Second input: the header block announces 2 body bytes and the next
socket read fails; the first call of `read` returns `-1`, the end-of-body
value, writes nothing and leaves `bytes_read = -1`, having added the `-1` to
`bytes_buffered` and `bytes_read`. -/
theorem read_error_not_reported :
    (match HttpResponse.new 64 (store (fun _ => 'x') 0 "HTTP/1.1 200 OK\n\r\n".toList)
        [Event.error] with
      | Except.ok r => some (r.status, r.headers, r.bytes_buffered)
      | Except.error _ => none) = some (some 200, [], -19) ∧
    (match HttpResponse.new 64 (fun _ => 'x')
        [Event.data "HTTP/1.1 200 OK\nContent-Length: 2\r\n\r\n".toList, Event.error] with
      | Except.ok r =>
        some ((HttpResponse.read 64 r).ret, (HttpResponse.read 64 r).written,
          (HttpResponse.read 64 r).obj.bytes_read)
      | Except.error _ => none) = some (-1, [], -1) :=
  ⟨rfl, rfl⟩

/-- C16 (last write wins): when the socket delivers, in non-empty pieces, a
status line, header lines `name ':' spaces value CR LF` and the empty line,
the header map of the constructed object has no two entries with the same key
and, for every query whose lower-cased form is the lower-cased name of some
header line, `header` returns the value of the last such line in stream
order; when that name is `content-length`, `content_length` is the number
`std::stoi` reads from the value of the last such line.  The only other
outcome is the exception that processing the lines raises. -/
theorem last_write_wins (BUFF_SIZE : Nat) (hB0 : 0 < BUFF_SIZE)
    (hB : BUFF_SIZE < 2147483648) (buffer : Nat → Char) (pending : List Event)
    (hflow : Flowing pending) (statusLine : List Char)
    (fields : List (List Char × List Char × List Char)) (body : List Char)
    (hstatus : IsLine statusLine) (hf : ∀ f ∈ fields, ProperField f)
    (hbytes : bytesOf pending =
      statusLine ++ (fields.map fieldLine).flatten ++ ['\r', '\n'] ++ body) :
    match HttpResponse.new BUFF_SIZE buffer pending with
    | Except.ok r =>
      (r.headers.map Prod.fst).Nodup ∧
      ∀ Q v : List Char, lastValue (Q.map tolower) fields = some v →
        r.header Q = v ∧
        (Q.map tolower = contentLengthKey → stoi v = Except.ok r.content_length)
    | Except.error e =>
      processLines Parse.init (statusLine :: fields.map fieldLine) = Except.error e := by
  have hl : ∀ l ∈ fields.map fieldLine, IsLine l ∧ l.head? ≠ some '\r' := by
    intro l hlm
    obtain ⟨f, hfm, rfl⟩ := List.mem_map.mp hlm
    exact fieldLine_proper f (hf f hfm)
  cases hp : processLines Parse.init (statusLine :: fields.map fieldLine) with
  | error e =>
    have hfeed : feed Parse.init (bytesOf pending) = Except.error e := by
      rw [hbytes, List.append_assoc]
      exact feed_block_error statusLine _ _ e hstatus hl hp
    rw [new_error_of_feed BUFF_SIZE hB0 hB buffer pending hflow e hfeed]
  | ok st =>
    have hblock : HeaderBlock (bytesOf pending) st body :=
      ⟨statusLine, fields.map fieldLine, hstatus, hl, hbytes, hp⟩
    obtain ⟨r, a1, _, a3, a4, _⟩ := new_of_feed BUFF_SIZE hB0 hB buffer pending hflow _ _
      (feed_header_block _ st body hblock)
    rw [a1]
    have hnodup := built_keys_nodup r.headers r.content_length
      (new_built BUFF_SIZE buffer pending r a1).1
    refine ⟨hnodup, ?_⟩
    intro Q v hv
    simp only [processLines] at hp
    cases hpl : processLine Parse.init statusLine with
    | error e => rw [hpl] at hp; cases hp
    | ok st0 =>
      rw [hpl] at hp
      obtain ⟨b1, _⟩ := processLine_first Parse.init st0 statusLine rfl hpl
      obtain ⟨c1, c2, _⟩ := processLines_fields fields st0 st b1 hf hp
      have hfind : r.headers.find (Q.map tolower) = some v := by
        rw [a3]
        show st.headers.find (Q.map tolower) = some v
        rw [c1, hv]
      refine ⟨by simp only [HttpResponse.header, hfind], fun hk => ?_⟩
      rw [hk] at hv
      rw [a4]
      exact c2 v hv

/-- Witness for C16: the header `X-A` sent twice, in different case. -/
theorem last_write_wins_witness :
    match HttpResponse.new 64 (fun _ => 'x')
      (chunked ["HTTP/1.1 200 OK\nX-A: 1\r\nx-a: 2\r\n\r\n".toList]) with
    | Except.ok r =>
      (r.headers.map Prod.fst).Nodup ∧
      ∀ Q v : List Char,
        lastValue (Q.map tolower)
          [("X-A".toList, [' '], "1".toList), ("x-a".toList, [' '], "2".toList)] = some v →
        r.header Q = v ∧
        (Q.map tolower = contentLengthKey → stoi v = Except.ok r.content_length)
    | Except.error e =>
      processLines Parse.init
        ("HTTP/1.1 200 OK\n".toList ::
          [("X-A".toList, [' '], "1".toList), ("x-a".toList, [' '], "2".toList)].map fieldLine)
        = Except.error e :=
  last_write_wins 64 (by decide) (by decide) (fun _ => 'x')
    (chunked ["HTTP/1.1 200 OK\nX-A: 1\r\nx-a: 2\r\n\r\n".toList])
    (flowing_chunked _ (by decide)) "HTTP/1.1 200 OK\n".toList
    [("X-A".toList, [' '], "1".toList), ("x-a".toList, [' '], "2".toList)] []
    ⟨"HTTP/1.1 200 OK".toList, by decide, by decide⟩
    (by
      intro f hfm
      simp only [List.mem_cons, List.mem_singleton, List.not_mem_nil, or_false] at hfm
      rcases hfm with hfm | hfm
      · rw [hfm]
        exact ⟨by decide, by decide, by decide, by decide, by decide, by decide⟩
      · rw [hfm]
        exact ⟨by decide, by decide, by decide, by decide, by decide, by decide⟩)
    (by decide)

/-- C17, counterexample: for the line `X: v` space CR LF the value stored in
the header map is `v` followed by a space: the space between the value and
the trailing carriage return is kept. -/
theorem header_value_keeps_trailing_space :
    processLine headersState "X: v \r\n".toList =
      Except.ok { read_status := ReadStatus.HEADERS, read_stream := [], _status := some 200,
                  headers := [("x".toList, "v ".toList)], content_length := 0 } := by
  rfl

/-- C17 (stored header values, amended): for every line that ends in CR LF
and is processed as a header line in `HEADERS` state, the value stored in the
header map does not begin with a space and contains no line feed; tabs, and
spaces before the trailing carriage return, are kept. -/
theorem header_value_trimmed (st : Parse) (body : List Char)
    (hs : st.read_status = ReadStatus.HEADERS) (hno : '\n' ∉ body)
    (hhead : (body ++ ['\r', '\n']).head? ≠ some '\r') :
    ∃ name value : List Char,
      processLine st (body ++ ['\r', '\n']) =
        (if name = contentLengthKey then
          (match stoi value with
            | Except.error e => Except.error e
            | Except.ok n =>
              Except.ok { st with headers := st.headers.set name value, content_length := n,
                                  read_stream := [] })
        else Except.ok { st with headers := st.headers.set name value, read_stream := [] }) ∧
      value.head? ≠ some ' ' ∧ '\n' ∉ value := by
  rw [processLine_headers_state st _ hs hhead]
  exact headerLine_crlf st body hno

/-- Witness for C17: a header line with a tab after the colon and a space
before the carriage return. -/
theorem header_value_trimmed_witness :
    ∃ name value : List Char,
      processLine headersState ("X:\tv ".toList ++ ['\r', '\n']) =
        (if name = contentLengthKey then
          (match stoi value with
            | Except.error e => Except.error e
            | Except.ok n =>
              Except.ok { headersState with
                headers := headersState.headers.set name value, content_length := n,
                read_stream := [] })
        else Except.ok { headersState with
                headers := headersState.headers.set name value, read_stream := [] }) ∧
      value.head? ≠ some ' ' ∧ '\n' ∉ value :=
  header_value_trimmed headersState "X:\tv ".toList rfl (by decide) (by decide)

/-- C18 (reading stops at `BODY`): let the socket hold the chunks `pre`, after
which the state machine is not yet in `BODY`, then the chunk `c` in which the
empty line is completed, then anything (`post`).  The constructor makes
exactly one socket read per chunk of `pre` and one for `c`, and leaves `post`
unread; its parse state is the one reached at the empty line, which depends
only on the part `used` of `c` up to the terminator, and the bytes `rest` of
`c` behind the terminator are left in the buffer from `i` on, unparsed even
when they hold line feeds.  The outer loop makes no turn, hence no socket
read, when entered in `BODY`. -/
theorem reading_stops_at_body (BUFF_SIZE : Nat) (hB : BUFF_SIZE < 2147483648)
    (buffer : Nat → Char) (pre : List (List Char)) (c : List Char) (post : List Event)
    (hpre : ∀ x ∈ pre, x ≠ [] ∧ x.length ≤ BUFF_SIZE)
    (hc : c ≠ [] ∧ c.length ≤ BUFF_SIZE) (st0 : Parse) (r0 : List Char)
    (h1 : feed Parse.init pre.flatten = Except.ok (st0, r0))
    (hnb : st0.read_status ≠ ReadStatus.BODY) (st1 : Parse) (rest : List Char)
    (h2 : feed st0 c = Except.ok (st1, rest)) (hb : st1.read_status = ReadStatus.BODY) :
    (∃ l, parsePhase BUFF_SIZE buffer (chunked pre ++ Event.data c :: post) = Except.ok l ∧
      l.st = st1 ∧ l.sock.calls.length = pre.length + 1 ∧ l.sock.pending = post ∧
      bytesAt l.buffer l.i (l.n_bytes - l.i) = rest) ∧
    (∃ used : List Char, c = used ++ rest ∧ feed st0 used = Except.ok (st1, [])) ∧
    (∀ (fuel : Nat) (l : Locals), l.st.read_status = ReadStatus.BODY →
      outerLoop BUFF_SIZE fuel l = Except.ok l) := by
  refine ⟨?_, feed_consumed st0 c st1 rest h2 hnb, fun fuel l h => outerLoop_body _ _ _ h⟩
  obtain ⟨l1, a1, a2, a3, a4, a5⟩ := outerLoop_chunks BUFF_SIZE hB pre c post
    { st := Parse.init, buffer := buffer, i := 0, n_bytes := 0,
      sock := { pending := chunked pre ++ Event.data c :: post, calls := [] } }
    (sockFuel (chunked pre ++ Event.data c :: post)) rfl hpre hc (le_refl _) st0 r0 h1 hnb
    st1 rest h2 hb
  refine ⟨l1, a1, a2, ?_, a3, a5.symm⟩
  rw [a4]
  simp

/-- Witness for C18: the empty line is completed in the second chunk, which
goes on with two more lines; a third chunk and a read error stay unread. -/
theorem reading_stops_at_body_witness :
    (∃ l, parsePhase 32 (fun _ => 'x')
        (chunked ["HTTP/1.1 200 OK\nX-A".toList] ++
          Event.data ": 1\r\n\r\nl1\nl2\n".toList ::
            [Event.data "more\n".toList, Event.error]) = Except.ok l ∧
      l.st = { read_status := ReadStatus.BODY, read_stream := [], _status := some 200,
               headers := [("x-a".toList, "1".toList)], content_length := 0 } ∧
      l.sock.calls.length = ["HTTP/1.1 200 OK\nX-A".toList].length + 1 ∧
      l.sock.pending = [Event.data "more\n".toList, Event.error] ∧
      bytesAt l.buffer l.i (l.n_bytes - l.i) = "l1\nl2\n".toList) ∧
    (∃ used : List Char, ": 1\r\n\r\nl1\nl2\n".toList = used ++ "l1\nl2\n".toList ∧
      feed { read_status := ReadStatus.HEADERS, read_stream := "X-A".toList,
             _status := some 200, headers := [], content_length := 0 } used =
        Except.ok ({ read_status := ReadStatus.BODY, read_stream := [], _status := some 200,
                     headers := [("x-a".toList, "1".toList)], content_length := 0 }, [])) ∧
    (∀ (fuel : Nat) (l : Locals), l.st.read_status = ReadStatus.BODY →
      outerLoop 32 fuel l = Except.ok l) :=
  reading_stops_at_body 32 (by decide) (fun _ => 'x') ["HTTP/1.1 200 OK\nX-A".toList]
    ": 1\r\n\r\nl1\nl2\n".toList [Event.data "more\n".toList, Event.error]
    (by decide) (by decide)
    { read_status := ReadStatus.HEADERS, read_stream := "X-A".toList, _status := some 200,
      headers := [], content_length := 0 }
    [] rfl (by decide)
    { read_status := ReadStatus.BODY, read_stream := [], _status := some 200,
      headers := [("x-a".toList, "1".toList)], content_length := 0 }
    "l1\nl2\n".toList rfl rfl

/-- C19 (invariant `0 <= bytes_buffered <= BUFF_SIZE`): on a socket whose
reads return a count between 0 and the number requested, after construction
and after any number of calls of `read`, `bytes_buffered` lies between 0 and
`BUFF_SIZE` and every socket read made so far (offset and length as passed to
`::read`) lies inside the buffer; in a call that passes the exhaustion test the
value of `bytes_buffered` after the socket read, which is the value returned,
lies between 0 and `BUFF_SIZE` as well and is the number of bytes written. -/
theorem bytes_buffered_in_bounds (BUFF_SIZE : Nat) (hB : BUFF_SIZE < 2147483648)
    (buffer : Nat → Char) (pending : List Event) (hd : NoError pending) (r : HttpResponse)
    (h : HttpResponse.new BUFF_SIZE buffer pending = Except.ok r) (n : Nat) :
    0 ≤ (readCalls BUFF_SIZE n r).bytes_buffered ∧
    (readCalls BUFF_SIZE n r).bytes_buffered ≤ (BUFF_SIZE : Int) ∧
    CallsInBounds BUFF_SIZE (readCalls BUFF_SIZE n r).sock.calls ∧
    ((readCalls BUFF_SIZE n r).bytes_read < (readCalls BUFF_SIZE n r).content_length →
      0 ≤ (HttpResponse.read BUFF_SIZE (readCalls BUFF_SIZE n r)).ret ∧
      (HttpResponse.read BUFF_SIZE (readCalls BUFF_SIZE n r)).ret ≤ (BUFF_SIZE : Int) ∧
      ((HttpResponse.read BUFF_SIZE (readCalls BUFF_SIZE n r)).written.length : Int) =
        (HttpResponse.read BUFF_SIZE (readCalls BUFF_SIZE n r)).ret) := by
  have hs := new_safe BUFF_SIZE hB buffer pending hd r h
  obtain ⟨⟨a1, a2, _, a4⟩, _⟩ := readCalls_safe BUFF_SIZE hB r hs n
  obtain ⟨_, b, _⟩ := read_safe BUFF_SIZE hB _ (readCalls_safe BUFF_SIZE hB r hs n).1
  exact ⟨a1, a2, a4, fun hlt => ⟨(b hlt).1, (b hlt).2.1, (b hlt).2.2.1⟩⟩

/-- Witness for C19: `smallResponse` in two pieces with a buffer of 32 bytes,
after one call of `read`. -/
theorem bytes_buffered_in_bounds_witness :
    ∃ r, HttpResponse.new 32 (fun _ => 'x')
        (chunked [smallResponse.take 30, smallResponse.drop 30]) = Except.ok r ∧
      0 ≤ (readCalls 32 1 r).bytes_buffered ∧
      (readCalls 32 1 r).bytes_buffered ≤ ((32 : Nat) : Int) ∧
      CallsInBounds 32 (readCalls 32 1 r).sock.calls ∧
      ((readCalls 32 1 r).bytes_read < (readCalls 32 1 r).content_length →
        0 ≤ (HttpResponse.read 32 (readCalls 32 1 r)).ret ∧
        (HttpResponse.read 32 (readCalls 32 1 r)).ret ≤ ((32 : Nat) : Int) ∧
        ((HttpResponse.read 32 (readCalls 32 1 r)).written.length : Int) =
          (HttpResponse.read 32 (readCalls 32 1 r)).ret) :=
  ⟨_, rfl, bytes_buffered_in_bounds 32 (by decide) (fun _ => 'x')
    (chunked [smallResponse.take 30, smallResponse.drop 30])
    (noError_of_flowing _ (flowing_chunked _ (by decide))) _ rfl 1⟩

/-- C20 (bounded overshoot): on a socket whose reads return a count between 0
and the number requested, with a buffer of at least one byte and
`content_length >= 0`, after construction and any number of calls of `read`
`bytes_read` is at least 0 and less than `content_length + BUFF_SIZE`; and
once `bytes_read` has reached `content_length` a further call leaves it
unchanged, so only the call that crosses `content_length` can overshoot. -/
theorem bounded_overshoot (BUFF_SIZE : Nat) (hB0 : 0 < BUFF_SIZE)
    (hB : BUFF_SIZE < 2147483648) (buffer : Nat → Char) (pending : List Event)
    (hd : NoError pending) (r : HttpResponse)
    (h : HttpResponse.new BUFF_SIZE buffer pending = Except.ok r)
    (hcl : 0 ≤ r.content_length) (n : Nat) :
    0 ≤ (readCalls BUFF_SIZE n r).bytes_read ∧
    (readCalls BUFF_SIZE n r).bytes_read < r.content_length + (BUFF_SIZE : Int) ∧
    (r.content_length ≤ (readCalls BUFF_SIZE n r).bytes_read →
      (readCalls BUFF_SIZE (n + 1) r).bytes_read = (readCalls BUFF_SIZE n r).bytes_read) := by
  have hs := new_safe BUFF_SIZE hB buffer pending hd r h
  have hbr : r.bytes_read = 0 := (new_built BUFF_SIZE buffer pending r h).2
  obtain ⟨a1, a2⟩ := readCalls_overshoot BUFF_SIZE hB r hs (by omega) (by omega) n
  refine ⟨a1, a2, fun hge => ?_⟩
  obtain ⟨_, hc⟩ := readCalls_safe BUFF_SIZE hB r hs n
  rw [readCalls_succ, read_exhausted BUFF_SIZE _ (by omega)]

/-- Witness for C20: the response `longBody`, which carries 5 bytes behind an
announced length of 2, after two calls of `read`. -/
theorem bounded_overshoot_witness :
    ∃ r, HttpResponse.new 64 (fun _ => 'x') (chunked [longBody]) = Except.ok r ∧
      0 ≤ (readCalls 64 2 r).bytes_read ∧
      (readCalls 64 2 r).bytes_read < r.content_length + ((64 : Nat) : Int) ∧
      (r.content_length ≤ (readCalls 64 2 r).bytes_read →
        (readCalls 64 (2 + 1) r).bytes_read = (readCalls 64 2 r).bytes_read) :=
  ⟨_, rfl, bounded_overshoot 64 (by decide) (by decide) (fun _ => 'x') (chunked [longBody])
    (noError_of_flowing _ (flowing_chunked _ (by decide))) _ rfl (by decide) 2⟩

end HttpSockets
